import Mathlib

/-!
# A verification development for the JavaScript-subset front end (`src/main.cpp`)

The lexer of `src/main.cpp` is embedded as pure Lean functions on an explicit
lexer state.  A C string is a `List Char`: the characters of the array, of which
the string proper is the part before the first NUL (`strlen`).  The cursor of the lexer
(`size_t` in the source) is a natural number.  What the source keeps in an `int` (the
row and the line start of the lexer, the three coordinates of a `Location`, the
arguments of `strslice`) is an integer reduced modulo `2^32` into the range of `int`
wherever the source stores or computes one (`to_int`, `size_to_int`): the offset
`2^31` is stored as `-2^31`.  The general theorems about the lexer take the source to be
shorter than `2^31` characters; in that range every offset, row and line start fits an
`int`, no `int` operation of the source overflows and `strslice` is never asked for
characters outside the array.  Nothing is claimed about longer sources.

Every `while` loop of the source is a structurally recursive function on a step
budget.  A loop that would need more steps than its budget yields `none`; the
budget each caller passes is the number of characters left, and the theorems
state their results as `some _`, so nothing is proved about a run that was cut
short.

The parser is embedded the same way on an explicit parser state.  A method of the parser
either returns (`Ran.returned`) or is left by an exception (`Ran.threw`): `m_tokens->at`
past the end of the token vector throws `std::out_of_range`.  What the parser prints to
`stderr` is kept in the state.
-/

namespace JsParser

/-! ## C library functions used by the source

The `<ctype.h>` predicates are those of the "C" locale; a character outside ASCII is in
none of the classes. -/

/-- The string terminator. -/
def NUL : Char := Char.ofNat 0

def SQUOTE : Char := Char.ofNat 39
def DQUOTE : Char := Char.ofNat 34
def BQUOTE : Char := Char.ofNat 96
def BACKSLASH : Char := Char.ofNat 92
def NEWLINE : Char := Char.ofNat 10

/-- The array read `s[i]`; past the characters of the array stands the terminator. -/
def charAt (s : List Char) (i : Nat) : Char := List.getD s i NUL

/-- The content of a C string: the characters before the first NUL. -/
def cstr (s : List Char) : List Char := s.takeWhile (fun c => c != NUL)

/-- The C library's `strlen`: the number of characters before the first NUL. -/
def strlen (s : List Char) : Nat := (cstr s).length

/-- The C library's `strcmp(a, b) == 0`: the two strings have the same content. -/
def strcmp_eq (a b : List Char) : Bool := cstr a == cstr b

/-- The C library's `isspace` in the "C" locale: space, `\t`, `\n`, `\v`, `\f`, `\r`. -/
def isspace (c : Char) : Bool := c.toNat == 32 || (9 ≤ c.toNat && c.toNat ≤ 13)

/-- The C library's `isdigit`. -/
def isdigit (c : Char) : Bool := 48 ≤ c.toNat && c.toNat ≤ 57

/-- The C library's `isalpha` in the "C" locale. -/
def isalpha (c : Char) : Bool :=
  (65 ≤ c.toNat && c.toNat ≤ 90) || (97 ≤ c.toNat && c.toNat ≤ 122)

/-- The C library's `isalnum`. -/
def isalnum (c : Char) : Bool := isalpha c || isdigit c

/-! ## The type `int` -/

/-- The value an `int` holds when the integer `x` is stored in it: `x` itself when it lies
in the range from `-2^31` to `2^31 - 1`, and otherwise `x` reduced modulo `2^32` into
that range.  It is what the conversion of a `size_t` to `int` yields, and what `int`
arithmetic yields on the machines the program is built for. -/
def to_int (x : Int) : Int :=
  if -2147483648 ≤ x ∧ x ≤ 2147483647 then x
  else (x + 2147483648) % 4294967296 - 2147483648

/-- The conversion of a `size_t` to `int`, as where the source passes `m_cursor` for an
`int` parameter or assigns it to an `int`. -/
def size_to_int (n : Nat) : Int := to_int (n : Int)

/-! ## `strslice` -/

/-- Source `strslice(input, start, end)`, on its `int` parameters: `nullptr` when the `int`
`end - start` is negative, otherwise a fresh copy of the `end - start` characters of
`input` from `start` on.  (With a negative `start` the source would copy from memory in
front of the array; here the copy then starts with the array.) -/
def strslice (input : List Char) (start stop : Int) : Option (List Char) :=
  let length := to_int (stop - start)
  if length < 0 then none else some ((input.drop start.toNat).take length.toNat)

/-! ## `Location` -/

/-- Source `Location`: a path and three `int` members. -/
structure Location where
  m_file_path : Option String
  m_cursor : Int
  m_row : Int
  m_bol : Int
  deriving DecidableEq, Repr

def Location.getPath (loc : Location) : String :=
  match loc.m_file_path with
  | none => "repl"
  | some p => p

def Location.getCursor (loc : Location) : Int := loc.m_cursor

def Location.getRow (loc : Location) : Int := loc.m_row

/-- Source `getCol`: `m_cursor - m_bol`, an `int` subtraction. -/
def Location.getCol (loc : Location) : Int := to_int (loc.m_cursor - loc.m_bol)

def Location.getBol (loc : Location) : Int := loc.m_bol

/-! ## Tokens -/

inductive TokenType
  | Identifier | Keyword | String | Number
  | Plus | Dash | Slash | Asterisk | Pipe | Carot | Ampersand | Percent
  | Exclamation | QuestionMark | Equal
  | Colon | Semicolon | Period | Comma | Hashtag
  | OpenParen | CloseParen | OpenBracket | CloseBracket
  | OpenSquareBracket | CloseSquareBracket | OpenAngleBracket | CloseAngleBracket
  deriving DecidableEq, Repr

/-- The `int` value of an enumerator of `enum TokenType : int`. -/
def TokenType.value : TokenType → Nat
  | .Identifier => 0 | .Keyword => 1 | .String => 2 | .Number => 3
  | .Plus => 4 | .Dash => 5 | .Slash => 6 | .Asterisk => 7 | .Pipe => 8 | .Carot => 9
  | .Ampersand => 10 | .Percent => 11 | .Exclamation => 12 | .QuestionMark => 13
  | .Equal => 14 | .Colon => 15 | .Semicolon => 16 | .Period => 17 | .Comma => 18
  | .Hashtag => 19 | .OpenParen => 20 | .CloseParen => 21 | .OpenBracket => 22
  | .CloseBracket => 23 | .OpenSquareBracket => 24 | .CloseSquareBracket => 25
  | .OpenAngleBracket => 26 | .CloseAngleBracket => 27

/-- A token: its kind, its text (`const char*`, `none` for a null pointer) and the
location it was given. -/
structure Token where
  m_type : TokenType
  m_slice : Option (List Char)
  m_location : Location
  deriving DecidableEq, Repr

/-! ## The lexer -/

/-- The members of `Lexer`: `m_cursor` is a `size_t`, `m_row` and `m_bol` are `int`s. -/
structure Lexer where
  m_file_path : Option String
  m_input : List Char
  m_cursor : Nat
  m_row : Int
  m_bol : Int
  deriving DecidableEq, Repr

/-- The constructor `Lexer(file_path, input)`. -/
def Lexer.new (file_path : Option String) (input : List Char) : Lexer :=
  { m_file_path := file_path, m_input := input, m_cursor := 0, m_row := 0, m_bol := 0 }

/-- Source `current()`: 0 past the end of the string, else `m_input[m_cursor]`; at
`m_cursor == strlen(m_input)` that character is the terminator. -/
def Lexer.current (l : Lexer) : Char :=
  if l.m_cursor > strlen l.m_input then NUL else charAt l.m_input l.m_cursor

def Lexer.is_eof (l : Lexer) : Bool := l.current == NUL

def Lexer.peek (l : Lexer) : Char :=
  if l.m_cursor + 1 ≥ strlen l.m_input then NUL else charAt l.m_input (l.m_cursor + 1)

/-- Source `getLocation()`: the `Location` constructor takes the cursor as an `int`. -/
def Lexer.getLocation (l : Lexer) : Location :=
  { m_file_path := l.m_file_path, m_cursor := size_to_int l.m_cursor, m_row := l.m_row,
    m_bol := l.m_bol }

/-- Source `consume()`: the character read (0 at end of input) and the state after.  After
a newline `m_row++` is an `int` increment and `m_bol = m_cursor` stores the cursor in
an `int`. -/
def Lexer.consume (l : Lexer) : Char × Lexer :=
  if l.is_eof then (NUL, l)
  else
    let ch := charAt l.m_input l.m_cursor
    let l1 := { l with m_cursor := l.m_cursor + 1 }
    if ch == NEWLINE then
      (ch, { l1 with m_row := to_int (l1.m_row + 1), m_bol := size_to_int l1.m_cursor })
    else (ch, l1)

/-- Source `consume_expect(const char* word)`; the one call site passes a string literal, so
`word` is never null. Row and line start are not touched on this path. -/
def Lexer.consume_expect_word (l : Lexer) (word : List Char) : Bool × Lexer :=
  if l.is_eof then (false, l)
  else
    match strslice l.m_input (size_to_int l.m_cursor)
        (size_to_int (l.m_cursor + strlen word)) with
    | none => (false, l)
    | some value =>
      let same := strcmp_eq value word
      if same then (same, { l with m_cursor := l.m_cursor + strlen word }) else (same, l)

/-- Source `consume_expect(char ch)`. -/
def Lexer.consume_expect_char (l : Lexer) (ch : Char) : Bool × Lexer :=
  if l.is_eof || ch == NUL then (false, l)
  else
    let same := l.current == ch
    if same then (same, l.consume.2) else (same, l)

/-- The loop of `consume_while`, on a step budget. -/
def Lexer.consume_while_loop (condition : Char → Bool) : Nat → Lexer → Option Lexer
  | 0, l => if !l.is_eof && condition l.current then none else some l
  | fuel + 1, l =>
    if !l.is_eof && condition l.current then consume_while_loop condition fuel l.consume.2
    else some l

/-- Source `consume_while(condition)`. -/
def Lexer.consume_while (l : Lexer) (condition : Char → Bool) : Option Lexer :=
  Lexer.consume_while_loop condition (strlen l.m_input - l.m_cursor) l

/-- Source `trim_left()`. -/
def Lexer.trim_left (l : Lexer) : Option Lexer := l.consume_while isspace

/-- The 27 entries of `KEYWORDS`. -/
def KEYWORDS : List (List Char) :=
  [ "this", "new",
    "async", "function",
    "return", "yield", "continue", "break",
    "let", "const", "var",
    "private", "public", "protected", "override",
    "interface", "class", "enum",
    "true", "false",
    "if", "while", "do", "else", "catch",
    "null", "debugger" ].map String.toList

/-- Source `isKeyword(word)`: some entry of `KEYWORDS` compares equal to `word`. -/
def isKeyword (word : List Char) : Bool := KEYWORDS.any (fun keyword => strcmp_eq keyword word)

/-- The entries `charTokenType` puts into its map `CHAR_TOKENS`, in the order of the source. -/
def CHAR_TOKENS : List (Char × TokenType) :=
  [ ('+', .Plus), ('-', .Dash), ('/', .Slash), ('*', .Asterisk), ('|', .Pipe), ('^', .Carot),
    ('&', .Ampersand), ('%', .Percent), ('!', .Exclamation), ('?', .QuestionMark),
    ('=', .Equal), (':', .Colon), (';', .Semicolon), ('.', .Period), (',', .Comma),
    ('#', .Hashtag), ('(', .OpenParen), (')', .CloseParen),
    (Char.ofNat 123, .OpenBracket), (Char.ofNat 125, .CloseBracket),
    ('[', .OpenSquareBracket), (']', .CloseSquareBracket),
    ('<', .OpenAngleBracket), ('>', .CloseAngleBracket) ]

/-- Source `charTokenType(word)`: the lookup `CHAR_TOKENS[word]`; for a character that is not a
key, `operator[]` of the map yields a value-initialised `TokenType`, the enumerator 0. -/
def charTokenType (word : Char) : TokenType :=
  match CHAR_TOKENS.lookup word with
  | some type => type
  | none => .Identifier

/-- The messages `Lexer::parse` passes to `report`. -/
inductive LexMessage
  /-- Message "expected closing quote on string" -/
  | expected_closing_quote
  /-- Message "ERROR: failed to get value for identifier, is null." -/
  | identifier_is_null
  /-- Message "Unexpected char whilst lexing..." -/
  | unexpected_char
  deriving DecidableEq, Repr

/-- What one call of `Lexer::parse` leaves behind: the value returned, the content of
the caller's token vector, and on failure the message and location given to `report`. -/
inductive LexOutcome
  | success (tokens : List Token)
  | failure (tokens : List Token) (message : LexMessage) (location : Location)
  deriving DecidableEq, Repr

/-- The scanning loop of the string branch:
`while (!is_eof() && current() != quote) { ch = consume(); if (ch == backslash) consume(); }`. -/
def Lexer.string_loop (quote : Char) : Nat → Lexer → Option Lexer
  | 0, l => if !l.is_eof && l.current != quote then none else some l
  | fuel + 1, l =>
    if !l.is_eof && l.current != quote then
      let r := l.consume
      if r.1 == BACKSLASH then string_loop quote fuel r.2.consume.2
      else string_loop quote fuel r.2
    else some l

/-- How one pass through the body of the main loop ends. -/
inductive LoopStep
  /-- The statement `continue` -/
  | next (l : Lexer) (tokens : List Token)
  /-- The statement `return false` after a `report` -/
  | stop (tokens : List Token) (message : LexMessage) (location : Location)
  deriving DecidableEq, Repr

/-- The body of the `while (!is_eof())` loop of `Lexer::parse`. -/
def Lexer.parse_body (l0 : Lexer) (tokens : List Token) : Option LoopStep :=
  match l0.trim_left with
  | none => none
  | some l =>
    let ch := l.current
    let startLocation := l.getLocation
    -- Comments
    if ch == '/' && l.peek == '/' then
      match (l.consume_expect_word ['/', '/']).2.consume_while (fun ch => ch != NEWLINE) with
      | none => none
      | some l1 => some (.next l1 tokens)
    -- Strings
    else if ch == SQUOTE || ch == DQUOTE || ch == BQUOTE then
      let start := l.m_cursor
      let r := l.consume
      let quote := r.1
      match Lexer.string_loop quote (strlen r.2.m_input - r.2.m_cursor) r.2 with
      | none => none
      | some l1 =>
        let e := l1.consume_expect_char quote
        if !e.1 then some (.stop tokens .expected_closing_quote startLocation)
        else
          let out := strslice e.2.m_input (size_to_int start) (size_to_int e.2.m_cursor)
          some (.next e.2 (tokens ++ [Token.mk .String out startLocation]))
    -- Identifiers/Keywords
    else if isalpha ch || ch == '_' then
      let location := l.getLocation
      let start := l.m_cursor
      match l.consume_while (fun ch => isalnum ch || ch == '_') with
      | none => none
      | some l1 =>
        match strslice l1.m_input (size_to_int start) (size_to_int l1.m_cursor) with
        | none => some (.stop tokens .identifier_is_null location)
        | some word =>
          let type := if isKeyword word then TokenType.Keyword else TokenType.Identifier
          some (.next l1 (tokens ++ [Token.mk type (some word) location]))
    -- Numbers
    else if isdigit ch then
      let start := l.m_cursor
      match l.consume_while (fun ch => isdigit ch) with
      | none => none
      | some l1 =>
        let value := strslice l1.m_input (size_to_int start) (size_to_int l1.m_cursor)
        some (.next l1 (tokens ++ [Token.mk .Number value startLocation]))
    else
      let charType := charTokenType ch
      if charType.value > 0 then
        let start := size_to_int l.m_cursor
        let l1 := l.consume.2
        let ch1 := strslice l1.m_input start (size_to_int l1.m_cursor)
        some (.next l1 (tokens ++ [Token.mk charType ch1 startLocation]))
      else some (.stop tokens .unexpected_char startLocation)

/-- The main loop of `Lexer::parse`, on a step budget. -/
def Lexer.parse_loop : Nat → Lexer → List Token → Option LexOutcome
  | 0, l, tokens => if l.is_eof then some (.success tokens) else none
  | fuel + 1, l, tokens =>
    if l.is_eof then some (.success tokens)
    else
      match l.parse_body tokens with
      | none => none
      | some (.stop tokens1 message location) => some (.failure tokens1 message location)
      | some (.next l1 tokens1) => parse_loop fuel l1 tokens1

/-- Source `Lexer::parse(tokens)`: the vector is cleared, then the loop runs; every pass
through the loop that does not return consumes a character, so `strlen(m_input)`
passes are enough. -/
def Lexer.parse (l : Lexer) : Option LexOutcome :=
  Lexer.parse_loop (strlen l.m_input - l.m_cursor) l []

/-- Lexing a source text the way `main` does: `Lexer lexer(file_path, input); lexer.parse(&tokens)`. -/
def lex (file_path : Option String) (input : List Char) : Option LexOutcome :=
  (Lexer.new file_path input).parse

/-! ## The syntax tree

A class of the source is a structure holding the members of the base class subobject;
an object of a derived class is a constructor of `ExpressionNode` or `StatementNode`
holding that base subobject next to the members the derived class declares.  Every
derived class declares a private `m_location` of its own, which shadows the one of its
base class; `getLocation` of the base class is not virtual and reads the member of the
base class.  Only the classes the parser instantiates are embedded. -/

/-- The default constructor `Location()`: no path, offset 0, row 0, line start 0. -/
def Location.default : Location :=
  { m_file_path := none, m_cursor := 0, m_row := 0, m_bol := 0 }

/-- The members of class `Expression`. -/
structure Expression where
  m_class_name : String
  m_location : Location
  deriving DecidableEq, Repr

/-- The default constructor `Expression()`. -/
def Expression.new : Expression :=
  { m_class_name := "Expression", m_location := Location.default }

def Expression.getClassName (e : Expression) : String := e.m_class_name

def Expression.getLocation (e : Expression) : Location := e.m_location

/-- An object of a class derived from `Expression`: `Identifier` with its members `m_name`
and `m_location`, `Literal` with its members `m_value` and `m_location`. -/
inductive ExpressionNode
  | Identifier (base : Expression) (m_name : Option (List Char)) (m_location : Location)
  | Literal (base : Expression) (m_value : Option (List Char)) (m_location : Location)
  deriving DecidableEq, Repr

/-- The `Expression` subobject an `Expression*` to the object gives access to. -/
def ExpressionNode.base : ExpressionNode → Expression
  | .Identifier base _ _ => base
  | .Literal base _ _ => base

/-- The constructor `Identifier(name, location)`: the base is default-constructed, the
members of `Identifier` are set, the body sets `m_class_name`. -/
def Identifier.new (name : Option (List Char)) (location : Location) : ExpressionNode :=
  .Identifier { Expression.new with m_class_name := "Identifier" } name location

/-- The constructor `Literal(value, location)`. -/
def Literal.new (value : Option (List Char)) (location : Location) : ExpressionNode :=
  .Literal { Expression.new with m_class_name := "Literal" } value location

/-- The members of class `Statement`. -/
structure Statement where
  m_class_name : String
  m_location : Location
  deriving DecidableEq, Repr

/-- The default constructor `Statement()`. -/
def Statement.new : Statement :=
  { m_class_name := "Statement", m_location := Location.default }

def Statement.getClassName (s : Statement) : String := s.m_class_name

def Statement.getLocation (s : Statement) : Location := s.m_location

/-- An object of a class derived from `Statement`, with the members the derived class
declares. -/
inductive StatementNode
  | EmptyStatement (base : Statement) (m_location : Location)
  | DebuggerStatement (base : Statement) (m_location : Location)
  | ExpressionStatement (base : Statement) (m_expression : ExpressionNode)
      (m_location : Location)
  deriving DecidableEq, Repr

/-- The `Statement` subobject of the object: what `*statement` is for a `Statement*`. -/
def StatementNode.base : StatementNode → Statement
  | .EmptyStatement base _ => base
  | .DebuggerStatement base _ => base
  | .ExpressionStatement base _ _ => base

/-- The constructor `EmptyStatement(location)`. -/
def EmptyStatement.new (location : Location) : StatementNode :=
  .EmptyStatement { Statement.new with m_class_name := "EmptyStatement" } location

/-- The constructor `DebuggerStatement(location)`. -/
def DebuggerStatement.new (location : Location) : StatementNode :=
  .DebuggerStatement { Statement.new with m_class_name := "DebuggerStatement" } location

/-- The constructor `ExpressionStatement(expression, location)`. -/
def ExpressionStatement.new (expression : ExpressionNode) (location : Location) :
    StatementNode :=
  .ExpressionStatement { Statement.new with m_class_name := "ExpressionStatement" }
    expression location

/-- The class `Program`: a `std::vector<Statement>`, a vector of objects of the base
class. -/
structure Program where
  m_statements : List Statement
  deriving DecidableEq, Repr

def Program.statements (program : Program) : List Statement := program.m_statements

/-! ## The parser -/

/-- The messages the parser writes to `stderr`, through `report` or directly. -/
inductive ParserMessage
  /-- Message "TODO: function statement" -/
  | todo_function_statement
  /-- Message "TODO: block statement" -/
  | todo_block_statement
  /-- Message "TODO: return statement" -/
  | todo_return_statement
  /-- Message "TODO: array expr" -/
  | todo_array_expr
  /-- Message "TODO: member expr" -/
  | todo_member_expr
  /-- Message "TODO: assignment expression" -/
  | todo_assignment_expression
  /-- Message "TODO: call expr" -/
  | todo_call_expr
  /-- Message "TODO: binar expr" -/
  | todo_binar_expr
  /-- Message "TODO: unary expr" -/
  | todo_unary_expr
  /-- Message "this might be error?" -/
  | this_might_be_error
  /-- Message "TODO: uhh i forgot the name of expr but its like not json yknow" -/
  | todo_not_json
  /-- Message "TODO: Implement expr" followed by the name of the token type -/
  | todo_implement_expr (type : TokenType)
  /-- Message "TODO: variable declaration statement" -/
  | todo_variable_declaration
  /-- Message "TODO: literals" -/
  | todo_literals
  /-- Message "TODO: do/for statement" -/
  | todo_do_for
  /-- Message "TODO: statement keyword for" followed by the text of the token -/
  | todo_statement_keyword (slice : Option (List Char))
  /-- Message "[Parser::parse_statement] TODO: statement other for", written with
  `fprintf` and without a location -/
  | todo_statement_other (type : TokenType) (slice : Option (List Char))
  deriving DecidableEq, Repr

/-- One diagnostic on `stderr`: the message and the location printed with it. -/
structure ParserReport where
  message : ParserMessage
  location : Option Location
  deriving DecidableEq, Repr

/-- The state of a `Parser`: the token vector, the cursor, and what the parser has written
to `stderr` so far.  The member `m_previous` is a null pointer throughout and is written
only behind `out != nullptr`, which no call satisfies. -/
structure Parser where
  m_tokens : List Token
  m_cursor : Nat
  m_stderr : List ParserReport
  deriving DecidableEq, Repr

/-- The constructor `Parser(tokens)`. -/
def Parser.new (tokens : List Token) : Parser :=
  { m_tokens := tokens, m_cursor := 0, m_stderr := [] }

/-- The ways a parser method ends without returning. -/
inductive Abort
  /-- The exception `std::out_of_range` thrown by `m_tokens->at(index)` -/
  | out_of_range (index : Nat)
  /-- The call `strcmp(slice, ...)` on a token whose slice is a null pointer -/
  | null_slice
  deriving DecidableEq, Repr

/-- How a call of a parser method ends: it returns a value and leaves the parser in a
state, or an exception leaves the method. -/
inductive Ran (α : Type)
  | returned (value : α) (p : Parser)
  | threw (a : Abort)
  deriving DecidableEq, Repr

/-- Sequencing: the rest of a method runs when the call returned, an exception passes
through. -/
def Ran.bind {α β : Type} (r : Ran α) (f : α → Parser → Ran β) : Ran β :=
  match r with
  | .returned value p => f value p
  | .threw a => .threw a

def Parser.is_eof (p : Parser) : Bool := decide (p.m_cursor ≥ p.m_tokens.length)

/-- Source `current()`: `m_tokens->at(m_cursor)`, which throws past the end. -/
def Parser.current (p : Parser) : Ran Token :=
  match p.m_tokens[p.m_cursor]? with
  | some token => .returned token p
  | none => .threw (.out_of_range p.m_cursor)

/-- Source `report(message, location)`. -/
def Parser.report_at (p : Parser) (message : ParserMessage) (location : Location) : Parser :=
  { p with m_stderr := p.m_stderr ++ [{ message := message, location := some location }] }

/-- Source `report(message)`: `report(message, current().getLocation())`. -/
def Parser.report (p : Parser) (message : ParserMessage) : Ran Unit :=
  p.current.bind fun token p1 => .returned () (p1.report_at message token.m_location)

/-- Source `consume(out, type, data)` with `out == nullptr`, as every call has it; the
line it prints at the end of input goes to `stdout`. -/
def Parser.consume (p : Parser) (type : TokenType) (data : Option (List Char)) : Ran Bool :=
  if p.is_eof then .returned false p
  else
    p.current.bind fun current p1 =>
      if current.m_type != type then .returned false p1
      else
        match data with
        | none => .returned true { p1 with m_cursor := p1.m_cursor + 1 }
        | some d =>
          match current.m_slice with
          | none => .threw .null_slice
          | some s =>
            if !strcmp_eq s d then .returned false p1
            else .returned true { p1 with m_cursor := p1.m_cursor + 1 }

def Parser.isBinaryType (type : TokenType) : Bool :=
  type == .Plus || type == .Dash || type == .Percent || type == .Dash

def Parser.parse_function_statement (p : Parser) : Ran (Option StatementNode) :=
  (p.report .todo_function_statement).bind fun _ p1 => .returned none p1

def Parser.parse_block_statement (p : Parser) : Ran (Option StatementNode) :=
  (p.report .todo_block_statement).bind fun _ p1 => .returned none p1

def Parser.parse_return_statement (p : Parser) : Ran (Option StatementNode) :=
  (p.report .todo_return_statement).bind fun _ p1 => .returned none p1

def Parser.parse_array_expression (p : Parser) : Ran (Option ExpressionNode) :=
  (p.report .todo_array_expr).bind fun _ p1 => .returned none p1

def Parser.parse_member_expression (p : Parser) (_object : ExpressionNode) :
    Ran (Option ExpressionNode) :=
  (p.report .todo_member_expr).bind fun _ p1 => .returned none p1

def Parser.parse_assignment_expression (p : Parser) (_left : ExpressionNode) :
    Ran (Option ExpressionNode) :=
  (p.report .todo_assignment_expression).bind fun _ p1 => .returned none p1

def Parser.parse_call_expression (p : Parser) (_callee : ExpressionNode) :
    Ran (Option ExpressionNode) :=
  (p.report .todo_call_expr).bind fun _ p1 => .returned none p1

def Parser.parse_binary_expression (p : Parser) (_left : ExpressionNode) :
    Ran (Option ExpressionNode) :=
  (p.report .todo_binar_expr).bind fun _ p1 => .returned none p1

def Parser.parse_if_statement (p : Parser) : Ran (Option StatementNode) := .returned none p

def Parser.parse_while_statement (p : Parser) : Ran (Option StatementNode) := .returned none p

/-- The test `data != nullptr && (strcmp(data, "true") == 0 || strcmp(data, "false") == 0
|| strcmp(data, "null") == 0)` of `parse_expression`. -/
def Parser.isLiteralKeyword (data : Option (List Char)) : Bool :=
  match data with
  | none => false
  | some d =>
    strcmp_eq d "true".toList || strcmp_eq d "false".toList || strcmp_eq d "null".toList

def Parser.parse_expression (p : Parser) : Ran (Option ExpressionNode) :=
  if p.is_eof then .returned none p
  else
    p.current.bind fun current p =>
      let type := current.m_type
      let location := current.m_location
      let data := current.m_slice
      if Parser.isBinaryType type then
        (p.report .todo_unary_expr).bind fun _ p => .returned none p
      else if current.m_type == .Identifier || current.m_type == .Number ||
          current.m_type == .String ||
          (current.m_type == .Keyword && Parser.isLiteralKeyword data) then
        (p.consume type none).bind fun _ p =>
          let ret := if type == .Identifier then Identifier.new data location
            else Literal.new data location
          if p.is_eof then
            (p.report .this_might_be_error).bind fun _ p => .returned none p
          else
            p.current.bind fun current p =>
              let type := current.m_type
              if type == .Period then p.parse_member_expression ret
              else if type == .Equal then p.parse_assignment_expression ret
              else if type == .OpenParen then p.parse_call_expression ret
              else if type == .Colon then
                (p.report .todo_not_json).bind fun _ p => .returned none p
              else if Parser.isBinaryType type then p.parse_binary_expression ret
              else .returned (some ret) p
      -- Array Expression
      else if current.m_type == .OpenSquareBracket then p.parse_array_expression
      else (p.report (.todo_implement_expr type)).bind fun _ p => .returned none p

/-- Source `parse_expression_statement()`: the location handed to the constructor is
`expression->getLocation()` through an `Expression*`. -/
def Parser.parse_expression_statement (p : Parser) : Ran (Option StatementNode) :=
  p.parse_expression.bind fun expression p =>
    match expression with
    | none => .returned none p
    | some e => .returned (some (ExpressionStatement.new e e.base.getLocation)) p

/-- The end of the keyword branch of `parse_statement`, which every keyword but `do` and
`for` reaches: `consume(Semicolon); if (ret) return ret; report(...); return nullptr;`. -/
def Parser.parse_statement_keyword_end (p : Parser) (ret : Option StatementNode)
    (slice : Option (List Char)) (location : Location) : Ran (Option StatementNode) :=
  (p.consume .Semicolon none).bind fun _ p =>
    match ret with
    | some statement => .returned (some statement) p
    | none => .returned none (p.report_at (.todo_statement_keyword slice) location)

def Parser.parse_statement (p : Parser) : Ran (Option StatementNode) :=
  if p.is_eof then .returned none p
  else
    p.current.bind fun current p =>
      let location := current.m_location
      let type := current.m_type
      let slice := current.m_slice
      if type == .Keyword then
        match slice with
        | none => .threw .null_slice
        | some s =>
          if strcmp_eq s "async".toList || strcmp_eq s "function".toList then
            p.parse_function_statement.bind fun ret p =>
              p.parse_statement_keyword_end ret slice location
          else if strcmp_eq s "return".toList then
            p.parse_return_statement.bind fun ret p =>
              p.parse_statement_keyword_end ret slice location
          else if strcmp_eq s "const".toList || strcmp_eq s "let".toList ||
              strcmp_eq s "var".toList then
            (p.report_at .todo_variable_declaration current.m_location).parse_statement_keyword_end
              none slice location
          else if strcmp_eq s "true".toList || strcmp_eq s "false".toList ||
              strcmp_eq s "null".toList then
            (p.report .todo_literals).bind fun _ p =>
              p.parse_statement_keyword_end none slice location
          else if strcmp_eq s "if".toList then
            p.parse_if_statement.bind fun ret p =>
              p.parse_statement_keyword_end ret slice location
          else if strcmp_eq s "while".toList then
            p.parse_while_statement.bind fun ret p =>
              p.parse_statement_keyword_end ret slice location
          else if strcmp_eq s "debugger".toList then
            (p.consume .Keyword none).bind fun _ p =>
              p.parse_statement_keyword_end (some (DebuggerStatement.new current.m_location))
                slice location
          else if strcmp_eq s "do".toList || strcmp_eq s "for".toList then
            .returned none (p.report_at .todo_do_for current.m_location)
          else p.parse_statement_keyword_end none slice location
      else if type == .OpenBracket then p.parse_block_statement
      else if type == .Semicolon then
        (p.consume .Semicolon none).bind fun _ p =>
          .returned (some (EmptyStatement.new location)) p
      else if type == .Identifier || type == .String || type == .Number ||
          type == .Period || type == .Equal || type == .OpenSquareBracket ||
          type == .Plus || type == .Dash || type == .Slash || type == .Percent then
        (p.consume .Semicolon none).bind fun _ p => p.parse_expression_statement
      else
        .returned none
          { p with m_stderr := p.m_stderr ++
              [{ message := .todo_statement_other type slice, location := none }] }

/-- The loop of `Parser::parse`, on a step budget; `statements.push_back(*statement)`
copies the `Statement` subobject of the object into the vector. -/
def Parser.parse_loop : Nat → Parser → List Statement → Option (Ran (Option Program))
  | 0, p, statements =>
    if p.is_eof then some (.returned (some { m_statements := statements }) p) else none
  | fuel + 1, p, statements =>
    if p.is_eof then some (.returned (some { m_statements := statements }) p)
    else
      match p.parse_statement with
      | .threw a => some (.threw a)
      | .returned none p1 => some (.returned none p1)
      | .returned (some statement) p1 => parse_loop fuel p1 (statements ++ [statement.base])

/-- Source `Parser::parse()`; a statement that is returned has consumed a token, so one
pass per token left is enough. -/
def Parser.parse (p : Parser) : Option (Ran (Option Program)) :=
  Parser.parse_loop (p.m_tokens.length - p.m_cursor) p []

/-- How a run of the front end, as `main` drives it, ends. -/
inductive FrontEndOutcome
  /-- The lexer returned `false`: "ERROR: failed to lex input" -/
  | lex_failed (tokens : List Token) (message : LexMessage) (location : Location)
  /-- An exception left `Parser::parse` -/
  | parse_threw (a : Abort)
  /-- The parser returned `nullptr`: "ERROR: failed to parse program" -/
  | parse_failed (p : Parser)
  /-- The parser returned a `Program` -/
  | parsed (program : Program) (p : Parser)
  deriving DecidableEq, Repr

/-- The front end as `main` runs it, on a source given as a parameter: `Lexer::parse`,
then `Parser::parse` on the tokens. -/
def front_end (file_path : Option String) (input : List Char) : Option FrontEndOutcome :=
  match lex file_path input with
  | none => none
  | some (.failure tokens message location) => some (.lex_failed tokens message location)
  | some (.success tokens) =>
    match (Parser.new tokens).parse with
    | none => none
    | some (.threw a) => some (.parse_threw a)
    | some (.returned none p) => some (.parse_failed p)
    | some (.returned (some program) p) => some (.parsed program p)

/-! ## The vocabulary of the specification

The predicates below say what the lexer guarantees; the theorems that follow prove
them of the definitions above. -/

/-- The number of newline characters before offset `k`. -/
def rowAt (input : List Char) (k : Nat) : Nat := (input.take k).count NEWLINE

/-- The number of characters between the last newline before offset `k` (or the start
of the text) and offset `k`. -/
def colAt (input : List Char) (k : Nat) : Nat :=
  ((input.take k).reverse.takeWhile (fun c => c != NEWLINE)).length

/-- The state invariant of the lexer on a source shorter than `2^31` characters: the
cursor is inside the string, the row is the number of newlines before the cursor and the
line start is the offset just past the last of them. -/
structure LexInv (l : Lexer) : Prop where
  bound : l.m_input.length < 2147483648
  cursor_le : l.m_cursor ≤ strlen l.m_input
  row_eq : l.m_row = rowAt l.m_input l.m_cursor
  bol_eq : l.m_bol + colAt l.m_input l.m_cursor = l.m_cursor

/-- The state `l1` comes after `l` in a run over the same source. -/
structure Lexer.Later (l l1 : Lexer) : Prop where
  input_eq : l1.m_input = l.m_input
  path_eq : l1.m_file_path = l.m_file_path
  cursor_le : l.m_cursor ≤ l1.m_cursor

/-- The test of the string branch: `ch` is one of the three delimiters. -/
def isQuote (c : Char) : Bool := c == SQUOTE || c == DQUOTE || c == BQUOTE

/-- The test of the identifier branch. -/
def isIdentStart (c : Char) : Bool := isalpha c || c == '_'

/-- The condition under which the identifier branch keeps consuming. -/
def isIdentPart (c : Char) : Bool := isalnum c || c == '_'

/-- A location the lexer hands out is consistent with the text: the offset lies in the
string, the row counts the newlines before it and the line start is the offset just past
the last of them. -/
structure LocSpec (path : Option String) (input : List Char) (loc : Location) : Prop where
  path_eq : loc.m_file_path = path
  cursor_nonneg : 0 ≤ loc.m_cursor
  cursor_le : loc.m_cursor.toNat ≤ strlen input
  row_eq : loc.m_row = rowAt input loc.m_cursor.toNat
  bol_eq : loc.m_bol + colAt input loc.m_cursor.toNat = loc.m_cursor

/-- The branch of the loop body a token came from, read off the character at its offset,
with what that branch guarantees about the characters `[start, stop)` it consumed. -/
def TokenKindSpec (input : List Char) (t : Token) (stop : Nat) : Prop :=
  (isQuote (charAt input t.m_location.m_cursor.toNat) = true ∧ t.m_type = TokenType.String ∧
      t.m_location.m_cursor.toNat + 2 ≤ stop ∧
      charAt input (stop - 1) = charAt input t.m_location.m_cursor.toNat) ∨
  (isQuote (charAt input t.m_location.m_cursor.toNat) = false ∧
      isIdentStart (charAt input t.m_location.m_cursor.toNat) = true ∧
      t.m_type = (if isKeyword ((input.drop t.m_location.m_cursor.toNat).take
          (stop - t.m_location.m_cursor.toNat)) = true then TokenType.Keyword else TokenType.Identifier) ∧
      (∀ i, t.m_location.m_cursor.toNat ≤ i → i < stop → isIdentPart (charAt input i) = true) ∧
      isIdentPart (charAt input stop) = false) ∨
  (isQuote (charAt input t.m_location.m_cursor.toNat) = false ∧
      isIdentStart (charAt input t.m_location.m_cursor.toNat) = false ∧
      isdigit (charAt input t.m_location.m_cursor.toNat) = true ∧ t.m_type = TokenType.Number ∧
      (∀ i, t.m_location.m_cursor.toNat ≤ i → i < stop → isdigit (charAt input i) = true) ∧
      isdigit (charAt input stop) = false) ∨
  (isQuote (charAt input t.m_location.m_cursor.toNat) = false ∧
      isIdentStart (charAt input t.m_location.m_cursor.toNat) = false ∧
      isdigit (charAt input t.m_location.m_cursor.toNat) = false ∧
      stop = t.m_location.m_cursor.toNat + 1 ∧
      t.m_type = charTokenType (charAt input t.m_location.m_cursor.toNat) ∧ 0 < t.m_type.value)

/-- What the lexer guarantees of a token it made from the characters `[start, stop)`,
`start` being the offset recorded in the token. -/
structure TokenSpec (path : Option String) (input : List Char) (t : Token) (stop : Nat) : Prop where
  loc : LocSpec path input t.m_location
  start_lt : t.m_location.m_cursor.toNat < stop
  stop_le : stop ≤ strlen input
  slice_eq : t.m_slice =
    some ((input.drop t.m_location.m_cursor.toNat).take (stop - t.m_location.m_cursor.toNat))
  kind : TokenKindSpec input t stop

/-- What one pass through the loop body guarantees, started in state `l0` with the
tokens `tokens`.  A pass that goes on has moved the cursor forward and has either skipped
whitespace and a comment (two slashes at an offset `j` and no newline from there to the
new cursor) or skipped whitespace and appended one token that ends at the new cursor.  A
pass that stops has skipped whitespace up to the location it reports. -/
def StepSpec (l0 : Lexer) (tokens : List Token) : LoopStep → Prop
  | .next l1 tokens1 =>
    l0.Later l1 ∧ LexInv l1 ∧ l0.m_cursor < l1.m_cursor ∧
      ((tokens1 = tokens ∧
          ∃ j, l0.m_cursor ≤ j ∧ j < l1.m_cursor ∧ charAt l0.m_input j = '/' ∧
            charAt l0.m_input (j + 1) = '/' ∧
            (∀ i, l0.m_cursor ≤ i → i < j → isspace (charAt l0.m_input i) = true) ∧
            (∀ k, j ≤ k → k < l1.m_cursor → charAt l0.m_input k ≠ NEWLINE)) ∨
        ∃ t, tokens1 = tokens ++ [t] ∧ l0.m_cursor ≤ t.m_location.m_cursor.toNat ∧
          TokenSpec l0.m_file_path l0.m_input t l1.m_cursor ∧
          ∀ i, l0.m_cursor ≤ i → i < t.m_location.m_cursor.toNat →
            isspace (charAt l0.m_input i) = true)
  | .stop tokens1 _ loc =>
    tokens1 = tokens ∧ LocSpec l0.m_file_path l0.m_input loc ∧
      l0.m_cursor ≤ loc.m_cursor.toNat ∧
      ∀ i, l0.m_cursor ≤ i → i < loc.m_cursor.toNat → isspace (charAt l0.m_input i) = true

/-- The tokens of a list lie in source order: each starts at or after `lo` and at or
after the end of the one before it, and the last ends at or before `hi`. -/
def TokensSpec (path : Option String) (input : List Char) : Nat → List Token → Nat → Prop
  | lo, [], hi => lo ≤ hi
  | lo, t :: ts, hi =>
    lo ≤ t.m_location.m_cursor.toNat ∧
      ∃ stop, TokenSpec path input t stop ∧ TokensSpec path input stop ts hi

/-- The offset `i` lies in the text of the token `t`. -/
def Token.Covers (t : Token) (i : Nat) : Prop :=
  ∃ text, t.m_slice = some text ∧ t.m_location.getCursor ≤ i ∧
    (i : Int) < t.m_location.getCursor + text.length

/-- The offset `i` lies in a line comment: two slashes that are not in the text of a
token of `tokens` stand at an offset `j ≤ i`, and no newline stands from `j` to `i`. -/
def InComment (input : List Char) (tokens : List Token) (i : Nat) : Prop :=
  ∃ j, j ≤ i ∧ charAt input j = '/' ∧ charAt input (j + 1) = '/' ∧
    (∀ k, j ≤ k → k ≤ i → charAt input k ≠ NEWLINE) ∧ ∀ t ∈ tokens, ¬ t.Covers j

/-- The tokens of a list account for the source before offset `hi`: every character
before `hi` is whitespace, lies in the text of one of the tokens or lies in a comment. -/
def CoverSpec (input : List Char) (tokens : List Token) (hi : Nat) : Prop :=
  ∀ i, i < hi →
    isspace (charAt input i) = true ∨ (∃ t ∈ tokens, t.Covers i) ∨ InComment input tokens i

/-- What `Lexer::parse` guarantees of its outcome. -/
def OutcomeSpec (path : Option String) (input : List Char) : LexOutcome → Prop
  | .success tokens => TokensSpec path input 0 tokens (strlen input)
  | .failure tokens _ loc =>
    LocSpec path input loc ∧
      (∃ hi, hi ≤ loc.m_cursor.toNat ∧ TokensSpec path input 0 tokens hi) ∧
      CoverSpec input tokens loc.m_cursor.toNat

/-- The 24 punctuation characters, in the order of the character table. -/
def PUNCTUATION : List Char := "+-/*|^&%!?=:;.,#()\x7b\x7d[]<>".toList

/-- One change of the lexer state.  The source assigns `m_cursor`, `m_row` and `m_bol` in
two places only: in `consume()`, and in `consume_expect(word)`, which `parse` calls with
the word `//` after it has seen that `current()` and `peek()` are both slashes. -/
inductive Lexer.Step : Lexer → Lexer → Prop
  | consume (l : Lexer) : Lexer.Step l l.consume.2
  | comment (l : Lexer) (h1 : l.current = '/') (h2 : l.peek = '/') :
    Lexer.Step l (l.consume_expect_word ['/', '/']).2

/-- The states the lexer can pass through when it starts in `l0`. -/
inductive Lexer.Reachable (l0 : Lexer) : Lexer → Prop
  | start : Lexer.Reachable l0 l0
  | step {l l1 : Lexer} : Lexer.Reachable l0 l → Lexer.Step l l1 → Lexer.Reachable l0 l1

/-- What `parse_statement` guarantees when it returns a statement `s`, called in state
`p` and leaving state `p1`: the statement is built from the token `t` under the cursor,
and one token is consumed, or two when a DebuggerStatement takes the semicolon after
the keyword. -/
def StatementSpec (p : Parser) (s : StatementNode) (p1 : Parser) : Prop :=
  ∃ t, p.m_tokens[p.m_cursor]? = some t ∧ p1.m_tokens = p.m_tokens ∧
    p1.m_cursor ≤ p.m_tokens.length ∧
    ((t.m_type = TokenType.Semicolon ∧ s = EmptyStatement.new t.m_location ∧
        p1.m_cursor = p.m_cursor + 1) ∨
      (t.m_type = TokenType.Keyword ∧ s = DebuggerStatement.new t.m_location ∧
        (p1.m_cursor = p.m_cursor + 1 ∨ p1.m_cursor = p.m_cursor + 2)) ∨
      (t.m_type = TokenType.Identifier ∧
        s = ExpressionStatement.new (Identifier.new t.m_slice t.m_location) Location.default ∧
        p1.m_cursor = p.m_cursor + 1) ∨
      ((t.m_type = TokenType.Number ∨ t.m_type = TokenType.String) ∧
        s = ExpressionStatement.new (Literal.new t.m_slice t.m_location) Location.default ∧
        p1.m_cursor = p.m_cursor + 1))

/-- What holds of a `Statement` object in the vector of a Program: it is the base
subobject of an EmptyStatement, a DebuggerStatement or an ExpressionStatement. -/
def SliceSpec (st : Statement) : Prop :=
  st.m_location = Location.default ∧
    (st.m_class_name = "EmptyStatement" ∨ st.m_class_name = "DebuggerStatement" ∨
      st.m_class_name = "ExpressionStatement")

/-! ## Facts about C strings -/

@[simp] theorem charAt_nil (i : Nat) : charAt [] i = NUL := by simp [charAt]

@[simp] theorem charAt_cons_zero (c : Char) (s : List Char) : charAt (c :: s) 0 = c := by
  simp [charAt]

@[simp] theorem charAt_cons_succ (c : Char) (s : List Char) (i : Nat) :
    charAt (c :: s) (i + 1) = charAt s i := by
  simp [charAt]

theorem charAt_eq_getElem (s : List Char) (i : Nat) (h : i < s.length) : charAt s i = s[i] := by
  simp [charAt, List.getD_eq_getElem?_getD, List.getElem?_eq_getElem h]

theorem strlen_nil : strlen [] = 0 := rfl

theorem strlen_cons (c : Char) (s : List Char) :
    strlen (c :: s) = if c = NUL then 0 else strlen s + 1 := by
  by_cases h : c = NUL <;> simp [strlen, cstr, List.takeWhile_cons, h]

theorem strlen_le_length (s : List Char) : strlen s ≤ s.length := by
  induction s with
  | nil => simp [strlen_nil]
  | cons c s ih =>
    rw [strlen_cons]
    split
    · simp
    · simp; omega

theorem charAt_ne_NUL_of_lt_strlen : ∀ (s : List Char) (i : Nat), i < strlen s → charAt s i ≠ NUL := by
  intro s
  induction s with
  | nil => intro i h; simp [strlen_nil] at h
  | cons c s ih =>
    intro i h
    rw [strlen_cons] at h
    by_cases hc : c = NUL
    · simp [hc] at h
    · simp only [hc, if_false] at h
      cases i with
      | zero => simpa using hc
      | succ i => simpa using ih i (by omega)

theorem charAt_strlen (s : List Char) : charAt s (strlen s) = NUL := by
  induction s with
  | nil => simp
  | cons c s ih =>
    rw [strlen_cons]
    by_cases hc : c = NUL
    · simp [hc]
    · simpa [hc] using ih

theorem strlen_eq_length_of_not_mem (s : List Char) (h : NUL ∉ s) : strlen s = s.length := by
  induction s with
  | nil => rfl
  | cons c s ih =>
    simp only [List.mem_cons, not_or] at h
    rw [strlen_cons, if_neg (Ne.symm h.1), ih h.2]; simp

theorem cstr_eq_self_of_not_mem (s : List Char) (h : NUL ∉ s) : cstr s = s := by
  induction s with
  | nil => rfl
  | cons c s ih =>
    simp only [List.mem_cons, not_or] at h
    have : cstr s = s := ih h.2
    simp only [cstr] at this ⊢
    simp [List.takeWhile_cons, Ne.symm h.1, this]

theorem lt_strlen_of_charAt_ne : ∀ (s : List Char) (i : Nat), i ≤ strlen s → charAt s i ≠ NUL → i < strlen s := by
  intro s i hle hne
  rcases Nat.lt_or_ge i (strlen s) with h | h
  · exact h
  · have : i = strlen s := by omega
    subst this
    exact absurd (charAt_strlen s) hne

theorem take_succ_charAt (s : List Char) (k : Nat) (h : k < s.length) :
    s.take (k + 1) = s.take k ++ [charAt s k] := by
  rw [List.take_succ, charAt_eq_getElem s k h]
  simp [List.getElem?_eq_getElem h]

/-! ## The position of an offset: row and column as the specification counts them -/

theorem rowAt_zero (input : List Char) : rowAt input 0 = 0 := by simp [rowAt]

theorem colAt_zero (input : List Char) : colAt input 0 = 0 := by simp [colAt]

theorem rowAt_succ (input : List Char) (k : Nat) (h : k < input.length) :
    rowAt input (k + 1) = rowAt input k + (if charAt input k = NEWLINE then 1 else 0) := by
  unfold rowAt
  rw [take_succ_charAt input k h, List.count_append]
  by_cases hc : charAt input k = NEWLINE
  · simp [hc]
  · simp [hc, List.count_singleton, Ne.symm hc]

theorem colAt_succ (input : List Char) (k : Nat) (h : k < input.length) :
    colAt input (k + 1) = if charAt input k = NEWLINE then 0 else colAt input k + 1 := by
  unfold colAt
  rw [take_succ_charAt input k h, List.reverse_append]
  by_cases hc : charAt input k = NEWLINE
  · simp [hc, List.takeWhile_cons]
  · simp [hc, List.takeWhile_cons]

/-! ## The type `int` on values in its range -/

theorem to_int_of_range (x : Int) (h0 : -2147483648 ≤ x) (h1 : x < 2147483648) :
    to_int x = x := by
  unfold to_int
  rw [if_pos ⟨h0, by omega⟩]

theorem size_to_int_of_lt (n : Nat) (h : n < 2147483648) : size_to_int n = (n : Int) :=
  to_int_of_range _ (by omega) (by omega)

/-! ## Basic facts about the lexer state -/

theorem Lexer.is_eof_iff (l : Lexer) : l.is_eof = true ↔ strlen l.m_input ≤ l.m_cursor := by
  unfold Lexer.is_eof Lexer.current
  constructor
  · intro h
    by_contra hlt
    have hlt2 : l.m_cursor < strlen l.m_input := by omega
    have hne := charAt_ne_NUL_of_lt_strlen _ _ hlt2
    have hgt : ¬ (l.m_cursor > strlen l.m_input) := by omega
    simp only [hgt, if_false, beq_iff_eq] at h
    exact hne h
  · intro h
    by_cases hgt : l.m_cursor > strlen l.m_input
    · simp [hgt]
    · have : l.m_cursor = strlen l.m_input := by omega
      simp [this, charAt_strlen]

theorem Lexer.not_eof_iff (l : Lexer) : l.is_eof = false ↔ l.m_cursor < strlen l.m_input := by
  rw [← Bool.not_eq_true, Lexer.is_eof_iff]; omega

theorem Lexer.current_of_le (l : Lexer) (h : l.m_cursor ≤ strlen l.m_input) :
    l.current = charAt l.m_input l.m_cursor := by
  unfold Lexer.current
  rw [if_neg (by omega)]

theorem Lexer.current_ne_NUL (l : Lexer) (h : l.m_cursor < strlen l.m_input) :
    l.current ≠ NUL := by
  rw [l.current_of_le (by omega)]
  exact charAt_ne_NUL_of_lt_strlen _ _ h

theorem Lexer.consume_of_eof (l : Lexer) (h : strlen l.m_input ≤ l.m_cursor) :
    l.consume = (NUL, l) := by
  unfold Lexer.consume
  rw [if_pos ((l.is_eof_iff).2 h)]

theorem Lexer.consume_fst (l : Lexer) (h : l.m_cursor < strlen l.m_input) :
    l.consume.1 = charAt l.m_input l.m_cursor := by
  unfold Lexer.consume
  rw [if_neg (by rw [Bool.not_eq_true]; exact (l.not_eof_iff).2 h)]
  dsimp only
  split <;> rfl

theorem Lexer.consume_input (l : Lexer) : l.consume.2.m_input = l.m_input := by
  unfold Lexer.consume
  split
  · rfl
  · dsimp only
    split <;> rfl

theorem Lexer.consume_path (l : Lexer) : l.consume.2.m_file_path = l.m_file_path := by
  unfold Lexer.consume
  split
  · rfl
  · dsimp only
    split <;> rfl

theorem Lexer.consume_cursor (l : Lexer) (h : l.m_cursor < strlen l.m_input) :
    l.consume.2.m_cursor = l.m_cursor + 1 := by
  unfold Lexer.consume
  rw [if_neg (by rw [Bool.not_eq_true]; exact (l.not_eof_iff).2 h)]
  dsimp only
  split <;> rfl

theorem Lexer.consume_row (l : Lexer) (h : l.m_cursor < strlen l.m_input) :
    l.consume.2.m_row =
      if charAt l.m_input l.m_cursor = NEWLINE then to_int (l.m_row + 1) else l.m_row := by
  unfold Lexer.consume
  rw [if_neg (by rw [Bool.not_eq_true]; exact (l.not_eof_iff).2 h)]
  dsimp only
  by_cases hc : charAt l.m_input l.m_cursor = NEWLINE <;> simp [hc]

theorem Lexer.consume_bol (l : Lexer) (h : l.m_cursor < strlen l.m_input) :
    l.consume.2.m_bol =
      if charAt l.m_input l.m_cursor = NEWLINE then size_to_int (l.m_cursor + 1)
      else l.m_bol := by
  unfold Lexer.consume
  rw [if_neg (by rw [Bool.not_eq_true]; exact (l.not_eof_iff).2 h)]
  dsimp only
  by_cases hc : charAt l.m_input l.m_cursor = NEWLINE <;> simp [hc]

theorem Lexer.Later.refl (l : Lexer) : l.Later l := ⟨rfl, rfl, Nat.le_refl _⟩

theorem Lexer.Later.trans {a b c : Lexer} (h1 : a.Later b) (h2 : b.Later c) : a.Later c :=
  ⟨h2.input_eq.trans h1.input_eq, h2.path_eq.trans h1.path_eq,
    Nat.le_trans h1.cursor_le h2.cursor_le⟩

theorem rowAt_le (input : List Char) (k : Nat) : rowAt input k ≤ input.length := by
  unfold rowAt
  exact Nat.le_trans (List.count_le_length _ _)
    (by rw [List.length_take]; exact Nat.min_le_right _ _)

theorem length_takeWhile_le (p : Char → Bool) (s : List Char) :
    (s.takeWhile p).length ≤ s.length := by
  induction s with
  | nil => simp
  | cons c s ih =>
    rw [List.takeWhile_cons]
    split
    · simp; omega
    · simp

theorem colAt_le (input : List Char) (k : Nat) : colAt input k ≤ k := by
  unfold colAt
  refine Nat.le_trans (length_takeWhile_le _ _) ?_
  rw [List.length_reverse, List.length_take]
  exact Nat.min_le_left _ _

theorem LexInv.new (file_path : Option String) (input : List Char)
    (hlen : input.length < 2147483648) : LexInv (Lexer.new file_path input) :=
  ⟨hlen, Nat.zero_le _, by simp [Lexer.new, rowAt_zero], by simp [Lexer.new, colAt_zero]⟩

theorem Lexer.consume_later (l : Lexer) : l.Later l.consume.2 := by
  refine ⟨l.consume_input, l.consume_path, ?_⟩
  rcases Nat.lt_or_ge l.m_cursor (strlen l.m_input) with h | h
  · rw [l.consume_cursor h]; omega
  · rw [l.consume_of_eof h]

theorem LexInv.consume {l : Lexer} (hl : LexInv l) : LexInv l.consume.2 := by
  rcases Nat.lt_or_ge l.m_cursor (strlen l.m_input) with h | h
  · have hlen : l.m_cursor < l.m_input.length := Nat.lt_of_lt_of_le h (strlen_le_length _)
    have hb := hl.bound
    have hrow := rowAt_le l.m_input (l.m_cursor + 1)
    refine ⟨?_, ?_, ?_, ?_⟩
    · rw [l.consume_input]; exact hb
    · rw [l.consume_input, l.consume_cursor h]; omega
    · rw [l.consume_input, l.consume_cursor h, l.consume_row h, hl.row_eq]
      rw [rowAt_succ _ _ hlen] at hrow ⊢
      split
      · rw [if_pos (by assumption)] at hrow
        rw [to_int_of_range _ (by omega) (by omega)]
        push_cast
        rfl
      · simp
    · rw [l.consume_input, l.consume_cursor h, l.consume_bol h, colAt_succ _ _ hlen]
      have := hl.bol_eq
      split
      · rw [size_to_int_of_lt _ (by omega)]
        simp
      · push_cast
        omega
  · rw [l.consume_of_eof h]; exact hl

/-! ## The loops that skip characters -/

theorem Lexer.consume_while_loop_spec (condition : Char → Bool) :
    ∀ (fuel : Nat) (l : Lexer), LexInv l → strlen l.m_input - l.m_cursor ≤ fuel →
      ∃ l1, Lexer.consume_while_loop condition fuel l = some l1 ∧ l.Later l1 ∧ LexInv l1 ∧
        (∀ i, l.m_cursor ≤ i → i < l1.m_cursor → condition (charAt l.m_input i) = true) ∧
        (l1.m_cursor < strlen l.m_input → condition (charAt l.m_input l1.m_cursor) = false) := by
  intro fuel
  induction fuel with
  | zero =>
    intro l hl hf
    have heof : l.is_eof = true := (l.is_eof_iff).2 (by omega)
    refine ⟨l, ?_, Lexer.Later.refl l, hl, ?_, ?_⟩
    · simp [Lexer.consume_while_loop, heof]
    · intro i h1 h2; omega
    · intro h; omega
  | succ fuel ih =>
    intro l hl hf
    by_cases hc : (!l.is_eof && condition l.current) = true
    · simp only [Bool.and_eq_true, Bool.not_eq_true'] at hc
      have hlt : l.m_cursor < strlen l.m_input := (l.not_eof_iff).1 hc.1
      have hcur : condition (charAt l.m_input l.m_cursor) = true := by
        rw [← l.current_of_le hl.cursor_le]; exact hc.2
      have hcu := l.consume_cursor hlt
      have hin := l.consume_input
      obtain ⟨l1, h1, h2, h3, h4, h5⟩ := ih l.consume.2 hl.consume (by rw [hin, hcu]; omega)
      refine ⟨l1, ?_, l.consume_later.trans h2, h3, ?_, ?_⟩
      · simp [Lexer.consume_while_loop, hc.1, hc.2, h1]
      · intro i hi1 hi2
        rcases Nat.eq_or_lt_of_le hi1 with he | hl2
        · rw [← he]; exact hcur
        · have := h4 i (by rw [hcu]; omega) hi2
          rwa [hin] at this
      · intro hlt1
        have := h5 (by rw [hin]; exact hlt1)
        rwa [hin] at this
    · refine ⟨l, ?_, Lexer.Later.refl l, hl, ?_, ?_⟩
      · simp [Lexer.consume_while_loop, hc]
      · intro i h1 h2; omega
      · intro hlt
        have hne : l.is_eof = false := (l.not_eof_iff).2 hlt
        rw [← l.current_of_le hl.cursor_le]
        simpa [hne] using hc

theorem Lexer.consume_while_spec (l : Lexer) (condition : Char → Bool) (hl : LexInv l) :
    ∃ l1, l.consume_while condition = some l1 ∧ l.Later l1 ∧ LexInv l1 ∧
      (∀ i, l.m_cursor ≤ i → i < l1.m_cursor → condition (charAt l.m_input i) = true) ∧
      (l1.m_cursor < strlen l.m_input → condition (charAt l.m_input l1.m_cursor) = false) :=
  Lexer.consume_while_loop_spec condition _ l hl (Nat.le_refl _)

theorem Lexer.string_loop_spec (quote : Char) :
    ∀ (fuel : Nat) (l : Lexer), LexInv l → strlen l.m_input - l.m_cursor ≤ fuel →
      ∃ l1, Lexer.string_loop quote fuel l = some l1 ∧ l.Later l1 ∧ LexInv l1 ∧
        (l1.m_cursor < strlen l.m_input → charAt l.m_input l1.m_cursor = quote) := by
  intro fuel
  induction fuel with
  | zero =>
    intro l hl hf
    have heof : l.is_eof = true := (l.is_eof_iff).2 (by omega)
    refine ⟨l, ?_, Lexer.Later.refl l, hl, ?_⟩
    · simp [Lexer.string_loop, heof]
    · intro h; omega
  | succ fuel ih =>
    intro l hl hf
    by_cases hc : (!l.is_eof && l.current != quote) = true
    · have hc2 := hc
      simp only [Bool.and_eq_true, Bool.not_eq_true'] at hc2
      have hlt : l.m_cursor < strlen l.m_input := (l.not_eof_iff).1 hc2.1
      have hcu := l.consume_cursor hlt
      have hin := l.consume_input
      have hlat := l.consume_later
      have hlat2 := l.consume.2.consume_later
      have hfuel1 : strlen l.consume.2.m_input - l.consume.2.m_cursor ≤ fuel := by
        rw [hin, hcu]; omega
      have hfuel2 : strlen l.consume.2.consume.2.m_input - l.consume.2.consume.2.m_cursor ≤ fuel := by
        have := hlat2.cursor_le
        rw [hlat2.input_eq]; omega
      by_cases hb : (l.consume.1 == BACKSLASH) = true
      · obtain ⟨l1, h1, h2, h3, h4⟩ := ih l.consume.2.consume.2 hl.consume.consume hfuel2
        refine ⟨l1, ?_, (hlat.trans hlat2).trans h2, h3, ?_⟩
        · rw [Lexer.string_loop, if_pos hc]
          simp only [hb, if_true]
          exact h1
        · intro hlt1
          have := h4 (by rw [hlat2.input_eq, hin]; exact hlt1)
          rwa [hlat2.input_eq, hin] at this
      · obtain ⟨l1, h1, h2, h3, h4⟩ := ih l.consume.2 hl.consume hfuel1
        refine ⟨l1, ?_, hlat.trans h2, h3, ?_⟩
        · rw [Lexer.string_loop, if_pos hc]
          simp only [hb]
          exact h1
        · intro hlt1
          have := h4 (by rw [hin]; exact hlt1)
          rwa [hin] at this
    · refine ⟨l, ?_, Lexer.Later.refl l, hl, ?_⟩
      · simp [Lexer.string_loop, hc]
      · intro hlt
        have hne : l.is_eof = false := (l.not_eof_iff).2 hlt
        rw [← l.current_of_le hl.cursor_le]
        simpa [hne] using hc

/-! ## Character classes -/

theorem isQuote_ne_NUL {c : Char} (h : isQuote c = true) : c ≠ NUL := by
  intro hc; subst hc; revert h; decide

theorem isIdentStart_ne_NUL {c : Char} (h : isIdentStart c = true) : c ≠ NUL := by
  intro hc; subst hc; revert h; decide

theorem isIdentPart_ne_NUL {c : Char} (h : isIdentPart c = true) : c ≠ NUL := by
  intro hc; subst hc; revert h; decide

theorem isdigit_ne_NUL {c : Char} (h : isdigit c = true) : c ≠ NUL := by
  intro hc; subst hc; revert h; decide

theorem isspace_ne_NUL {c : Char} (h : isspace c = true) : c ≠ NUL := by
  intro hc; subst hc; revert h; decide

theorem isIdentStart_isIdentPart {c : Char} (h : isIdentStart c = true) : isIdentPart c = true := by
  simp only [isIdentStart, isIdentPart, isalnum, Bool.or_eq_true] at h ⊢
  rcases h with h | h
  · exact Or.inl (Or.inl h)
  · exact Or.inr h

theorem value_charTokenType_pos_ne_NUL {c : Char} (h : 0 < (charTokenType c).value) : c ≠ NUL := by
  intro hc; subst hc; revert h; decide

/-! ## Slices -/

theorem drop_eq_charAt_cons (s : List Char) (i : Nat) (h : i < s.length) :
    s.drop i = charAt s i :: s.drop (i + 1) := by
  rw [charAt_eq_getElem s i h]
  exact List.drop_eq_getElem_cons h

theorem strslice_of_le (input : List Char) (start stop : Nat) (h : start ≤ stop)
    (hb : stop < 2147483648) :
    strslice input (size_to_int start) (size_to_int stop) =
      some ((input.drop start).take (stop - start)) := by
  unfold strslice
  rw [size_to_int_of_lt start (by omega), size_to_int_of_lt stop hb,
    to_int_of_range _ (by omega) (by omega)]
  dsimp only
  rw [if_neg (by omega), Int.toNat_ofNat,
    show ((stop : Int) - (start : Int)).toNat = stop - start by omega]

theorem slice_one (input : List Char) (i : Nat) (h : i < input.length) :
    (input.drop i).take 1 = [charAt input i] := by
  rw [drop_eq_charAt_cons input i h]; simp

theorem slice_two (input : List Char) (i : Nat) (h : i + 1 < input.length) :
    (input.drop i).take 2 = [charAt input i, charAt input (i + 1)] := by
  rw [drop_eq_charAt_cons input i (by omega), drop_eq_charAt_cons input (i + 1) h]; simp

/-! ## The two `consume_expect` overloads -/

theorem Lexer.peek_eq {l : Lexer} {c : Char} (hc : c ≠ NUL) (h : l.peek = c) :
    l.m_cursor + 1 < strlen l.m_input ∧ charAt l.m_input (l.m_cursor + 1) = c := by
  unfold Lexer.peek at h
  by_cases hge : l.m_cursor + 1 ≥ strlen l.m_input
  · rw [if_pos hge] at h; exact absurd h.symm hc
  · rw [if_neg hge] at h; exact ⟨by omega, h⟩

theorem Lexer.peek_of_lt (l : Lexer) (h : l.m_cursor + 1 < strlen l.m_input) :
    l.peek = charAt l.m_input (l.m_cursor + 1) := by
  unfold Lexer.peek
  rw [if_neg (by omega)]

theorem Lexer.peek_of_ge (l : Lexer) (h : strlen l.m_input ≤ l.m_cursor + 1) :
    l.peek = NUL := by
  unfold Lexer.peek
  rw [if_pos h]

theorem Lexer.consume_expect_word_slashes (l : Lexer) (hb : l.m_input.length < 2147483648)
    (h1 : charAt l.m_input l.m_cursor = '/')
    (h2 : l.m_cursor + 1 < strlen l.m_input) (h3 : charAt l.m_input (l.m_cursor + 1) = '/') :
    l.consume_expect_word ['/', '/'] = (true, { l with m_cursor := l.m_cursor + 2 }) := by
  have hlen := strlen_le_length l.m_input
  have hne : ¬ (l.is_eof = true) := by
    rw [Bool.not_eq_true]; exact (l.not_eof_iff).2 (by omega)
  have hw : strlen ['/', '/'] = 2 := by decide
  unfold Lexer.consume_expect_word
  rw [if_neg hne, hw, strslice_of_le _ _ _ (by omega) (by omega)]
  have hs : (l.m_input.drop l.m_cursor).take (l.m_cursor + 2 - l.m_cursor) = ['/', '/'] := by
    rw [show l.m_cursor + 2 - l.m_cursor = 2 by omega, slice_two _ _ (by omega), h1, h3]
  simp only [hs]
  rfl

theorem LexInv.skip_slashes {l : Lexer} (hl : LexInv l) (h1 : charAt l.m_input l.m_cursor = '/')
    (h2 : l.m_cursor + 1 < strlen l.m_input) (h3 : charAt l.m_input (l.m_cursor + 1) = '/') :
    LexInv { l with m_cursor := l.m_cursor + 2 } := by
  have hlen := strlen_le_length l.m_input
  have hn : ¬ (('/' : Char) = NEWLINE) := by decide
  refine ⟨hl.bound, ?_, ?_, ?_⟩
  · show l.m_cursor + 2 ≤ strlen l.m_input
    omega
  · show l.m_row = ((rowAt l.m_input (l.m_cursor + 1 + 1) : Nat) : Int)
    rw [rowAt_succ _ _ (by omega), rowAt_succ _ _ (by omega), h1, h3, if_neg hn, hl.row_eq]
    simp
  · show l.m_bol + ((colAt l.m_input (l.m_cursor + 1 + 1) : Nat) : Int) =
      ((l.m_cursor + 1 + 1 : Nat) : Int)
    rw [colAt_succ _ _ (by omega), colAt_succ _ _ (by omega), h1, h3, if_neg hn, if_neg hn]
    have := hl.bol_eq
    push_cast
    omega

theorem Lexer.consume_expect_char_eof (l : Lexer) (ch : Char) (h : strlen l.m_input ≤ l.m_cursor) :
    l.consume_expect_char ch = (false, l) := by
  unfold Lexer.consume_expect_char
  simp [(l.is_eof_iff).2 h]

theorem Lexer.consume_expect_char_hit (l : Lexer) (ch : Char) (h : l.m_cursor < strlen l.m_input)
    (hc : charAt l.m_input l.m_cursor = ch) :
    l.consume_expect_char ch = (true, l.consume.2) := by
  have hcur : l.current = ch := by rw [l.current_of_le (by omega)]; exact hc
  have hne : ch ≠ NUL := by rw [← hc]; exact charAt_ne_NUL_of_lt_strlen _ _ h
  unfold Lexer.consume_expect_char
  simp [(l.not_eof_iff).2 h, hne, hcur]

/-! ## What one pass through the loop body does -/

theorem Lexer.getLocation_cursor {l : Lexer} (hl : LexInv l) :
    l.getLocation.m_cursor = (l.m_cursor : Int) := by
  have h1 := hl.bound
  have h2 := hl.cursor_le
  have h3 := strlen_le_length l.m_input
  exact size_to_int_of_lt _ (by omega)

theorem Lexer.getLocation_toNat {l : Lexer} (hl : LexInv l) :
    l.getLocation.m_cursor.toNat = l.m_cursor := by
  rw [Lexer.getLocation_cursor hl]
  exact Int.toNat_ofNat _

theorem LexInv.locSpec {l : Lexer} (hl : LexInv l) :
    LocSpec l.m_file_path l.m_input l.getLocation := by
  have hc := Lexer.getLocation_cursor hl
  have ht := Lexer.getLocation_toNat hl
  refine ⟨rfl, by rw [hc]; omega, by rw [ht]; exact hl.cursor_le, ?_, ?_⟩
  · rw [ht]; exact hl.row_eq
  · rw [ht, hc]; exact hl.bol_eq

theorem LexInv.getCursor {l : Lexer} (hl : LexInv l) :
    l.getLocation.getCursor = (l.m_cursor : Int) :=
  Lexer.getLocation_cursor hl

theorem LexInv.getRow {l : Lexer} (hl : LexInv l) :
    l.getLocation.getRow = (rowAt l.m_input l.m_cursor : Int) :=
  hl.row_eq

theorem LexInv.getCol {l : Lexer} (hl : LexInv l) :
    l.getLocation.getCol = (colAt l.m_input l.m_cursor : Int) := by
  have h1 := hl.bound
  have h2 := hl.cursor_le
  have h3 := strlen_le_length l.m_input
  have h4 := hl.bol_eq
  have h5 := colAt_le l.m_input l.m_cursor
  show to_int (l.getLocation.m_cursor - l.m_bol) = _
  rw [Lexer.getLocation_cursor hl, to_int_of_range _ (by omega) (by omega)]
  omega

theorem LocSpec.of_later {l0 l : Lexer} (h : l0.Later l) (hl : LexInv l) :
    LocSpec l0.m_file_path l0.m_input l.getLocation := by
  have := hl.locSpec
  rwa [h.input_eq, h.path_eq] at this

theorem Lexer.parse_body_spec (l0 : Lexer) (tokens : List Token) (hl0 : LexInv l0) :
    ∃ step, l0.parse_body tokens = some step ∧ StepSpec l0 tokens step := by
  obtain ⟨l, htrim, hlat, hinv, hws, -⟩ := l0.consume_while_spec isspace hl0
  have hcur : l.current = charAt l.m_input l.m_cursor := l.current_of_le hinv.cursor_le
  have hlen := strlen_le_length l.m_input
  have hloc : LocSpec l0.m_file_path l0.m_input l.getLocation := LocSpec.of_later hlat hinv
  have hlt_of_ne : l.current ≠ NUL → l.m_cursor < strlen l.m_input := fun h =>
    lt_strlen_of_charAt_ne _ _ hinv.cursor_le (by rw [← hcur]; exact h)
  have hb : l0.m_input.length < 2147483648 := hl0.bound
  have hlen0 := strlen_le_length l0.m_input
  have hloceq : l.getLocation = ⟨l.m_file_path, (l.m_cursor : Int), l.m_row, l.m_bol⟩ := by
    have := hinv.bound
    have := hinv.cursor_le
    unfold Lexer.getLocation
    rw [size_to_int_of_lt _ (by omega)]
  unfold Lexer.parse_body Lexer.trim_left
  rw [htrim]
  dsimp only
  rw [hloceq] at hloc ⊢
  by_cases h1 : (l.current == '/' && l.peek == '/') = true
  · -- a comment
    rw [if_pos h1]
    simp only [Bool.and_eq_true, beq_iff_eq] at h1
    have hc1 : charAt l.m_input l.m_cursor = '/' := by rw [← hcur]; exact h1.1
    obtain ⟨hp1, hp2⟩ := Lexer.peek_eq (by decide) h1.2
    rw [l.consume_expect_word_slashes hinv.bound hc1 hp1 hp2]
    have hinv2 := hinv.skip_slashes hc1 hp1 hp2
    obtain ⟨l3, hw, hlat3, hinv3, hnn, -⟩ :=
      Lexer.consume_while_spec { l with m_cursor := l.m_cursor + 2 } (fun ch => ch != NEWLINE) hinv2
    dsimp only at hw ⊢
    rw [hw]
    have hc3 : l.m_cursor + 2 ≤ l3.m_cursor := hlat3.cursor_le
    have hc0 := hlat.cursor_le
    refine ⟨_, rfl, ⟨hlat3.input_eq.trans hlat.input_eq, hlat3.path_eq.trans hlat.path_eq,
      by omega⟩, hinv3, by omega,
      Or.inl ⟨rfl, l.m_cursor, hc0, by omega, by rw [← hlat.input_eq]; exact hc1,
        by rw [← hlat.input_eq]; exact hp2, hws, ?_⟩⟩
    intro k hk1 hk2
    rw [← hlat.input_eq]
    rcases Nat.lt_or_ge k (l.m_cursor + 2) with hk | hk
    · have hk3 : k = l.m_cursor ∨ k = l.m_cursor + 1 := by omega
      rcases hk3 with hk3 | hk3 <;> rw [hk3]
      · rw [hc1]; decide
      · rw [hp2]; decide
    · have := hnn k hk hk2
      simpa using this
  rw [if_neg h1]
  by_cases h2 : (l.current == SQUOTE || l.current == DQUOTE || l.current == BQUOTE) = true
  · rw [if_pos h2]
    have hq : isQuote l.current = true := h2
    have hlt := hlt_of_ne (isQuote_ne_NUL hq)
    have hfst := l.consume_fst hlt
    have hcu := l.consume_cursor hlt
    have hin := l.consume_input
    have hinv1 := hinv.consume
    obtain ⟨l1, hs, hlat1, hinvl1, hstop⟩ :=
      Lexer.string_loop_spec l.consume.1 _ l.consume.2 hinv1 (Nat.le_refl _)
    rw [hs]
    dsimp only
    have e1 : l1.m_input = l0.m_input := (hlat1.input_eq.trans hin).trans hlat.input_eq
    have hc1 : l.m_cursor + 1 ≤ l1.m_cursor := by rw [← hcu]; exact hlat1.cursor_le
    have hc0 := hlat.cursor_le
    by_cases hend : l1.m_cursor < strlen l1.m_input
    · have hq1 : charAt l1.m_input l1.m_cursor = l.consume.1 := by
        have := hstop (by rw [← hlat1.input_eq]; exact hend)
        rwa [← hlat1.input_eq] at this
      rw [l1.consume_expect_char_hit _ hend hq1]
      simp only [Bool.not_true, Bool.false_eq_true, if_false]
      have hlat2 := l1.consume_later
      have hcu2 := l1.consume_cursor hend
      have hinv2 := hinvl1.consume
      have e2 : l1.consume.2.m_input = l0.m_input := hlat2.input_eq.trans e1
      have hle2 : l1.consume.2.m_cursor ≤ strlen l0.m_input := by
        rw [← e2]; exact hinv2.cursor_le
      refine ⟨_, rfl, ⟨e2, ?_, by omega⟩, hinv2, by omega, Or.inr ⟨_, rfl, hc0, ?_, hws⟩⟩
      · exact ((hlat2.path_eq.trans hlat1.path_eq).trans l.consume_path).trans hlat.path_eq
      · refine ⟨hloc, ?_, hle2, ?_, Or.inl ⟨?_, rfl, ?_, ?_⟩⟩
        · show l.m_cursor < l1.consume.2.m_cursor
          omega
        · show strslice l1.consume.2.m_input (size_to_int l.m_cursor)
            (size_to_int l1.consume.2.m_cursor) = _
          rw [strslice_of_le _ _ _ (by omega) (by omega), e2]
          rfl
        · show isQuote (charAt l0.m_input l.m_cursor) = true
          rw [← hlat.input_eq, ← hcur]; exact hq
        · show l.m_cursor + 2 ≤ l1.consume.2.m_cursor
          omega
        · show charAt l0.m_input (l1.consume.2.m_cursor - 1) = charAt l0.m_input l.m_cursor
          have hq2 : charAt l0.m_input l1.m_cursor = l.consume.1 := by rw [← e1]; exact hq1
          rw [hcu2, Nat.add_sub_cancel, hq2, hfst, hlat.input_eq]
    · rw [l1.consume_expect_char_eof _ (by omega)]
      simp only [Bool.not_false, if_true]
      exact ⟨_, rfl, rfl, hloc, hc0, hws⟩
  rw [if_neg h2]
  by_cases h3 : (isalpha l.current || l.current == '_') = true
  · rw [if_pos h3]
    have his : isIdentStart l.current = true := h3
    have hlt := hlt_of_ne (isIdentStart_ne_NUL his)
    obtain ⟨l1, hw, hlat1, hinvl1, hall, hstop⟩ :=
      l.consume_while_spec (fun ch => isalnum ch || ch == '_') hinv
    rw [hw]
    dsimp only
    have e1 : l1.m_input = l0.m_input := hlat1.input_eq.trans hlat.input_eq
    have hc0 := hlat.cursor_le
    have hle1 : l1.m_cursor ≤ strlen l0.m_input := by rw [← e1]; exact hinvl1.cursor_le
    have hc1 : l.m_cursor < l1.m_cursor := by
      by_contra hcon
      have heq : l1.m_cursor = l.m_cursor := by have := hlat1.cursor_le; omega
      have hf := hstop (by rw [heq]; exact hlt)
      rw [heq, ← hcur] at hf
      have ht : (isalnum l.current || l.current == '_') = true := isIdentStart_isIdentPart his
      rw [hf] at ht
      exact Bool.noConfusion ht
    rw [strslice_of_le _ _ _ (Nat.le_of_lt hc1) (by omega)]
    dsimp only
    refine ⟨_, rfl, ⟨e1, hlat1.path_eq.trans hlat.path_eq, by omega⟩, hinvl1, by omega,
      Or.inr ⟨_, rfl, hc0, ?_, hws⟩⟩
    refine ⟨hloc, hc1, hle1, ?_, Or.inr (Or.inl ⟨?_, ?_, ?_, ?_, ?_⟩)⟩
    · show some _ = some _
      rw [e1]
      rfl
    · show isQuote (charAt l0.m_input l.m_cursor) = false
      rw [← hlat.input_eq, ← hcur]
      exact Bool.eq_false_iff.2 h2
    · show isIdentStart (charAt l0.m_input l.m_cursor) = true
      rw [← hlat.input_eq, ← hcur]; exact his
    · show (if isKeyword _ = true then _ else _) = _
      rw [e1]
      rfl
    · intro i hi1 hi2
      have := hall i hi1 hi2
      rw [hlat.input_eq] at this
      exact this
    · show isIdentPart (charAt l0.m_input l1.m_cursor) = false
      rcases Nat.lt_or_ge l1.m_cursor (strlen l0.m_input) with hlt1 | hge1
      · have := hstop (by rw [hlat.input_eq]; exact hlt1)
        rw [hlat.input_eq] at this
        exact this
      · have : l1.m_cursor = strlen l0.m_input := by omega
        rw [this, charAt_strlen]
        decide
  rw [if_neg h3]
  by_cases h4 : isdigit l.current = true
  · rw [if_pos h4]
    have hlt := hlt_of_ne (isdigit_ne_NUL h4)
    obtain ⟨l1, hw, hlat1, hinvl1, hall, hstop⟩ :=
      l.consume_while_spec (fun ch => isdigit ch) hinv
    rw [hw]
    dsimp only
    have e1 : l1.m_input = l0.m_input := hlat1.input_eq.trans hlat.input_eq
    have hc0 := hlat.cursor_le
    have hle1 : l1.m_cursor ≤ strlen l0.m_input := by rw [← e1]; exact hinvl1.cursor_le
    have hc1 : l.m_cursor < l1.m_cursor := by
      by_contra hcon
      have heq : l1.m_cursor = l.m_cursor := by have := hlat1.cursor_le; omega
      have hf := hstop (by rw [heq]; exact hlt)
      rw [heq, ← hcur, h4] at hf
      exact Bool.noConfusion hf
    refine ⟨_, rfl, ⟨e1, hlat1.path_eq.trans hlat.path_eq, by omega⟩, hinvl1, by omega,
      Or.inr ⟨_, rfl, hc0, ?_, hws⟩⟩
    refine ⟨hloc, hc1, hle1, ?_, Or.inr (Or.inr (Or.inl ⟨?_, ?_, ?_, rfl, ?_, ?_⟩))⟩
    · show strslice l1.m_input (size_to_int l.m_cursor) (size_to_int l1.m_cursor) = _
      rw [strslice_of_le _ _ _ (Nat.le_of_lt hc1) (by omega), e1]
      rfl
    · show isQuote (charAt l0.m_input l.m_cursor) = false
      rw [← hlat.input_eq, ← hcur]
      exact Bool.eq_false_iff.2 h2
    · show isIdentStart (charAt l0.m_input l.m_cursor) = false
      rw [← hlat.input_eq, ← hcur]
      exact Bool.eq_false_iff.2 h3
    · show isdigit (charAt l0.m_input l.m_cursor) = true
      rw [← hlat.input_eq, ← hcur]; exact h4
    · intro i hi1 hi2
      have := hall i hi1 hi2
      rw [hlat.input_eq] at this
      exact this
    · show isdigit (charAt l0.m_input l1.m_cursor) = false
      rcases Nat.lt_or_ge l1.m_cursor (strlen l0.m_input) with hlt1 | hge1
      · have := hstop (by rw [hlat.input_eq]; exact hlt1)
        rw [hlat.input_eq] at this
        exact this
      · have : l1.m_cursor = strlen l0.m_input := by omega
        rw [this, charAt_strlen]
        decide
  rw [if_neg h4]
  by_cases h5 : (charTokenType l.current).value > 0
  · rw [if_pos h5]
    have hlt := hlt_of_ne (value_charTokenType_pos_ne_NUL h5)
    have hcu := l.consume_cursor hlt
    have hinv1 := hinv.consume
    have hlat1 := l.consume_later
    have e1 : l.consume.2.m_input = l0.m_input := hlat1.input_eq.trans hlat.input_eq
    have hc0 := hlat.cursor_le
    have hle1 : l.consume.2.m_cursor ≤ strlen l0.m_input := by rw [← e1]; exact hinv1.cursor_le
    refine ⟨_, rfl, hlat.trans hlat1, hinv1, by omega, Or.inr ⟨_, rfl, hc0, ?_, hws⟩⟩
    refine ⟨hloc, ?_, hle1, ?_, Or.inr (Or.inr (Or.inr ⟨?_, ?_, ?_, hcu, ?_, ?_⟩))⟩
    · show l.m_cursor < l.consume.2.m_cursor
      omega
    · show strslice l.consume.2.m_input (size_to_int l.m_cursor)
        (size_to_int l.consume.2.m_cursor) = _
      rw [strslice_of_le _ _ _ (by omega) (by omega), e1]
      rfl
    · show isQuote (charAt l0.m_input l.m_cursor) = false
      rw [← hlat.input_eq, ← hcur]
      exact Bool.eq_false_iff.2 h2
    · show isIdentStart (charAt l0.m_input l.m_cursor) = false
      rw [← hlat.input_eq, ← hcur]
      exact Bool.eq_false_iff.2 h3
    · show isdigit (charAt l0.m_input l.m_cursor) = false
      rw [← hlat.input_eq, ← hcur]
      exact Bool.eq_false_iff.2 h4
    · show charTokenType l.current = charTokenType (charAt l0.m_input l.m_cursor)
      rw [← hlat.input_eq, ← hcur]
    · exact h5
  · rw [if_neg h5]
    exact ⟨_, rfl, rfl, hloc, hlat.cursor_le, hws⟩

/-! ## The main loop -/

theorem TokensSpec.mono {path : Option String} {input : List Char} :
    ∀ {ts : List Token} {lo mid hi : Nat},
      TokensSpec path input lo ts mid → mid ≤ hi → TokensSpec path input lo ts hi := by
  intro ts
  induction ts with
  | nil => intro lo mid hi h1 h2; exact Nat.le_trans h1 h2
  | cons t ts ih =>
    intro lo mid hi h1 h2
    obtain ⟨h3, stop, h4, h5⟩ := h1
    exact ⟨h3, stop, h4, ih h5 h2⟩

theorem TokensSpec.append {path : Option String} {input : List Char} {t : Token} {stop : Nat}
    (ht : TokenSpec path input t stop) :
    ∀ {ts : List Token} {lo mid : Nat}, TokensSpec path input lo ts mid →
      mid ≤ t.m_location.m_cursor.toNat → TokensSpec path input lo (ts ++ [t]) stop := by
  intro ts
  induction ts with
  | nil =>
    intro lo mid h1 h2
    exact ⟨Nat.le_trans h1 h2, stop, ht, Nat.le_refl _⟩
  | cons u ts ih =>
    intro lo mid h1 h2
    obtain ⟨h3, stop1, h4, h5⟩ := h1
    exact ⟨h3, stop1, h4, ih h5 h2⟩

theorem TokensSpec.mem {path : Option String} {input : List Char} {t : Token} :
    ∀ {ts : List Token} {lo hi : Nat}, TokensSpec path input lo ts hi → t ∈ ts →
      ∃ stop, TokenSpec path input t stop := by
  intro ts
  induction ts with
  | nil => intro lo hi _ h; simp at h
  | cons u ts ih =>
    intro lo hi h1 h2
    obtain ⟨-, stop1, h4, h5⟩ := h1
    rcases List.mem_cons.1 h2 with h | h
    · subst h; exact ⟨stop1, h4⟩
    · exact ih h5 h

theorem TokensSpec.le {path : Option String} {input : List Char} :
    ∀ {ts : List Token} {lo hi : Nat}, TokensSpec path input lo ts hi → lo ≤ hi := by
  intro ts
  induction ts with
  | nil => intro lo hi h; exact h
  | cons t ts ih =>
    intro lo hi h
    obtain ⟨h1, stop, h2, h3⟩ := h
    have := ih h3
    have := h2.start_lt
    omega

theorem TokensSpec.mem_le {path : Option String} {input : List Char} {t : Token} :
    ∀ {ts : List Token} {lo hi : Nat}, TokensSpec path input lo ts hi → t ∈ ts →
      ∃ stop, TokenSpec path input t stop ∧ stop ≤ hi := by
  intro ts
  induction ts with
  | nil => intro lo hi _ h; simp at h
  | cons u ts ih =>
    intro lo hi h1 h2
    obtain ⟨-, stop1, h4, h5⟩ := h1
    rcases List.mem_cons.1 h2 with h | h
    · subst h; exact ⟨stop1, h4, h5.le⟩
    · exact ih h5 h

theorem slice_length (input : List Char) (start stop : Nat) (h : stop ≤ input.length) :
    ((input.drop start).take (stop - start)).length = stop - start := by
  rw [List.length_take, List.length_drop]
  omega

theorem TokenSpec.text {path : Option String} {input : List Char} {t : Token} {stop : Nat}
    (h : TokenSpec path input t stop) :
    ∃ text, t.m_slice = some text ∧ text ≠ [] ∧
      t.m_location.m_cursor.toNat + text.length = stop := by
  have hlen := strlen_le_length input
  have hstop := h.stop_le
  have hlt := h.start_lt
  have hl := slice_length input t.m_location.m_cursor.toNat stop (by omega)
  refine ⟨_, h.slice_eq, ?_, by rw [hl]; omega⟩
  intro hnil
  rw [hnil] at hl
  simp at hl
  omega

theorem TokensSpec.chain {path : Option String} {input : List Char} :
    ∀ {ts : List Token} {lo hi : Nat}, TokensSpec path input lo ts hi →
      List.Chain' (fun a b => ∃ text, a.m_slice = some text ∧
        a.m_location.getCursor + (text.length : Int) ≤ b.m_location.getCursor) ts := by
  intro ts
  induction ts with
  | nil => intro lo hi _; exact List.chain'_nil
  | cons t ts ih =>
    intro lo hi h
    obtain ⟨-, stop, h1, h2⟩ := h
    cases ts with
    | nil => exact List.chain'_singleton _
    | cons u ts =>
      refine List.chain'_cons.2 ⟨?_, ih h2⟩
      obtain ⟨text, ht1, -, ht3⟩ := h1.text
      refine ⟨text, ht1, ?_⟩
      show t.m_location.m_cursor + (text.length : Int) ≤ u.m_location.m_cursor
      have := h2.1
      have hn1 : 0 ≤ t.m_location.m_cursor := h1.loc.cursor_nonneg
      obtain ⟨-, stop2, hu, -⟩ := h2
      have hn2 : 0 ≤ u.m_location.m_cursor := hu.loc.cursor_nonneg
      omega

theorem Token.covers_iff {path : Option String} {input : List Char} {t : Token} {stop : Nat}
    (h : TokenSpec path input t stop) (i : Nat) :
    t.Covers i ↔ t.m_location.m_cursor.toNat ≤ i ∧ i < stop := by
  obtain ⟨text, h1, -, h3⟩ := h.text
  have hn : 0 ≤ t.m_location.m_cursor := h.loc.cursor_nonneg
  constructor
  · rintro ⟨text1, e1, e2, e3⟩
    rw [h1] at e1
    cases e1
    have e2 : t.m_location.m_cursor ≤ (i : Int) := e2
    have e3 : (i : Int) < t.m_location.m_cursor + (text.length : Int) := e3
    omega
  · rintro ⟨e2, e3⟩
    refine ⟨text, h1, ?_, ?_⟩
    · show t.m_location.m_cursor ≤ (i : Int)
      omega
    · show (i : Int) < t.m_location.m_cursor + (text.length : Int)
      omega

theorem CoverSpec.space {input : List Char} {tokens : List Token} {mid hi : Nat}
    (h : CoverSpec input tokens mid)
    (hs : ∀ i, mid ≤ i → i < hi → isspace (charAt input i) = true) :
    CoverSpec input tokens hi := by
  intro i hi1
  rcases Nat.lt_or_ge i mid with hlt | hge
  · exact h i hlt
  · exact Or.inl (hs i hge hi1)

theorem CoverSpec.add_token {path : Option String} {input : List Char} {ts : List Token}
    {t : Token} {stop : Nat} (ht : TokenSpec path input t stop)
    (h : CoverSpec input ts t.m_location.m_cursor.toNat) :
    CoverSpec input (ts ++ [t]) stop := by
  intro i hi1
  rcases Nat.lt_or_ge i t.m_location.m_cursor.toNat with hlt | hge
  · rcases h i hlt with hs | ⟨u, hu, hc⟩ | ⟨j, hj1, hj2, hj3, hj4, hj5⟩
    · exact Or.inl hs
    · exact Or.inr (Or.inl ⟨u, List.mem_append_left _ hu, hc⟩)
    · refine Or.inr (Or.inr ⟨j, hj1, hj2, hj3, hj4, ?_⟩)
      intro u hu
      rcases List.mem_append.1 hu with hu | hu
      · exact hj5 u hu
      · rw [List.mem_singleton] at hu
        subst hu
        intro hc
        have := ((Token.covers_iff ht j).1 hc).1
        omega
  · exact Or.inr (Or.inl ⟨t, List.mem_append_right _ (List.mem_singleton.2 rfl),
      (Token.covers_iff ht i).2 ⟨hge, hi1⟩⟩)

theorem CoverSpec.comment {path : Option String} {input : List Char} {ts : List Token}
    {mid j hi : Nat} (h : CoverSpec input ts j) (hts : TokensSpec path input 0 ts mid)
    (hmj : mid ≤ j) (h1 : charAt input j = '/') (h2 : charAt input (j + 1) = '/')
    (hnn : ∀ k, j ≤ k → k < hi → charAt input k ≠ NEWLINE) :
    CoverSpec input ts hi := by
  intro i hi1
  rcases Nat.lt_or_ge i j with hlt | hge
  · exact h i hlt
  · refine Or.inr (Or.inr ⟨j, hge, h1, h2, fun k hk1 hk2 => hnn k hk1 (by omega), ?_⟩)
    intro u hu hc
    obtain ⟨stop, hus, hle⟩ := hts.mem_le hu
    have := ((Token.covers_iff hus j).1 hc).2
    omega

theorem Lexer.parse_loop_spec :
    ∀ (fuel : Nat) (l : Lexer) (tokens : List Token), LexInv l →
      TokensSpec l.m_file_path l.m_input 0 tokens l.m_cursor →
      CoverSpec l.m_input tokens l.m_cursor →
      strlen l.m_input - l.m_cursor ≤ fuel →
      ∃ out, Lexer.parse_loop fuel l tokens = some out ∧
        OutcomeSpec l.m_file_path l.m_input out := by
  intro fuel
  induction fuel with
  | zero =>
    intro l tokens hl ht _ hf
    have heof : l.is_eof = true := (l.is_eof_iff).2 (by omega)
    refine ⟨.success tokens, by simp [Lexer.parse_loop, heof], ?_⟩
    exact TokensSpec.mono ht hl.cursor_le
  | succ fuel ih =>
    intro l tokens hl ht hcov hf
    by_cases heof : l.is_eof = true
    · refine ⟨.success tokens, by simp [Lexer.parse_loop, heof], ?_⟩
      exact TokensSpec.mono ht hl.cursor_le
    · obtain ⟨step, hstep, hspec⟩ := l.parse_body_spec tokens hl
      rw [Lexer.parse_loop, if_neg heof, hstep]
      cases step with
      | next l1 tokens1 =>
        obtain ⟨hlat, hl1, hlt, htok⟩ := hspec
        have ht1 : TokensSpec l1.m_file_path l1.m_input 0 tokens1 l1.m_cursor := by
          rw [hlat.input_eq, hlat.path_eq]
          rcases htok with ⟨h, -⟩ | ⟨t, h, hle, hts, -⟩
          · rw [h]; exact TokensSpec.mono ht (Nat.le_of_lt hlt)
          · rw [h]; exact TokensSpec.append hts ht hle
        have hcov1 : CoverSpec l1.m_input tokens1 l1.m_cursor := by
          rw [hlat.input_eq]
          rcases htok with ⟨h, j, hj1, -, hj3, hj4, hj5, hj6⟩ | ⟨t, h, -, hts, hgap⟩
          · rw [h]
            exact (hcov.space hj5).comment ht hj1 hj3 hj4 hj6
          · rw [h]
            exact CoverSpec.add_token hts (hcov.space hgap)
        obtain ⟨out, ho, hos⟩ := ih l1 tokens1 hl1 ht1 hcov1 (by rw [hlat.input_eq]; omega)
        refine ⟨out, ho, ?_⟩
        rw [hlat.input_eq, hlat.path_eq] at hos
        exact hos
      | stop tokens1 message loc =>
        obtain ⟨h1, h2, h3, h4⟩ := hspec
        refine ⟨.failure tokens1 message loc, rfl, h2, ⟨l.m_cursor, h3, ?_⟩, ?_⟩
        · rw [h1]; exact ht
        · rw [h1]; exact hcov.space h4

/-- Totality: `Lexer::parse` returns on every source, and what it returns meets `OutcomeSpec`. -/
theorem lex_spec (path : Option String) (input : List Char)
    (hlen : input.length < 2147483648) :
    ∃ out, lex path input = some out ∧ OutcomeSpec path input out :=
  Lexer.parse_loop_spec _ (Lexer.new path input) [] (LexInv.new path input hlen)
    (Nat.le_refl 0) (fun i hi => absurd hi (Nat.not_lt_zero i)) (Nat.le_refl _)

theorem lex_success_spec {path : Option String} {input : List Char} {tokens : List Token}
    (hlen : input.length < 2147483648) (h : lex path input = some (.success tokens)) :
    TokensSpec path input 0 tokens (strlen input) := by
  obtain ⟨out, h1, h2⟩ := lex_spec path input hlen
  rw [h] at h1
  cases h1
  exact h2

theorem lex_token_spec {path : Option String} {input : List Char} {tokens : List Token}
    (hlen : input.length < 2147483648) (h : lex path input = some (.success tokens))
    {t : Token} (ht : t ∈ tokens) :
    ∃ stop, TokenSpec path input t stop :=
  (lex_success_spec hlen h).mem ht

/-! ## Reading a token's text off the source -/

theorem slice_head (input : List Char) (start stop : Nat) (h1 : start < stop)
    (h2 : stop ≤ input.length) :
    ((input.drop start).take (stop - start)).head? = some (charAt input start) := by
  rw [drop_eq_charAt_cons input start (by omega)]
  obtain ⟨n, hn⟩ : ∃ n, stop - start = n + 1 := ⟨stop - start - 1, by omega⟩
  rw [hn]
  rfl

theorem getElem?_eq_some_charAt (input : List Char) (i : Nat) (h : i < input.length) :
    input[i]? = some (charAt input i) := by
  rw [charAt_eq_getElem input i h]
  exact List.getElem?_eq_getElem h

theorem charAt_of_getElem? {input : List Char} {i : Nat} {c : Char} (h : input[i]? = some c) :
    charAt input i = c := by
  have hi : i < input.length := by
    by_contra hcon
    rw [List.getElem?_eq_none (by omega)] at h
    exact Option.noConfusion h
  rw [getElem?_eq_some_charAt input i hi] at h
  exact Option.some.inj h

theorem mem_slice {input : List Char} {start stop : Nat} {c : Char}
    (h : c ∈ (input.drop start).take (stop - start)) :
    ∃ i, start ≤ i ∧ i < stop ∧ charAt input i = c := by
  obtain ⟨n, hn, he⟩ := List.mem_iff_getElem.1 h
  rw [List.length_take, List.length_drop] at hn
  rw [List.getElem_take, List.getElem_drop] at he
  refine ⟨start + n, by omega, by omega, ?_⟩
  rw [charAt_eq_getElem input (start + n) (by omega)]
  exact he

theorem isQuote_not_isIdentStart {c : Char} (h : isQuote c = true) : isIdentStart c = false := by
  simp only [isQuote, Bool.or_eq_true, beq_iff_eq] at h
  rcases h with (h | h) | h <;> subst h <;> decide

theorem isQuote_not_isdigit {c : Char} (h : isQuote c = true) : isdigit c = false := by
  simp only [isQuote, Bool.or_eq_true, beq_iff_eq] at h
  rcases h with (h | h) | h <;> subst h <;> decide

theorem mem_of_lookup_eq_some {c : Char} {type : TokenType} :
    ∀ {table : List (Char × TokenType)}, table.lookup c = some type → (c, type) ∈ table := by
  intro table
  induction table with
  | nil => intro h; simp at h
  | cons p table ih =>
    intro h
    obtain ⟨k, v⟩ := p
    by_cases hk : c = k
    · subst hk
      simp only [List.lookup_cons, beq_self_eq_true] at h
      cases h
      exact List.mem_cons_self _ _
    · have hk2 : (c == k) = false := by simpa using hk
      simp only [List.lookup_cons, hk2] at h
      exact List.mem_cons_of_mem _ (ih h)

theorem value_CHAR_TOKENS : ∀ p ∈ CHAR_TOKENS, 4 ≤ p.2.value := by decide

theorem charTokenType_cases (c : Char) :
    charTokenType c = TokenType.Identifier ∨ 4 ≤ (charTokenType c).value := by
  unfold charTokenType
  cases h : CHAR_TOKENS.lookup c with
  | none => exact Or.inl rfl
  | some type => exact Or.inr (value_CHAR_TOKENS _ (mem_of_lookup_eq_some h))

theorem cstr_keyword : ∀ keyword ∈ KEYWORDS, cstr keyword = keyword := by decide

theorem isKeyword_iff_mem (word : List Char) (h : NUL ∉ word) :
    isKeyword word = true ↔ word ∈ KEYWORDS := by
  unfold isKeyword strcmp_eq
  rw [List.any_eq_true, cstr_eq_self_of_not_mem word h]
  constructor
  · rintro ⟨keyword, hk, he⟩
    rw [cstr_keyword keyword hk, beq_iff_eq] at he
    rw [← he]; exact hk
  · intro hk
    exact ⟨word, hk, by rw [cstr_keyword word hk, beq_iff_eq]⟩

/-! ## The claims about the lexer -/

/-- C1 (fails on the code): a source of whitespace and line comments only is not always
lexed to an empty token sequence.  After `trim_left` the loop body does not test for the
end of input again, so when whitespace ends the source the terminator falls through every
branch and `parse` reports an unexpected character and returns `false`: so it is for a
single space, for a single newline and for a comment closed by a newline. -/
theorem lex_whitespace_only_fails :
    lex none " ".toList = some (.failure [] .unexpected_char ⟨none, 1, 0, 0⟩) ∧
    lex none "\n".toList = some (.failure [] .unexpected_char ⟨none, 1, 1, 1⟩) ∧
    lex none "// c\n".toList = some (.failure [] .unexpected_char ⟨none, 5, 1, 5⟩) := by
  decide

/-- C3: on every source shorter than `2^31` characters that lexes, the offset of each
token is not negative, the row of the token is the number of newline characters before
that offset, its line start plus the number of characters that follow the last such
newline (or the start of the source) is its offset, and its column is that number of
characters. -/
theorem lex_token_row_col (path : Option String) (input : List Char)
    (hlen : input.length < 2 ^ 31)
    (tokens : List Token) (h : lex path input = some (.success tokens))
    (t : Token) (ht : t ∈ tokens) :
    0 ≤ t.m_location.getCursor ∧
    t.m_location.getRow = (input.take t.m_location.getCursor.toNat).count NEWLINE ∧
    t.m_location.getBol +
        ((input.take t.m_location.getCursor.toNat).reverse.takeWhile
          (fun c => c != NEWLINE)).length
      = t.m_location.getCursor ∧
    t.m_location.getCol =
      (((input.take t.m_location.getCursor.toNat).reverse.takeWhile
        (fun c => c != NEWLINE)).length : Int) := by
  obtain ⟨stop, hs⟩ := lex_token_spec hlen h ht
  have hrow : t.m_location.m_row = rowAt input t.m_location.m_cursor.toNat := hs.loc.row_eq
  have hbol : t.m_location.m_bol + colAt input t.m_location.m_cursor.toNat =
      t.m_location.m_cursor := hs.loc.bol_eq
  have hnn : 0 ≤ t.m_location.m_cursor := hs.loc.cursor_nonneg
  have hle := hs.loc.cursor_le
  have hsl := strlen_le_length input
  have hcol := colAt_le input t.m_location.m_cursor.toNat
  refine ⟨hnn, hrow, hbol, ?_⟩
  show to_int (t.m_location.m_cursor - t.m_location.m_bol) =
    (colAt input t.m_location.m_cursor.toNat : Int)
  have h31 : input.length < 2147483648 := hlen
  rw [to_int_of_range _ (by omega) (by omega)]
  omega

theorem lex_token_row_col_witness :
    lex none "a\nb".toList = some (.success
      [⟨.Identifier, some ['a'], ⟨none, 0, 0, 0⟩⟩, ⟨.Identifier, some ['b'], ⟨none, 2, 1, 2⟩⟩]) ∧
    (⟨none, 2, 1, 2⟩ : Location).getRow = 1 ∧ (⟨none, 2, 1, 2⟩ : Location).getCol = 0 ∧
    ((0 : Int) ≤ (⟨none, 2, 1, 2⟩ : Location).getCursor ∧
      (⟨none, 2, 1, 2⟩ : Location).getRow = ("a\nb".toList.take 2).count NEWLINE ∧
      (⟨none, 2, 1, 2⟩ : Location).getBol +
          (("a\nb".toList.take 2).reverse.takeWhile (fun c => c != NEWLINE)).length = 2 ∧
      (⟨none, 2, 1, 2⟩ : Location).getCol =
        ((("a\nb".toList.take 2).reverse.takeWhile (fun c => c != NEWLINE)).length : Int)) :=
  ⟨by decide, by decide, by decide,
    lex_token_row_col none "a\nb".toList (by decide)
      [⟨.Identifier, some ['a'], ⟨none, 0, 0, 0⟩⟩, ⟨.Identifier, some ['b'], ⟨none, 2, 1, 2⟩⟩]
      (by decide) ⟨.Identifier, some ['b'], ⟨none, 2, 1, 2⟩⟩ (by decide)⟩

/-- C4: lexing the source `true;` of `main` succeeds with exactly two tokens, the Keyword
`true` at row 0, column 0 and a Semicolon at row 0, column 4. -/
theorem lex_true_semicolon :
    lex none "true;".toList = some (.success
      [⟨.Keyword, some "true".toList, ⟨none, 0, 0, 0⟩⟩, ⟨.Semicolon, some ";".toList, ⟨none, 4, 0, 0⟩⟩]) ∧
    (⟨none, 0, 0, 0⟩ : Location).getRow = 0 ∧ (⟨none, 0, 0, 0⟩ : Location).getCol = 0 ∧
    (⟨none, 4, 0, 0⟩ : Location).getRow = 0 ∧ (⟨none, 4, 0, 0⟩ : Location).getCol = 4 := by
  decide

theorem TokenKindSpec.of_identStart {input : List Char} {t : Token} {stop : Nat}
    (h : TokenKindSpec input t stop)
    (hc : isIdentStart (charAt input t.m_location.m_cursor.toNat) = true) :
    t.m_type = (if isKeyword ((input.drop t.m_location.m_cursor.toNat).take
        (stop - t.m_location.m_cursor.toNat)) = true then TokenType.Keyword else TokenType.Identifier) ∧
    (∀ i, t.m_location.m_cursor.toNat ≤ i → i < stop → isIdentPart (charAt input i) = true) ∧
    isIdentPart (charAt input stop) = false := by
  rcases h with ⟨hq, -⟩ | ⟨-, -, h1, h2, h3⟩ | ⟨-, hn, -⟩ | ⟨-, hn, -⟩
  · rw [isQuote_not_isIdentStart hq] at hc
    exact Bool.noConfusion hc
  · exact ⟨h1, h2, h3⟩
  · rw [hn] at hc
    exact Bool.noConfusion hc
  · rw [hn] at hc
    exact Bool.noConfusion hc

theorem TokenKindSpec.of_word {input : List Char} {t : Token} {stop : Nat}
    (h : TokenKindSpec input t stop)
    (hk : t.m_type = TokenType.Identifier ∨ t.m_type = TokenType.Keyword) :
    isIdentStart (charAt input t.m_location.m_cursor.toNat) = true := by
  rcases h with ⟨-, hs, -⟩ | ⟨-, h1, -⟩ | ⟨-, -, -, hn, -⟩ | ⟨-, -, -, -, hp, hv⟩
  · rw [hs] at hk
    rcases hk with hk | hk <;> exact TokenType.noConfusion hk
  · exact h1
  · rw [hn] at hk
    rcases hk with hk | hk <;> exact TokenType.noConfusion hk
  · exfalso
    rcases charTokenType_cases (charAt input t.m_location.m_cursor.toNat) with hc | hc
    · rw [hp, hc] at hv
      exact absurd hv (by decide)
    · rw [← hp] at hc
      rcases hk with hk | hk <;> rw [hk] at hc <;> exact absurd hc (by decide)

/-- C7: on every source shorter than `2^31` characters that lexes, a token whose text
starts with a letter or an underscore has kind Keyword exactly when its text is one of
the 27 reserved words, and kind Identifier otherwise. -/
theorem lex_keyword_classification (path : Option String) (input : List Char)
    (hlen : input.length < 2 ^ 31)
    (tokens : List Token) (h : lex path input = some (.success tokens))
    (t : Token) (ht : t ∈ tokens) (text : List Char) (hs : t.m_slice = some text)
    (c : Char) (hc : text.head? = some c) (hstart : isalpha c = true ∨ c = '_') :
    (t.m_type = TokenType.Keyword ↔ text ∈
      [ "this", "new", "async", "function", "return", "yield", "continue", "break", "let",
        "const", "var", "private", "public", "protected", "override", "interface", "class",
        "enum", "true", "false", "if", "while", "do", "else", "catch", "null",
        "debugger" ].map String.toList) ∧
    (text ∉
      [ "this", "new", "async", "function", "return", "yield", "continue", "break", "let",
        "const", "var", "private", "public", "protected", "override", "interface", "class",
        "enum", "true", "false", "if", "while", "do", "else", "catch", "null",
        "debugger" ].map String.toList → t.m_type = TokenType.Identifier) := by
  obtain ⟨stop, hsp⟩ := lex_token_spec hlen h ht
  have hlen := strlen_le_length input
  have hstop := hsp.stop_le
  have hlt := hsp.start_lt
  have htext : text = (input.drop t.m_location.m_cursor.toNat).take (stop - t.m_location.m_cursor.toNat) := by
    have := hsp.slice_eq
    rw [hs] at this
    exact Option.some.inj this
  have hhead : charAt input t.m_location.m_cursor.toNat = c := by
    have := slice_head input _ _ hlt (show stop ≤ input.length by omega)
    rw [← htext, hc] at this
    exact (Option.some.inj this).symm
  have hst : isIdentStart (charAt input t.m_location.m_cursor.toNat) = true := by
    rw [hhead]
    simp only [isIdentStart, Bool.or_eq_true, beq_iff_eq]
    exact hstart
  obtain ⟨hty, hall, -⟩ := hsp.kind.of_identStart hst
  rw [← htext] at hty
  have hnul : NUL ∉ text := by
    intro hmem
    rw [htext] at hmem
    obtain ⟨i, hi1, hi2, hi3⟩ := mem_slice hmem
    exact isIdentPart_ne_NUL (hall i hi1 hi2) hi3
  have hkw := isKeyword_iff_mem text hnul
  show (t.m_type = TokenType.Keyword ↔ text ∈ KEYWORDS) ∧
    (text ∉ KEYWORDS → t.m_type = TokenType.Identifier)
  by_cases hk : isKeyword text = true
  · rw [if_pos hk] at hty
    exact ⟨⟨fun _ => hkw.1 hk, fun _ => hty⟩, fun hn => absurd (hkw.1 hk) hn⟩
  · rw [if_neg hk] at hty
    refine ⟨⟨fun h1 => ?_, fun h2 => absurd (hkw.2 h2) hk⟩, fun _ => hty⟩
    rw [hty] at h1
    exact TokenType.noConfusion h1

theorem lex_keyword_classification_witness :
    (TokenType.Keyword = TokenType.Keyword ↔ "true".toList ∈
      [ "this", "new", "async", "function", "return", "yield", "continue", "break", "let",
        "const", "var", "private", "public", "protected", "override", "interface", "class",
        "enum", "true", "false", "if", "while", "do", "else", "catch", "null",
        "debugger" ].map String.toList) ∧
    ("true".toList ∉
      [ "this", "new", "async", "function", "return", "yield", "continue", "break", "let",
        "const", "var", "private", "public", "protected", "override", "interface", "class",
        "enum", "true", "false", "if", "while", "do", "else", "catch", "null",
        "debugger" ].map String.toList → TokenType.Keyword = TokenType.Identifier) :=
  lex_keyword_classification none "true;".toList (by decide)
    [⟨.Keyword, some "true".toList, ⟨none, 0, 0, 0⟩⟩, ⟨.Semicolon, some [';'], ⟨none, 4, 0, 0⟩⟩]
    (by decide) ⟨.Keyword, some "true".toList, ⟨none, 0, 0, 0⟩⟩ (by decide)
    "true".toList rfl 't' rfl (Or.inl (by decide))

/-- C8: on every source shorter than `2^31` characters that lexes, the text of an
Identifier or Keyword token is not empty, starts with a letter or an underscore,
consists of letters, digits and underscores only, and the source character right after
the token, if there is one, is not a letter, digit or underscore. -/
theorem lex_identifier_maximal_run (path : Option String) (input : List Char)
    (hlen : input.length < 2 ^ 31)
    (tokens : List Token) (h : lex path input = some (.success tokens))
    (t : Token) (ht : t ∈ tokens)
    (hk : t.m_type = TokenType.Identifier ∨ t.m_type = TokenType.Keyword) :
    ∃ text, t.m_slice = some text ∧ text ≠ [] ∧
      (∃ c, text.head? = some c ∧ (isalpha c = true ∨ c = '_')) ∧
      (∀ c ∈ text, isalpha c = true ∨ isdigit c = true ∨ c = '_') ∧
      (∀ c, input[t.m_location.getCursor.toNat + text.length]? = some c →
        ¬ (isalpha c = true ∨ isdigit c = true ∨ c = '_')) := by
  obtain ⟨stop, hsp⟩ := lex_token_spec hlen h ht
  have hlen := strlen_le_length input
  have hstop := hsp.stop_le
  have hlt := hsp.start_lt
  have hl := slice_length input t.m_location.m_cursor.toNat stop (by omega)
  have hst := hsp.kind.of_word hk
  obtain ⟨-, hall, hafter⟩ := hsp.kind.of_identStart hst
  have hpart : ∀ c, isIdentPart c = true ↔ (isalpha c = true ∨ isdigit c = true ∨ c = '_') := by
    intro c
    simp only [isIdentPart, isalnum, Bool.or_eq_true, beq_iff_eq, or_assoc]
  refine ⟨_, hsp.slice_eq, ?_, ⟨_, slice_head input _ _ hlt (by omega), ?_⟩, ?_, ?_⟩
  · intro hnil
    rw [hnil] at hl
    simp at hl
    omega
  · simpa only [isIdentStart, Bool.or_eq_true, beq_iff_eq] using hst
  · intro c hmem
    obtain ⟨i, hi1, hi2, hi3⟩ := mem_slice hmem
    rw [← hi3]
    exact (hpart _).1 (hall i hi1 hi2)
  · intro c hget hcon
    have hidx : t.m_location.getCursor.toNat + (List.take (stop - t.m_location.m_cursor.toNat)
        (List.drop t.m_location.m_cursor.toNat input)).length = stop := by
      show t.m_location.m_cursor.toNat + _ = stop
      rw [hl]; omega
    rw [hidx] at hget
    rw [charAt_of_getElem? hget, (hpart c).2 hcon] at hafter
    exact Bool.noConfusion hafter

theorem lex_identifier_maximal_run_witness :
    ∃ text, (Token.mk .Identifier (some "ab".toList) ⟨none, 1, 0, 0⟩).m_slice = some text ∧
      text ≠ [] ∧
      (∃ c, text.head? = some c ∧ (isalpha c = true ∨ c = '_')) ∧
      (∀ c ∈ text, isalpha c = true ∨ isdigit c = true ∨ c = '_') ∧
      (∀ c, "(ab)".toList[(1 : Nat) + text.length]? = some c →
        ¬ (isalpha c = true ∨ isdigit c = true ∨ c = '_')) :=
  lex_identifier_maximal_run none "(ab)".toList (by decide)
    [⟨.OpenParen, some ['('], ⟨none, 0, 0, 0⟩⟩, ⟨.Identifier, some "ab".toList, ⟨none, 1, 0, 0⟩⟩,
      ⟨.CloseParen, some [')'], ⟨none, 3, 0, 0⟩⟩]
    (by decide) ⟨.Identifier, some "ab".toList, ⟨none, 1, 0, 0⟩⟩ (by decide) (Or.inl rfl)

theorem charAt_append_left (a b : List Char) (i : Nat) (h : i < a.length) :
    charAt (a ++ b) i = charAt a i := by
  unfold charAt
  rw [List.getD_eq_getElem?_getD, List.getD_eq_getElem?_getD, List.getElem?_append_left h]

theorem charAt_append_right (a b : List Char) (i : Nat) (h : a.length ≤ i) :
    charAt (a ++ b) i = charAt b (i - a.length) := by
  unfold charAt
  rw [List.getD_eq_getElem?_getD, List.getD_eq_getElem?_getD, List.getElem?_append_right h]

theorem charAt_mem (a : List Char) (i : Nat) (h : i < a.length) : charAt a i ∈ a := by
  rw [charAt_eq_getElem a i h]
  exact List.getElem_mem h

theorem strlen_append_of_not_mem (a b : List Char) (h : NUL ∉ a) :
    strlen (a ++ b) = a.length + strlen b := by
  induction a with
  | nil => simp
  | cons c a ih =>
    simp only [List.mem_cons, not_or] at h
    rw [List.cons_append, strlen_cons, if_neg (Ne.symm h.1), ih h.2]
    simp only [List.length_cons]
    omega

theorem Lexer.consume_while_stop (l : Lexer) (condition : Char → Bool)
    (h : (!l.is_eof && condition l.current) = false) : l.consume_while condition = some l := by
  unfold Lexer.consume_while
  cases strlen l.m_input - l.m_cursor <;> simp [Lexer.consume_while_loop, h]

theorem Lexer.trim_left_skip (l0 : Lexer) (hl0 : LexInv l0) (n : Nat)
    (hle : l0.m_cursor + n ≤ strlen l0.m_input)
    (hsp : ∀ i, l0.m_cursor ≤ i → i < l0.m_cursor + n → isspace (charAt l0.m_input i) = true)
    (hstop : isspace (charAt l0.m_input (l0.m_cursor + n)) = false) :
    ∃ l, l0.trim_left = some l ∧ l0.Later l ∧ LexInv l ∧ l.m_cursor = l0.m_cursor + n := by
  obtain ⟨l, h1, h2, h3, h4, h5⟩ := l0.consume_while_spec isspace hl0
  refine ⟨l, h1, h2, h3, ?_⟩
  have hc := h2.cursor_le
  rcases Nat.lt_trichotomy l.m_cursor (l0.m_cursor + n) with hlt | heq | hgt
  · have := h5 (by omega)
    rw [hsp l.m_cursor hc hlt] at this
    exact Bool.noConfusion this
  · exact heq
  · have := h4 (l0.m_cursor + n) (by omega) hgt
    rw [hstop] at this
    exact Bool.noConfusion this

theorem Lexer.parse_loop_eof (fuel : Nat) (l : Lexer) (tokens : List Token)
    (h : strlen l.m_input ≤ l.m_cursor) :
    Lexer.parse_loop fuel l tokens = some (.success tokens) := by
  have heof := (l.is_eof_iff).2 h
  cases fuel <;> simp [Lexer.parse_loop, heof]

theorem Lexer.parse_loop_step (fuel : Nat) (l : Lexer) (tokens : List Token)
    (h : l.m_cursor < strlen l.m_input) :
    Lexer.parse_loop (fuel + 1) l tokens =
      match l.parse_body tokens with
      | none => none
      | some (.stop tokens1 message location) => some (.failure tokens1 message location)
      | some (.next l1 tokens1) => Lexer.parse_loop fuel l1 tokens1 := by
  have hne : ¬ (l.is_eof = true) := by
    rw [Bool.not_eq_true]; exact (l.not_eof_iff).2 h
  rw [Lexer.parse_loop, if_neg hne]

theorem isQuote_ne_slash {c : Char} (h : isQuote c = true) : (c == '/') = false := by
  simp only [isQuote, Bool.or_eq_true, beq_iff_eq] at h
  rcases h with (h | h) | h <;> subst h <;> decide

theorem isQuote_not_isspace {c : Char} (h : isQuote c = true) : isspace c = false := by
  simp only [isQuote, Bool.or_eq_true, beq_iff_eq] at h
  rcases h with (h | h) | h <;> subst h <;> decide

/-- The loop body on a string that is not closed: after `trim_left` the lexer stands on a
delimiter that does not occur again. -/
theorem Lexer.parse_body_unterminated (l0 l : Lexer) (tokens : List Token)
    (htrim : l0.trim_left = some l) (hl : LexInv l)
    (hq : isQuote (charAt l.m_input l.m_cursor) = true)
    (hno : ∀ i, l.m_cursor < i → i < strlen l.m_input →
      charAt l.m_input i ≠ charAt l.m_input l.m_cursor) :
    l0.parse_body tokens = some (.stop tokens .expected_closing_quote l.getLocation) := by
  have hcur : l.current = charAt l.m_input l.m_cursor := l.current_of_le hl.cursor_le
  have hlt : l.m_cursor < strlen l.m_input :=
    lt_strlen_of_charAt_ne _ _ hl.cursor_le (isQuote_ne_NUL hq)
  have h1 : ¬ ((l.current == '/' && l.peek == '/') = true) := by
    rw [hcur, isQuote_ne_slash hq]; simp
  have h2 : (l.current == SQUOTE || l.current == DQUOTE || l.current == BQUOTE) = true := by
    rw [hcur]; exact hq
  obtain ⟨l1, hs, hlat1, -, hstop⟩ :=
    Lexer.string_loop_spec l.consume.1 _ l.consume.2 hl.consume (Nat.le_refl _)
  have hin := l.consume_input
  have hcu := l.consume_cursor hlt
  have hend : strlen l1.m_input ≤ l1.m_cursor := by
    by_contra hcon
    have hlt1 : l1.m_cursor < strlen l.m_input := by
      rw [← hin, ← hlat1.input_eq]; omega
    have hq1 := hstop (by rw [hin]; exact hlt1)
    rw [hin, l.consume_fst hlt] at hq1
    have hc1 := hlat1.cursor_le
    exact hno l1.m_cursor (by omega) hlt1 hq1
  unfold Lexer.parse_body
  rw [htrim]
  dsimp only
  rw [if_neg h1, if_pos h2, hs]
  dsimp only
  rw [l1.consume_expect_char_eof _ hend]
  simp only [Bool.not_false, if_true]

/-- C5: a source shorter than `2^31` characters made of whitespace, an opening delimiter
and a text in which that delimiter does not occur again does not lex: `parse` returns `false` after reporting the
missing closing quote, and the location it reports is the one of the opening delimiter,
whose offset is the length of the whitespace, whose row is the number of newlines in the
whitespace and whose column is the number of characters after the last of them. -/
theorem lex_unterminated_string (path : Option String) (ws body : List Char) (q : Char)
    (hbound : (ws ++ q :: body).length < 2 ^ 31)
    (hws : ∀ c ∈ ws, isspace c = true) (hq : q = SQUOTE ∨ q = DQUOTE ∨ q = BQUOTE)
    (hbody : q ∉ body) :
    ∃ loc, lex path (ws ++ q :: body) = some (.failure [] .expected_closing_quote loc) ∧
      loc.m_file_path = path ∧
      loc.getCursor = ws.length ∧
      loc.getRow = ws.count NEWLINE ∧
      loc.getCol = ((ws.reverse.takeWhile (fun c => c != NEWLINE)).length : Int) := by
  have hqq : isQuote q = true := by
    rcases hq with h | h | h <;> subst h <;> decide
  have hnul : NUL ∉ ws := fun hm => isspace_ne_NUL (hws _ hm) rfl
  have hstr : strlen (ws ++ q :: body) = ws.length + (strlen body + 1) := by
    rw [strlen_append_of_not_mem _ _ hnul, strlen_cons, if_neg (isQuote_ne_NUL hqq)]
  have hlen := strlen_le_length (ws ++ q :: body)
  have hat : charAt (ws ++ q :: body) ws.length = q := by
    rw [charAt_append_right _ _ _ (Nat.le_refl _), Nat.sub_self, charAt_cons_zero]
  obtain ⟨l, htrim, hlat, hinv, hcursor⟩ :=
    Lexer.trim_left_skip (Lexer.new path (ws ++ q :: body)) (LexInv.new _ _ hbound) ws.length
      (by show 0 + ws.length ≤ strlen (ws ++ q :: body); omega)
      (by
        intro i _ hi
        have hi2 : i < ws.length := by
          have : i < 0 + ws.length := hi
          omega
        show isspace (charAt (ws ++ q :: body) i) = true
        rw [charAt_append_left _ _ _ hi2]
        exact hws _ (charAt_mem _ _ hi2))
      (by
        show isspace (charAt (ws ++ q :: body) (0 + ws.length)) = false
        rw [Nat.zero_add, hat]
        exact isQuote_not_isspace hqq)
  have hin : l.m_input = ws ++ q :: body := hlat.input_eq
  have hcu : l.m_cursor = ws.length := by
    have : l.m_cursor = 0 + ws.length := hcursor
    omega
  have hbodyrun := Lexer.parse_body_unterminated (Lexer.new path (ws ++ q :: body)) l [] htrim hinv
    (by rw [hin, hcu, hat]; exact hqq)
    (by
      intro i hi1 hi2
      rw [hin, hcu, hat]
      rw [hin] at hi2
      rw [hcu] at hi1
      rw [charAt_append_right _ _ _ (by omega)]
      obtain ⟨j, hj⟩ : ∃ j, i - ws.length = j + 1 := ⟨i - ws.length - 1, by omega⟩
      rw [hj, charAt_cons_succ]
      have hjl : j < body.length := by
        have := strlen_le_length body
        omega
      intro hcon
      exact hbody (hcon ▸ charAt_mem body j hjl))
  refine ⟨l.getLocation, ?_, ?_, ?_, ?_, ?_⟩
  · show Lexer.parse_loop (strlen (ws ++ q :: body) - 0) (Lexer.new path (ws ++ q :: body)) [] = _
    obtain ⟨fuel, hfuel⟩ : ∃ fuel, strlen (ws ++ q :: body) - 0 = fuel + 1 :=
      ⟨strlen (ws ++ q :: body) - 1, by omega⟩
    rw [hfuel, Lexer.parse_loop_step _ _ _ (by show 0 < strlen (ws ++ q :: body); omega), hbodyrun]
  · exact hlat.path_eq
  · rw [hinv.getCursor, hcu]
  · rw [hinv.getRow, hin, hcu, rowAt, List.take_left]
  · rw [hinv.getCol, hin, hcu, colAt, List.take_left]

theorem lex_unterminated_string_witness :
    lex none ("\n ".toList ++ DQUOTE :: "abc".toList) =
      some (.failure [] .expected_closing_quote ⟨none, 2, 1, 1⟩) ∧
    ∃ loc, lex none ("\n ".toList ++ DQUOTE :: "abc".toList) =
        some (.failure [] .expected_closing_quote loc) ∧
      loc.m_file_path = none ∧
      loc.getCursor = "\n ".toList.length ∧
      loc.getRow = "\n ".toList.count NEWLINE ∧
      loc.getCol = (("\n ".toList.reverse.takeWhile (fun c => c != NEWLINE)).length : Int) :=
  ⟨by decide,
    lex_unterminated_string none "\n ".toList "abc".toList DQUOTE (by decide) (by decide)
      (Or.inr (Or.inl rfl)) (by decide)⟩

theorem punctuation_facts : ∀ c ∈ PUNCTUATION,
    isspace c = false ∧ isQuote c = false ∧ isIdentStart c = false ∧ isdigit c = false ∧
      0 < (charTokenType c).value ∧ c ≠ NEWLINE ∧ c ≠ NUL := by
  decide

theorem charAt_of_length_le (s : List Char) (i : Nat) (h : s.length ≤ i) : charAt s i = NUL := by
  unfold charAt
  rw [List.getD_eq_getElem?_getD, List.getElem?_eq_none h]
  rfl

theorem Lexer.consume_snd_of_ne_newline (l : Lexer) (h : l.m_cursor < strlen l.m_input)
    (hc : charAt l.m_input l.m_cursor ≠ NEWLINE) :
    l.consume.2 = { l with m_cursor := l.m_cursor + 1 } := by
  have hne : ¬ (l.is_eof = true) := by
    rw [Bool.not_eq_true]; exact (l.not_eof_iff).2 h
  have hb : ¬ ((charAt l.m_input l.m_cursor == NEWLINE) = true) := by simpa using hc
  unfold Lexer.consume
  rw [if_neg hne]
  dsimp only
  rw [if_neg hb]

/-- The loop body on a punctuation character that does not open a comment. -/
theorem Lexer.parse_body_punct (l : Lexer) (tokens : List Token) (hl : LexInv l)
    (hlt : l.m_cursor < strlen l.m_input) (c : Char)
    (hc : charAt l.m_input l.m_cursor = c) (hp : c ∈ PUNCTUATION)
    (hnext : ¬ (c = '/' ∧ charAt l.m_input (l.m_cursor + 1) = '/')) :
    l.parse_body tokens = some (.next { l with m_cursor := l.m_cursor + 1 }
      (tokens ++ [Token.mk (charTokenType c) (some [c]) l.getLocation])) := by
  obtain ⟨p1, p2, p3, p4, p5, p6, -⟩ := punctuation_facts c hp
  have hcur : l.current = c := by rw [l.current_of_le hl.cursor_le]; exact hc
  have hlen := strlen_le_length l.m_input
  have htrim : l.trim_left = some l := by
    apply Lexer.consume_while_stop
    rw [hcur, p1]
    simp
  have h1 : ¬ ((l.current == '/' && l.peek == '/') = true) := by
    intro hcon
    simp only [Bool.and_eq_true, beq_iff_eq] at hcon
    obtain ⟨-, hpk⟩ := Lexer.peek_eq (by decide) hcon.2
    exact hnext ⟨hcur ▸ hcon.1, hpk⟩
  have h2 : ¬ ((l.current == SQUOTE || l.current == DQUOTE || l.current == BQUOTE) = true) := by
    rw [hcur]
    exact Bool.eq_false_iff.1 p2
  have h3 : ¬ ((isalpha l.current || l.current == '_') = true) := by
    rw [hcur]
    exact Bool.eq_false_iff.1 p3
  have h4 : ¬ (isdigit l.current = true) := by
    rw [hcur]
    exact Bool.eq_false_iff.1 p4
  have h5 : (charTokenType l.current).value > 0 := by rw [hcur]; exact p5
  unfold Lexer.parse_body
  rw [htrim]
  dsimp only
  rw [if_neg h1, if_neg h2, if_neg h3, if_neg h4, if_pos h5,
    l.consume_snd_of_ne_newline hlt (by rw [hc]; exact p6), hcur]
  dsimp only
  have hb := hl.bound
  rw [strslice_of_le _ _ _ (by omega) (by omega), show l.m_cursor + 1 - l.m_cursor = 1 by omega,
    slice_one _ _ (by omega), hc]

theorem no_adjacent_slashes {input : List Char} (h : ¬ ['/', '/'] <:+: input) (i : Nat) :
    ¬ (charAt input i = '/' ∧ charAt input (i + 1) = '/') := by
  rintro ⟨h1, h2⟩
  have hi : i + 1 < input.length := by
    by_contra hcon
    rw [charAt_of_length_le input (i + 1) (by omega)] at h2
    exact absurd h2 (by decide)
  apply h
  refine ⟨input.take i, input.drop (i + 2), ?_⟩
  have hd : input.drop i = '/' :: '/' :: input.drop (i + 2) := by
    rw [drop_eq_charAt_cons input i (by omega), drop_eq_charAt_cons input (i + 1) hi, h1, h2]
  calc input.take i ++ ['/', '/'] ++ input.drop (i + 2)
      = input.take i ++ ('/' :: '/' :: input.drop (i + 2)) := by simp
    _ = input.take i ++ input.drop i := by rw [hd]
    _ = input := List.take_append_drop i input

/-- The lexer on the rest of a source of punctuation characters: one token per
character, each at row 0 with line start 0. -/
theorem Lexer.parse_loop_punct (path : Option String) (input : List Char)
    (hp : ∀ c ∈ input, c ∈ PUNCTUATION) (hs : ¬ ['/', '/'] <:+: input) :
    ∀ (n k fuel : Nat) (acc : List Token), k + n = input.length → n ≤ fuel →
      LexInv (Lexer.mk path input k 0 0) →
      Lexer.parse_loop fuel (Lexer.mk path input k 0 0) acc =
        some (.success (acc ++ (List.range' k n).map (fun i =>
          Token.mk (charTokenType (charAt input i)) (some [charAt input i]) ⟨path, i, 0, 0⟩))) := by
  have hnul : NUL ∉ input := fun hm => (punctuation_facts _ (hp _ hm)).2.2.2.2.2.2 rfl
  have hstr : strlen input = input.length := strlen_eq_length_of_not_mem input hnul
  intro n
  induction n with
  | zero =>
    intro k fuel acc hk _ _
    rw [Lexer.parse_loop_eof _ _ _ (by show strlen input ≤ k; omega)]
    simp
  | succ n ih =>
    intro k fuel acc hk hf hl
    obtain ⟨fuel1, rfl⟩ : ∃ fuel1, fuel = fuel1 + 1 := ⟨fuel - 1, by omega⟩
    have hlt : (Lexer.mk path input k 0 0).m_cursor < strlen (Lexer.mk path input k 0 0).m_input := by
      show k < strlen input
      omega
    have hmem : charAt input k ∈ PUNCTUATION := hp _ (charAt_mem input k (by omega))
    have hbody := Lexer.parse_body_punct (Lexer.mk path input k 0 0) acc hl hlt (charAt input k) rfl
      hmem (no_adjacent_slashes hs k)
    have hl1 : LexInv (Lexer.mk path input (k + 1) 0 0) := by
      have := hl.consume
      rwa [Lexer.consume_snd_of_ne_newline _ hlt (punctuation_facts _ hmem).2.2.2.2.2.1] at this
    rw [Lexer.parse_loop_step _ _ _ hlt, hbody]
    dsimp only
    have hb : input.length < 2147483648 := hl.bound
    rw [ih (k + 1) fuel1 _ (by omega) (by omega) hl1, List.range'_succ]
    simp [Lexer.getLocation, size_to_int_of_lt k (by omega)]

/-- C10: punctuation lexes one character at a time through the character table, and no
two-character operator is recognised.  A source shorter than `2^31` characters made only
of the 24 punctuation characters
in which no two slashes are adjacent lexes to one token per character, in order: the
token number `i` has offset `i`, row 0 and line start 0, the character number `i` as its
text and the kind the table gives that character; the last conjunct spells the table out. -/
theorem lex_punctuation (path : Option String) (input : List Char)
    (hlen : input.length < 2 ^ 31)
    (hp : ∀ c ∈ input, c ∈ "+-/*|^&%!?=:;.,#()\x7b\x7d[]<>".toList)
    (hs : ¬ ['/', '/'] <:+: input) :
    ∃ tokens, lex path input = some (.success tokens) ∧ tokens.length = input.length ∧
      (∀ (i : Nat) (c : Char), input[i]? = some c →
        tokens[i]? = some (Token.mk (charTokenType c) (some [c]) ⟨path, i, 0, 0⟩)) ∧
      "+-/*|^&%!?=:;.,#()\x7b\x7d[]<>".toList.map charTokenType =
        [.Plus, .Dash, .Slash, .Asterisk, .Pipe, .Carot, .Ampersand, .Percent, .Exclamation,
          .QuestionMark, .Equal, .Colon, .Semicolon, .Period, .Comma, .Hashtag, .OpenParen,
          .CloseParen, .OpenBracket, .CloseBracket, .OpenSquareBracket, .CloseSquareBracket,
          .OpenAngleBracket, .CloseAngleBracket] := by
  have hrun := Lexer.parse_loop_punct path input hp hs input.length 0 (strlen input - 0) []
    (by omega)
    (by
      have hnul : NUL ∉ input := fun hm => (punctuation_facts _ (hp _ hm)).2.2.2.2.2.2 rfl
      rw [strlen_eq_length_of_not_mem input hnul]
      omega)
    (LexInv.new path input hlen)
  refine ⟨_, hrun, ?_, ?_, by decide⟩
  · simp
  · intro i c hget
    have hi : i < input.length := by
      by_contra hcon
      rw [List.getElem?_eq_none (by omega)] at hget
      exact Option.noConfusion hget
    rw [List.nil_append, List.getElem?_map, List.getElem?_range' 0 1 hi,
      show 0 + 1 * i = i by omega]
    simp only [Option.map_some', charAt_of_getElem? hget]

theorem lex_punctuation_witness :
    lex none "==".toList = some (.success
      [⟨.Equal, some ['='], ⟨none, 0, 0, 0⟩⟩, ⟨.Equal, some ['='], ⟨none, 1, 0, 0⟩⟩]) ∧
    lex none "&&".toList = some (.success
      [⟨.Ampersand, some ['&'], ⟨none, 0, 0, 0⟩⟩, ⟨.Ampersand, some ['&'], ⟨none, 1, 0, 0⟩⟩]) ∧
    ∃ tokens, lex none "==".toList = some (.success tokens) ∧
      tokens.length = "==".toList.length ∧
      (∀ (i : Nat) (c : Char), "==".toList[i]? = some c →
        tokens[i]? = some (Token.mk (charTokenType c) (some [c]) ⟨none, i, 0, 0⟩)) ∧
      "+-/*|^&%!?=:;.,#()\x7b\x7d[]<>".toList.map charTokenType =
        [.Plus, .Dash, .Slash, .Asterisk, .Pipe, .Carot, .Ampersand, .Percent, .Exclamation,
          .QuestionMark, .Equal, .Colon, .Semicolon, .Period, .Comma, .Hashtag, .OpenParen,
          .CloseParen, .OpenBracket, .CloseBracket, .OpenSquareBracket, .CloseSquareBracket,
          .OpenAngleBracket, .CloseAngleBracket] :=
  ⟨by decide, by decide,
    lex_punctuation none "==".toList (by decide) (by decide) (by decide)⟩

/-! ## More claims about the lexer -/

theorem lookup_eq_none_of_not_mem {c : Char} :
    ∀ {table : List (Char × TokenType)}, c ∉ table.map Prod.fst → table.lookup c = none := by
  intro table
  induction table with
  | nil => intro _; rfl
  | cons p table ih =>
    intro h
    obtain ⟨k, v⟩ := p
    simp only [List.map_cons, List.mem_cons, not_or] at h
    have hk : (c == k) = false := by simpa using h.1
    simp only [List.lookup_cons, hk]
    exact ih h.2

theorem charTokenType_of_not_punctuation {c : Char} (h : c ∉ PUNCTUATION) :
    charTokenType c = TokenType.Identifier := by
  have hp : PUNCTUATION = CHAR_TOKENS.map Prod.fst := by decide
  rw [hp] at h
  unfold charTokenType
  rw [lookup_eq_none_of_not_mem h]

/-- The loop body on a character that no branch takes: after `trim_left` the lexer stands
on a character that is no delimiter, starts no identifier, is no digit and is no key of
the character table. -/
theorem Lexer.parse_body_unexpected (l0 l : Lexer) (tokens : List Token)
    (htrim : l0.trim_left = some l) (hl : LexInv l)
    (hq : isQuote (charAt l.m_input l.m_cursor) = false)
    (hi : isIdentStart (charAt l.m_input l.m_cursor) = false)
    (hd : isdigit (charAt l.m_input l.m_cursor) = false)
    (hp : charTokenType (charAt l.m_input l.m_cursor) = TokenType.Identifier) :
    l0.parse_body tokens = some (.stop tokens .unexpected_char l.getLocation) := by
  have hcur : l.current = charAt l.m_input l.m_cursor := l.current_of_le hl.cursor_le
  have h1 : ¬ ((l.current == '/' && l.peek == '/') = true) := by
    intro hcon
    simp only [Bool.and_eq_true, beq_iff_eq] at hcon
    rw [← hcur, hcon.1] at hp
    exact absurd hp (by decide)
  have h2 : ¬ ((l.current == SQUOTE || l.current == DQUOTE || l.current == BQUOTE) = true) := by
    rw [hcur]; exact Bool.eq_false_iff.1 hq
  have h3 : ¬ ((isalpha l.current || l.current == '_') = true) := by
    rw [hcur]; exact Bool.eq_false_iff.1 hi
  have h4 : ¬ (isdigit l.current = true) := by
    rw [hcur]; exact Bool.eq_false_iff.1 hd
  have h5 : ¬ ((charTokenType l.current).value > 0) := by
    rw [hcur, hp]; decide
  unfold Lexer.parse_body
  rw [htrim]
  dsimp only
  rw [if_neg h1, if_neg h2, if_neg h3, if_neg h4, if_neg h5]

/-- C11: a source shorter than `2^31` characters whose first character after the leading
whitespace is no delimiter, no letter, no underscore, no digit and none of the 24 punctuation characters does not lex:
`parse` reports an unexpected character and returns `false`, and the location it reports
is the one of that character (its offset is the length of the whitespace, its row the
number of newlines in the whitespace, its column the number of characters after the last
of them). -/
theorem lex_unexpected_character (path : Option String) (ws rest : List Char) (c : Char)
    (hbound : (ws ++ c :: rest).length < 2 ^ 31)
    (hws : ∀ x ∈ ws, isspace x = true) (hsp : isspace c = false) (hnul : c ≠ NUL)
    (hq : c ≠ SQUOTE ∧ c ≠ DQUOTE ∧ c ≠ BQUOTE)
    (ha : isalpha c = false) (hu : c ≠ '_') (hd : isdigit c = false)
    (hp : c ∉ "+-/*|^&%!?=:;.,#()\x7b\x7d[]<>".toList) :
    ∃ loc, lex path (ws ++ c :: rest) = some (.failure [] .unexpected_char loc) ∧
      loc.m_file_path = path ∧
      loc.getCursor = ws.length ∧
      loc.getRow = ws.count NEWLINE ∧
      loc.getCol = ((ws.reverse.takeWhile (fun x => x != NEWLINE)).length : Int) := by
  have hqq : isQuote c = false := by
    simp only [isQuote, Bool.or_eq_false_iff, beq_eq_false_iff_ne]
    exact ⟨⟨hq.1, hq.2.1⟩, hq.2.2⟩
  have his : isIdentStart c = false := by
    simp only [isIdentStart, Bool.or_eq_false_iff, beq_eq_false_iff_ne]
    exact ⟨ha, hu⟩
  have hwnul : NUL ∉ ws := fun hm => isspace_ne_NUL (hws _ hm) rfl
  have hstr : strlen (ws ++ c :: rest) = ws.length + (strlen rest + 1) := by
    rw [strlen_append_of_not_mem _ _ hwnul, strlen_cons, if_neg hnul]
  have hat : charAt (ws ++ c :: rest) ws.length = c := by
    rw [charAt_append_right _ _ _ (Nat.le_refl _), Nat.sub_self, charAt_cons_zero]
  obtain ⟨l, htrim, hlat, hinv, hcursor⟩ :=
    Lexer.trim_left_skip (Lexer.new path (ws ++ c :: rest)) (LexInv.new _ _ hbound) ws.length
      (by show 0 + ws.length ≤ strlen (ws ++ c :: rest); omega)
      (by
        intro i _ hi
        have hi2 : i < ws.length := by
          have : i < 0 + ws.length := hi
          omega
        show isspace (charAt (ws ++ c :: rest) i) = true
        rw [charAt_append_left _ _ _ hi2]
        exact hws _ (charAt_mem _ _ hi2))
      (by
        show isspace (charAt (ws ++ c :: rest) (0 + ws.length)) = false
        rw [Nat.zero_add, hat]
        exact hsp)
  have hin : l.m_input = ws ++ c :: rest := hlat.input_eq
  have hcu : l.m_cursor = ws.length := by
    have : l.m_cursor = 0 + ws.length := hcursor
    omega
  have hbodyrun := Lexer.parse_body_unexpected (Lexer.new path (ws ++ c :: rest)) l [] htrim hinv
    (by rw [hin, hcu, hat]; exact hqq) (by rw [hin, hcu, hat]; exact his)
    (by rw [hin, hcu, hat]; exact hd)
    (by rw [hin, hcu, hat]; exact charTokenType_of_not_punctuation hp)
  refine ⟨l.getLocation, ?_, hlat.path_eq, ?_, ?_, ?_⟩
  · show Lexer.parse_loop (strlen (ws ++ c :: rest) - 0) (Lexer.new path (ws ++ c :: rest)) [] = _
    obtain ⟨fuel, hfuel⟩ : ∃ fuel, strlen (ws ++ c :: rest) - 0 = fuel + 1 :=
      ⟨strlen (ws ++ c :: rest) - 1, by omega⟩
    rw [hfuel, Lexer.parse_loop_step _ _ _ (by show 0 < strlen (ws ++ c :: rest); omega), hbodyrun]
  · rw [hinv.getCursor, hcu]
  · rw [hinv.getRow, hin, hcu, rowAt, List.take_left]
  · rw [hinv.getCol, hin, hcu, colAt, List.take_left]

theorem lex_unexpected_character_witness :
    lex none ("\n ".toList ++ '@' :: "x".toList) =
      some (.failure [] .unexpected_char ⟨none, 2, 1, 1⟩) ∧
    ∃ loc, lex none ("\n ".toList ++ '@' :: "x".toList) =
        some (.failure [] .unexpected_char loc) ∧
      loc.m_file_path = none ∧
      loc.getCursor = "\n ".toList.length ∧
      loc.getRow = "\n ".toList.count NEWLINE ∧
      loc.getCol = (("\n ".toList.reverse.takeWhile (fun x => x != NEWLINE)).length : Int) :=
  ⟨by decide,
    lex_unexpected_character none "\n ".toList "x".toList '@' (by decide) (by decide)
      (by decide) (by decide) (by decide) (by decide) (by decide) (by decide) (by decide)⟩


theorem lex_failure_spec {path : Option String} {input : List Char} {tokens : List Token}
    {message : LexMessage} {loc : Location}
    (hlen : input.length < 2147483648)
    (h : lex path input = some (.failure tokens message loc)) :
    LocSpec path input loc ∧
      (∃ hi, hi ≤ loc.m_cursor.toNat ∧ TokensSpec path input 0 tokens hi) ∧
      CoverSpec input tokens loc.m_cursor.toNat := by
  obtain ⟨out, h1, h2⟩ := lex_spec path input hlen
  rw [h] at h1
  cases h1
  exact h2

/-- C12 (fails on the code): after a failed `parse` the caller's token vector is not
empty in general.  The vector is cleared once, at the start of the call, and no failure
path clears it again: for the source `a@` the call returns `false` and leaves the
Identifier token `a` behind. -/
theorem lex_failure_keeps_tokens :
    lex none "a@".toList = some (.failure
      [⟨.Identifier, some ['a'], ⟨none, 0, 0, 0⟩⟩] .unexpected_char ⟨none, 1, 0, 0⟩) ∧
    ([⟨.Identifier, some ['a'], ⟨none, 0, 0, 0⟩⟩] : List Token) ≠ [] := by
  decide

/-- C12 (amended): when `parse` fails on a source shorter than `2^31` characters, the
caller's vector holds the tokens lexed before the error.  Each token of the vector has a
non-empty text that is the substring of the source at its offset and ends at or before
the offset of the reported location; the tokens stand in source order; the reported
offset lies within the source; and every character before the reported offset is
whitespace, or lies in the text of a token of the vector, or lies in a comment (two
slashes that are in no token's text stand before it with no newline in between).  So the
vector is empty only when nothing but whitespace and comments stands before the error. -/
theorem lex_failure_tokens_before_error (path : Option String) (input : List Char)
    (hlen : input.length < 2 ^ 31)
    (tokens : List Token) (message : LexMessage) (loc : Location)
    (h : lex path input = some (.failure tokens message loc)) :
    (∀ t ∈ tokens, ∃ text, t.m_slice = some text ∧ text ≠ [] ∧
      0 ≤ t.m_location.getCursor ∧
      text = (input.drop t.m_location.getCursor.toNat).take text.length ∧
      t.m_location.getCursor + text.length ≤ loc.getCursor) ∧
    List.Chain' (fun a b => ∃ text, a.m_slice = some text ∧
      a.m_location.getCursor + (text.length : Int) ≤ b.m_location.getCursor) tokens ∧
    loc.getCursor ≤ input.length ∧
    (∀ i : Nat, (i : Int) < loc.getCursor →
      isspace (charAt input i) = true ∨
      (∃ t ∈ tokens, ∃ text, t.m_slice = some text ∧ t.m_location.getCursor ≤ i ∧
        (i : Int) < t.m_location.getCursor + text.length) ∨
      ∃ j, j ≤ i ∧ charAt input j = '/' ∧ charAt input (j + 1) = '/' ∧
        (∀ k, j ≤ k → k ≤ i → charAt input k ≠ NEWLINE) ∧
        ∀ t ∈ tokens, ∀ text, t.m_slice = some text →
          ¬ (t.m_location.getCursor ≤ j ∧
            (j : Int) < t.m_location.getCursor + text.length)) ∧
    (tokens = [] → ∀ i : Nat, (i : Int) < loc.getCursor →
      isspace (charAt input i) = true ∨
      ∃ j, j ≤ i ∧ charAt input j = '/' ∧ charAt input (j + 1) = '/' ∧
        ∀ k, j ≤ k → k ≤ i → charAt input k ≠ NEWLINE) := by
  obtain ⟨hloc, ⟨hi, hhi, hts⟩, hcov⟩ := lex_failure_spec hlen h
  have hsl := strlen_le_length input
  have hlc := hloc.cursor_le
  have hn2 : 0 ≤ loc.m_cursor := hloc.cursor_nonneg
  have hcover : ∀ i : Nat, (i : Int) < loc.getCursor →
      isspace (charAt input i) = true ∨ (∃ t ∈ tokens, t.Covers i) ∨
        InComment input tokens i := by
    intro i hi1
    have hi2 : (i : Int) < loc.m_cursor := hi1
    exact hcov i (by omega)
  refine ⟨?_, hts.chain, ?_, ?_, ?_⟩
  · intro t ht
    obtain ⟨stop, hs, hle⟩ := hts.mem_le ht
    have hstop := hs.stop_le
    have hlt := hs.start_lt
    have hl := slice_length input t.m_location.m_cursor.toNat stop (by omega)
    have hn1 : 0 ≤ t.m_location.m_cursor := hs.loc.cursor_nonneg
    refine ⟨_, hs.slice_eq, ?_, hn1, ?_, ?_⟩
    · intro hnil
      rw [hnil] at hl
      simp at hl
      omega
    · show _ = (input.drop t.m_location.m_cursor.toNat).take _
      rw [hl]
    · show t.m_location.m_cursor + _ ≤ loc.m_cursor
      rw [hl]; omega
  · show loc.m_cursor ≤ input.length
    omega
  · intro i hi1
    rcases hcover i hi1 with hs | ⟨t, ht, hc⟩ | ⟨j, h1, h2, h3, h4, h5⟩
    · exact Or.inl hs
    · exact Or.inr (Or.inl ⟨t, ht, hc⟩)
    · exact Or.inr (Or.inr ⟨j, h1, h2, h3, h4,
        fun t ht text hs hcon => h5 t ht ⟨text, hs, hcon.1, hcon.2⟩⟩)
  · intro hnil i hi1
    subst hnil
    rcases hcover i hi1 with hs | ⟨t, ht, -⟩ | ⟨j, h1, h2, h3, h4, -⟩
    · exact Or.inl hs
    · exact absurd ht (List.not_mem_nil t)
    · exact Or.inr ⟨j, h1, h2, h3, h4⟩

theorem lex_failure_tokens_before_error_witness :
    (∀ t ∈ [Token.mk .Identifier (some ['a']) ⟨none, 0, 0, 0⟩],
      ∃ text, t.m_slice = some text ∧ text ≠ [] ∧
      0 ≤ t.m_location.getCursor ∧
      text = ("a@".toList.drop t.m_location.getCursor.toNat).take text.length ∧
      t.m_location.getCursor + text.length ≤ (⟨none, 1, 0, 0⟩ : Location).getCursor) ∧
    List.Chain' (fun a b => ∃ text, a.m_slice = some text ∧
      a.m_location.getCursor + (text.length : Int) ≤ b.m_location.getCursor)
      [Token.mk .Identifier (some ['a']) ⟨none, 0, 0, 0⟩] ∧
    (⟨none, 1, 0, 0⟩ : Location).getCursor ≤ "a@".toList.length ∧
    (∀ i : Nat, (i : Int) < (⟨none, 1, 0, 0⟩ : Location).getCursor →
      isspace (charAt "a@".toList i) = true ∨
      (∃ t ∈ [Token.mk .Identifier (some ['a']) ⟨none, 0, 0, 0⟩],
        ∃ text, t.m_slice = some text ∧ t.m_location.getCursor ≤ i ∧
        (i : Int) < t.m_location.getCursor + text.length) ∨
      ∃ j, j ≤ i ∧ charAt "a@".toList j = '/' ∧ charAt "a@".toList (j + 1) = '/' ∧
        (∀ k, j ≤ k → k ≤ i → charAt "a@".toList k ≠ NEWLINE) ∧
        ∀ t ∈ [Token.mk .Identifier (some ['a']) ⟨none, 0, 0, 0⟩],
          ∀ text, t.m_slice = some text →
          ¬ (t.m_location.getCursor ≤ j ∧
            (j : Int) < t.m_location.getCursor + text.length)) ∧
    (([Token.mk .Identifier (some ['a']) ⟨none, 0, 0, 0⟩] : List Token) = [] →
      ∀ i : Nat, (i : Int) < (⟨none, 1, 0, 0⟩ : Location).getCursor →
      isspace (charAt "a@".toList i) = true ∨
      ∃ j, j ≤ i ∧ charAt "a@".toList j = '/' ∧ charAt "a@".toList (j + 1) = '/' ∧
        ∀ k, j ≤ k → k ≤ i → charAt "a@".toList k ≠ NEWLINE) :=
  lex_failure_tokens_before_error none "a@".toList (by decide)
    [⟨.Identifier, some ['a'], ⟨none, 0, 0, 0⟩⟩] .unexpected_char ⟨none, 1, 0, 0⟩
    (by decide)

/-- C14 (fails on the code): the tokens of `x;` parse to a Program with two statements,
an ExpressionStatement and an EmptyStatement.  The expression branch of `parse_statement`
calls `consume(Semicolon)` before it parses the expression, on the Identifier token, so
the semicolon after the expression stays and becomes a statement of its own.  The second
conjunct shows the object the first call of `parse_statement` returns: an
ExpressionStatement on the Identifier `x`, with the cursor left on the semicolon. -/
theorem parse_x_semicolon :
    front_end none "x;".toList = some (.parsed
      { m_statements :=
          [ { m_class_name := "ExpressionStatement", m_location := Location.default },
            { m_class_name := "EmptyStatement", m_location := Location.default } ] }
      { m_tokens := [⟨.Identifier, some ['x'], ⟨none, 0, 0, 0⟩⟩,
          ⟨.Semicolon, some [';'], ⟨none, 1, 0, 0⟩⟩],
        m_cursor := 2, m_stderr := [] }) ∧
    (Parser.new [⟨.Identifier, some ['x'], ⟨none, 0, 0, 0⟩⟩,
        ⟨.Semicolon, some [';'], ⟨none, 1, 0, 0⟩⟩]).parse_statement =
      .returned
        (some (ExpressionStatement.new (Identifier.new (some ['x']) ⟨none, 0, 0, 0⟩)
          Location.default))
        { m_tokens := [⟨.Identifier, some ['x'], ⟨none, 0, 0, 0⟩⟩,
            ⟨.Semicolon, some [';'], ⟨none, 1, 0, 0⟩⟩],
          m_cursor := 1, m_stderr := [] } := by
  decide

/-- C15: the tokens of `debugger;` parse to a Program with exactly one statement, a
DebuggerStatement, and both tokens are consumed (the cursor ends at 2, nothing is
reported); the tokens of `debugger` parse to the same Program. -/
theorem parse_debugger :
    front_end none "debugger;".toList = some (.parsed
      { m_statements :=
          [ { m_class_name := "DebuggerStatement", m_location := Location.default } ] }
      { m_tokens := [⟨.Keyword, some "debugger".toList, ⟨none, 0, 0, 0⟩⟩,
          ⟨.Semicolon, some [';'], ⟨none, 8, 0, 0⟩⟩],
        m_cursor := 2, m_stderr := [] }) ∧
    front_end none "debugger".toList = some (.parsed
      { m_statements :=
          [ { m_class_name := "DebuggerStatement", m_location := Location.default } ] }
      { m_tokens := [⟨.Keyword, some "debugger".toList, ⟨none, 0, 0, 0⟩⟩],
        m_cursor := 1, m_stderr := [] }) := by
  decide

/-- C16 (fails on the code): the tokens of `a.b;` do not parse.  After the Identifier `a`
the parser finds the Period, calls `parse_member_expression`, which only reports
"TODO: member expr" and returns a null pointer, and `Parser::parse` returns a null
pointer with the cursor on the Period. -/
theorem parse_member_access_fails :
    front_end none "a.b;".toList = some (.parse_failed
      { m_tokens := [⟨.Identifier, some ['a'], ⟨none, 0, 0, 0⟩⟩,
          ⟨.Period, some ['.'], ⟨none, 1, 0, 0⟩⟩, ⟨.Identifier, some ['b'], ⟨none, 2, 0, 0⟩⟩,
          ⟨.Semicolon, some [';'], ⟨none, 3, 0, 0⟩⟩],
        m_cursor := 1,
        m_stderr := [⟨.todo_member_expr, some ⟨none, 1, 0, 0⟩⟩] }) := by
  decide

/-- C16 (amended): a statement that starts with an Identifier, Number or String token
followed by a Period does not parse.  `parse_expression` consumes the first token, finds
the Period and calls the stub `parse_member_expression`, which reports
"TODO: member expr" at the Period and returns a null pointer; `Parser::parse` returns a
null pointer, with the cursor on the Period and no other report. -/
theorem parse_member_expression_stub (t1 t2 : Token) (rest : List Token)
    (h1 : t1.m_type = TokenType.Identifier ∨ t1.m_type = TokenType.Number ∨
      t1.m_type = TokenType.String)
    (h2 : t2.m_type = TokenType.Period) :
    (Parser.new (t1 :: t2 :: rest)).parse = some (.returned none
      { m_tokens := t1 :: t2 :: rest, m_cursor := 1,
        m_stderr := [⟨.todo_member_expr, some t2.m_location⟩] }) := by
  rcases h1 with h1 | h1 | h1 <;>
    simp [Parser.parse, Parser.new, Parser.parse_loop, Parser.parse_statement, Parser.is_eof,
      Parser.current, Ran.bind, h1, h2, Parser.consume, Parser.parse_expression_statement,
      Parser.parse_expression, Parser.isBinaryType, Parser.parse_member_expression,
      Parser.report, Parser.report_at]

theorem parse_member_expression_stub_witness :
    (Parser.new [⟨.Identifier, some ['a'], ⟨none, 0, 0, 0⟩⟩,
        ⟨.Period, some ['.'], ⟨none, 1, 0, 0⟩⟩, ⟨.Identifier, some ['b'], ⟨none, 2, 0, 0⟩⟩,
        ⟨.Semicolon, some [';'], ⟨none, 3, 0, 0⟩⟩]).parse = some (.returned none
      { m_tokens := [⟨.Identifier, some ['a'], ⟨none, 0, 0, 0⟩⟩,
          ⟨.Period, some ['.'], ⟨none, 1, 0, 0⟩⟩, ⟨.Identifier, some ['b'], ⟨none, 2, 0, 0⟩⟩,
          ⟨.Semicolon, some [';'], ⟨none, 3, 0, 0⟩⟩],
        m_cursor := 1,
        m_stderr := [⟨.todo_member_expr,
          some (Token.mk .Period (some ['.']) ⟨none, 1, 0, 0⟩).m_location⟩] }) :=
  parse_member_expression_stub ⟨.Identifier, some ['a'], ⟨none, 0, 0, 0⟩⟩
    ⟨.Period, some ['.'], ⟨none, 1, 0, 0⟩⟩
    [⟨.Identifier, some ['b'], ⟨none, 2, 0, 0⟩⟩, ⟨.Semicolon, some [';'], ⟨none, 3, 0, 0⟩⟩]
    (Or.inl rfl) rfl

/-- C17 (fails on the code): the tokens of `true;`, the source of `main`, of `false;`
and of `null;` do not parse.  The keyword branch of `parse_statement` only reports
"TODO: literals" for these three words, leaves `ret` null, and reports
"TODO: statement keyword for" the word; `Parser::parse` returns a null pointer. -/
theorem parse_literal_keyword_fails :
    front_end none "true;".toList = some (.parse_failed
      { m_tokens := [⟨.Keyword, some "true".toList, ⟨none, 0, 0, 0⟩⟩,
          ⟨.Semicolon, some [';'], ⟨none, 4, 0, 0⟩⟩],
        m_cursor := 0,
        m_stderr := [⟨.todo_literals, some ⟨none, 0, 0, 0⟩⟩,
          ⟨.todo_statement_keyword (some "true".toList), some ⟨none, 0, 0, 0⟩⟩] }) ∧
    front_end none "false;".toList = some (.parse_failed
      { m_tokens := [⟨.Keyword, some "false".toList, ⟨none, 0, 0, 0⟩⟩,
          ⟨.Semicolon, some [';'], ⟨none, 5, 0, 0⟩⟩],
        m_cursor := 0,
        m_stderr := [⟨.todo_literals, some ⟨none, 0, 0, 0⟩⟩,
          ⟨.todo_statement_keyword (some "false".toList), some ⟨none, 0, 0, 0⟩⟩] }) ∧
    front_end none "null;".toList = some (.parse_failed
      { m_tokens := [⟨.Keyword, some "null".toList, ⟨none, 0, 0, 0⟩⟩,
          ⟨.Semicolon, some [';'], ⟨none, 4, 0, 0⟩⟩],
        m_cursor := 0,
        m_stderr := [⟨.todo_literals, some ⟨none, 0, 0, 0⟩⟩,
          ⟨.todo_statement_keyword (some "null".toList), some ⟨none, 0, 0, 0⟩⟩] }) := by
  decide

/-- C18 (fails on the code): the word `for` is not in the keyword table of the lexer, so
`for;` lexes to an Identifier and a Semicolon and parses to a Program of an
ExpressionStatement and an EmptyStatement, without any report; the branch of
`parse_statement` that rejects `for` is never reached.  The word `do` is a keyword:
`do;` is rejected with the report "TODO: do/for statement", and so is every token
sequence that starts with the keyword `do`. -/
theorem parse_do_for :
    front_end none "for;".toList = some (.parsed
      { m_statements :=
          [ { m_class_name := "ExpressionStatement", m_location := Location.default },
            { m_class_name := "EmptyStatement", m_location := Location.default } ] }
      { m_tokens := [⟨.Identifier, some "for".toList, ⟨none, 0, 0, 0⟩⟩,
          ⟨.Semicolon, some [';'], ⟨none, 3, 0, 0⟩⟩],
        m_cursor := 2, m_stderr := [] }) ∧
    front_end none "do;".toList = some (.parse_failed
      { m_tokens := [⟨.Keyword, some "do".toList, ⟨none, 0, 0, 0⟩⟩,
          ⟨.Semicolon, some [';'], ⟨none, 2, 0, 0⟩⟩],
        m_cursor := 0,
        m_stderr := [⟨.todo_do_for, some ⟨none, 0, 0, 0⟩⟩] }) ∧
    ∀ (location : Location) (rest : List Token),
      (Parser.new (⟨.Keyword, some "do".toList, location⟩ :: rest)).parse =
        some (.returned none
          { m_tokens := ⟨.Keyword, some "do".toList, location⟩ :: rest, m_cursor := 0,
            m_stderr := [⟨.todo_do_for, some location⟩] }) := by
  refine ⟨by decide, by decide, ?_⟩
  intro location rest
  have h1 : (strcmp_eq "do".toList "async".toList || strcmp_eq "do".toList "function".toList)
      = false := by decide
  have h2 : strcmp_eq "do".toList "return".toList = false := by decide
  have h3 : (strcmp_eq "do".toList "const".toList || strcmp_eq "do".toList "let".toList ||
      strcmp_eq "do".toList "var".toList) = false := by decide
  have h4 : (strcmp_eq "do".toList "true".toList || strcmp_eq "do".toList "false".toList ||
      strcmp_eq "do".toList "null".toList) = false := by decide
  have h5 : strcmp_eq "do".toList "if".toList = false := by decide
  have h6 : strcmp_eq "do".toList "while".toList = false := by decide
  have h7 : strcmp_eq "do".toList "debugger".toList = false := by decide
  have h8 : (strcmp_eq "do".toList "do".toList || strcmp_eq "do".toList "for".toList)
      = true := by decide
  have hstep : (Parser.new (⟨.Keyword, some "do".toList, location⟩ :: rest)).parse_statement =
      .returned none
        { m_tokens := ⟨.Keyword, some "do".toList, location⟩ :: rest, m_cursor := 0,
          m_stderr := [⟨.todo_do_for, some location⟩] } := by
    simp only [Parser.parse_statement, Parser.new, Parser.is_eof, Parser.current, Ran.bind,
      Parser.report_at, List.length_cons, List.getElem?_cons_zero, h1, h2, h3, h4, h5, h6, h7, h8]
    simp
  show Parser.parse_loop (rest.length + 1 - 0) _ [] = _
  rw [Nat.sub_zero, Parser.parse_loop, hstep]
  simp [Parser.new, Parser.is_eof]

/-- C19 (fails on the code): on the single Identifier token of the source `x`,
`Parser::parse` returns neither a Program nor a null pointer.  `parse_expression`
consumes the token, finds the end of input and calls `report("this might be error?")`;
that overload of `report` reads `current()`, which is `m_tokens->at(1)` on a vector of
one token, and `std::out_of_range` leaves `parse`. -/
theorem parse_single_identifier_throws :
    lex none "x".toList = some (.success [⟨.Identifier, some ['x'], ⟨none, 0, 0, 0⟩⟩]) ∧
    (Parser.new [⟨.Identifier, some ['x'], ⟨none, 0, 0, 0⟩⟩]).parse =
      some (.threw (.out_of_range 1)) ∧
    front_end none "x".toList = some (.parse_threw (.out_of_range 1)) := by
  decide

/-- C20 (fails on the code): `getLocation()` of a statement of a Program is not the
location of the statement's first token.  For the source ` x;` the first token is at
offset 1 and for a newline followed by `x;` it is on row 1, and in both Programs every
statement has the location `Location()`, offset 0 on row 0: `Statement::getLocation`
reads the member of the base class, which no constructor of a derived class sets. -/
theorem parse_statement_location_lost :
    front_end none " x;".toList = some (.parsed
      { m_statements :=
          [ { m_class_name := "ExpressionStatement", m_location := ⟨none, 0, 0, 0⟩ },
            { m_class_name := "EmptyStatement", m_location := ⟨none, 0, 0, 0⟩ } ] }
      { m_tokens := [⟨.Identifier, some ['x'], ⟨none, 1, 0, 0⟩⟩,
          ⟨.Semicolon, some [';'], ⟨none, 2, 0, 0⟩⟩],
        m_cursor := 2, m_stderr := [] }) ∧
    front_end none "\nx;".toList = some (.parsed
      { m_statements :=
          [ { m_class_name := "ExpressionStatement", m_location := ⟨none, 0, 0, 0⟩ },
            { m_class_name := "EmptyStatement", m_location := ⟨none, 0, 0, 0⟩ } ] }
      { m_tokens := [⟨.Identifier, some ['x'], ⟨none, 1, 1, 1⟩⟩,
          ⟨.Semicolon, some [';'], ⟨none, 2, 1, 1⟩⟩],
        m_cursor := 2, m_stderr := [] }) ∧
    (Statement.mk "ExpressionStatement" ⟨none, 0, 0, 0⟩).getLocation ≠
      (Token.mk .Identifier (some ['x']) ⟨none, 1, 0, 0⟩).m_location := by
  decide


/-- C21 (fails on the code): the tokens of the source made of an opening and a closing
brace do not parse.  `parse_statement` hands a statement that starts with the opening
brace to `parse_block_statement`, which only reports "TODO: block statement" and returns
a null pointer, and `Parser::parse` returns a null pointer. -/
theorem parse_empty_block_fails :
    front_end none "\x7b\x7d".toList = some (.parse_failed
      { m_tokens := [⟨.OpenBracket, some [Char.ofNat 123], ⟨none, 0, 0, 0⟩⟩,
          ⟨.CloseBracket, some [Char.ofNat 125], ⟨none, 1, 0, 0⟩⟩],
        m_cursor := 0,
        m_stderr := [⟨.todo_block_statement, some ⟨none, 0, 0, 0⟩⟩] }) := by
  decide

/-- C21 (amended): every token sequence that starts with an opening brace fails to
parse, whatever follows: `parse_block_statement` is a stub that reports
"TODO: block statement" at the brace and returns a null pointer, so `Parser::parse`
returns a null pointer with the cursor still on the brace. -/
theorem parse_block_statement_stub (t : Token) (rest : List Token)
    (h : t.m_type = TokenType.OpenBracket) :
    (Parser.new (t :: rest)).parse = some (.returned none
      { m_tokens := t :: rest, m_cursor := 0,
        m_stderr := [⟨.todo_block_statement, some t.m_location⟩] }) := by
  simp [Parser.parse, Parser.new, Parser.parse_loop, Parser.parse_statement, Parser.is_eof,
    Parser.current, Ran.bind, h, Parser.parse_block_statement, Parser.report, Parser.report_at]

theorem parse_block_statement_stub_witness :
    (Parser.new [⟨.OpenBracket, some [Char.ofNat 123], ⟨none, 0, 0, 0⟩⟩,
        ⟨.Semicolon, some [';'], ⟨none, 1, 0, 0⟩⟩]).parse = some (.returned none
      { m_tokens := [⟨.OpenBracket, some [Char.ofNat 123], ⟨none, 0, 0, 0⟩⟩,
          ⟨.Semicolon, some [';'], ⟨none, 1, 0, 0⟩⟩],
        m_cursor := 0,
        m_stderr := [⟨.todo_block_statement,
          some (Token.mk .OpenBracket (some [Char.ofNat 123]) ⟨none, 0, 0, 0⟩).m_location⟩] }) :=
  parse_block_statement_stub ⟨.OpenBracket, some [Char.ofNat 123], ⟨none, 0, 0, 0⟩⟩
    [⟨.Semicolon, some [';'], ⟨none, 1, 0, 0⟩⟩] rfl

/-! ## The last claims about the lexer -/

theorem Lexer.Reachable.compose {a b c : Lexer} (h1 : Lexer.Reachable a b)
    (h2 : Lexer.Reachable b c) : Lexer.Reachable a c := by
  induction h2 with
  | start => exact h1
  | step _ hs ih => exact Lexer.Reachable.step ih hs

theorem Lexer.Reachable.of_consume (l : Lexer) : Lexer.Reachable l l.consume.2 :=
  Lexer.Reachable.step Lexer.Reachable.start (Lexer.Step.consume l)

theorem LexInv.step {l l1 : Lexer} (hl : LexInv l) (hs : Lexer.Step l l1) :
    LexInv l1 ∧ l1.m_input = l.m_input := by
  cases hs with
  | consume => exact ⟨hl.consume, l.consume_input⟩
  | comment h1 h2 =>
    have hc1 : charAt l.m_input l.m_cursor = '/' := by
      rw [← l.current_of_le hl.cursor_le]; exact h1
    obtain ⟨hp1, hp2⟩ := Lexer.peek_eq (by decide) h2
    rw [l.consume_expect_word_slashes hl.bound hc1 hp1 hp2]
    exact ⟨hl.skip_slashes hc1 hp1 hp2, rfl⟩

theorem LexInv.of_reachable {l0 l : Lexer} (hl0 : LexInv l0) (hr : Lexer.Reachable l0 l) :
    LexInv l ∧ l.m_input = l0.m_input := by
  induction hr with
  | start => exact ⟨hl0, rfl⟩
  | step _ hs ih =>
    obtain ⟨h1, h2⟩ := ih.1.step hs
    exact ⟨h1, h2.trans ih.2⟩

theorem Lexer.consume_while_loop_reachable (condition : Char → Bool) :
    ∀ (fuel : Nat) (l l1 : Lexer), Lexer.consume_while_loop condition fuel l = some l1 →
      Lexer.Reachable l l1 := by
  intro fuel
  induction fuel with
  | zero =>
    intro l l1 h
    unfold Lexer.consume_while_loop at h
    split at h
    · exact Option.noConfusion h
    · cases h; exact Lexer.Reachable.start
  | succ fuel ih =>
    intro l l1 h
    unfold Lexer.consume_while_loop at h
    split at h
    · exact (Lexer.Reachable.of_consume l).compose (ih _ _ h)
    · cases h; exact Lexer.Reachable.start

theorem Lexer.consume_while_reachable {l l1 : Lexer} {condition : Char → Bool}
    (h : l.consume_while condition = some l1) : Lexer.Reachable l l1 :=
  Lexer.consume_while_loop_reachable condition _ l l1 h

theorem Lexer.string_loop_reachable (quote : Char) :
    ∀ (fuel : Nat) (l l1 : Lexer), Lexer.string_loop quote fuel l = some l1 →
      Lexer.Reachable l l1 := by
  intro fuel
  induction fuel with
  | zero =>
    intro l l1 h
    unfold Lexer.string_loop at h
    split at h
    · exact Option.noConfusion h
    · cases h; exact Lexer.Reachable.start
  | succ fuel ih =>
    intro l l1 h
    unfold Lexer.string_loop at h
    split at h
    · dsimp only at h
      split at h
      · exact ((Lexer.Reachable.of_consume l).compose (Lexer.Reachable.of_consume _)).compose (ih _ _ h)
      · exact (Lexer.Reachable.of_consume l).compose (ih _ _ h)
    · cases h; exact Lexer.Reachable.start

theorem Lexer.consume_expect_char_reachable (l : Lexer) (ch : Char) :
    Lexer.Reachable l (l.consume_expect_char ch).2 := by
  unfold Lexer.consume_expect_char
  split
  · exact Lexer.Reachable.start
  · dsimp only
    split
    · exact Lexer.Reachable.of_consume l
    · exact Lexer.Reachable.start

/-- Every state in which a pass through the loop body hands over to the next pass is
reached from the state the pass started in by the two state changes of `Lexer.Step`. -/
theorem Lexer.parse_body_reachable (l0 l1 : Lexer) (tokens tokens1 : List Token)
    (h : l0.parse_body tokens = some (.next l1 tokens1)) : Lexer.Reachable l0 l1 := by
  unfold Lexer.parse_body Lexer.trim_left at h
  cases htrim : l0.consume_while isspace with
  | none => rw [htrim] at h; exact Option.noConfusion h
  | some l =>
    rw [htrim] at h
    dsimp only at h
    have r0 := Lexer.consume_while_reachable htrim
    by_cases h1 : (l.current == '/' && l.peek == '/') = true
    · rw [if_pos h1] at h
      have h1' := h1
      simp only [Bool.and_eq_true, beq_iff_eq] at h1'
      have rs : Lexer.Reachable l (l.consume_expect_word ['/', '/']).2 :=
        Lexer.Reachable.step Lexer.Reachable.start (Lexer.Step.comment l h1'.1 h1'.2)
      cases hw : (l.consume_expect_word ['/', '/']).2.consume_while (fun ch => ch != NEWLINE) with
      | none => rw [hw] at h; exact Option.noConfusion h
      | some l2 =>
        rw [hw] at h
        cases h
        exact (r0.compose rs).compose (Lexer.consume_while_reachable hw)
    rw [if_neg h1] at h
    by_cases h2 : (l.current == SQUOTE || l.current == DQUOTE || l.current == BQUOTE) = true
    · rw [if_pos h2] at h
      cases hs : Lexer.string_loop l.consume.1 (strlen l.consume.2.m_input - l.consume.2.m_cursor)
          l.consume.2 with
      | none => rw [hs] at h; exact Option.noConfusion h
      | some l2 =>
        rw [hs] at h
        dsimp only at h
        have r2 := (r0.compose (Lexer.Reachable.of_consume l)).compose
          (Lexer.string_loop_reachable _ _ _ _ hs)
        split at h
        · cases h
        · cases h
          exact r2.compose (Lexer.consume_expect_char_reachable l2 _)
    rw [if_neg h2] at h
    by_cases h3 : (isalpha l.current || l.current == '_') = true
    · rw [if_pos h3] at h
      cases hw : l.consume_while (fun ch => isalnum ch || ch == '_') with
      | none => rw [hw] at h; exact Option.noConfusion h
      | some l2 =>
        rw [hw] at h
        dsimp only at h
        split at h
        · cases h
        · cases h
          exact r0.compose (Lexer.consume_while_reachable hw)
    rw [if_neg h3] at h
    by_cases h4 : isdigit l.current = true
    · rw [if_pos h4] at h
      cases hw : l.consume_while (fun ch => isdigit ch) with
      | none => rw [hw] at h; exact Option.noConfusion h
      | some l2 =>
        rw [hw] at h
        cases h
        exact r0.compose (Lexer.consume_while_reachable hw)
    rw [if_neg h4] at h
    by_cases h5 : (charTokenType l.current).value > 0
    · rw [if_pos h5] at h
      cases h
      exact r0.compose (Lexer.Reachable.of_consume l)
    · rw [if_neg h5] at h
      cases h

theorem Lexer.consume_expect_word_row_bol (l : Lexer) (word : List Char) :
    (l.consume_expect_word word).2.m_row = l.m_row ∧
      (l.consume_expect_word word).2.m_bol = l.m_bol := by
  unfold Lexer.consume_expect_word
  split
  · exact ⟨rfl, rfl⟩
  · split
    · exact ⟨rfl, rfl⟩
    · dsimp only
      split <;> exact ⟨rfl, rfl⟩

/-- The row and the line start change in a state change exactly when a newline is
consumed, and then both change. -/
theorem Lexer.Step.row_bol {l l1 : Lexer} (hl : LexInv l) (hs : Lexer.Step l l1)
    (hch : l1.m_row ≠ l.m_row ∨ l1.m_bol ≠ l.m_bol) :
    charAt l.m_input l.m_cursor = NEWLINE ∧ l1.m_cursor = l.m_cursor + 1 ∧
      l1.m_row = l.m_row + 1 ∧ l1.m_bol = l1.m_cursor ∧ l.m_bol < l1.m_bol := by
  have hbc : l.m_bol ≤ l.m_cursor := by have := hl.bol_eq; omega
  have hbound := hl.bound
  have hsl := strlen_le_length l.m_input
  cases hs with
  | consume =>
    rcases Nat.lt_or_ge l.m_cursor (strlen l.m_input) with hlt | hge
    · have hr := l.consume_row hlt
      have hb := l.consume_bol hlt
      have hc := l.consume_cursor hlt
      by_cases hn : charAt l.m_input l.m_cursor = NEWLINE
      · rw [if_pos hn] at hr hb
        have hrow := hl.row_eq
        have hrl := rowAt_le l.m_input (l.m_cursor + 1)
        rw [rowAt_succ _ _ (by omega), if_pos hn] at hrl
        rw [to_int_of_range _ (by omega) (by omega)] at hr
        rw [size_to_int_of_lt _ (by omega)] at hb
        exact ⟨hn, hc, hr, by rw [hb, hc], by rw [hb]; push_cast; omega⟩
      · rw [if_neg hn] at hr hb
        rcases hch with h | h
        · exact absurd hr h
        · exact absurd hb h
    · rw [l.consume_of_eof hge] at hch
      rcases hch with h | h <;> exact absurd rfl h
  | comment h1 h2 =>
    obtain ⟨hr, hb⟩ := l.consume_expect_word_row_bol ['/', '/']
    rcases hch with h | h
    · exact absurd hr h
    · exact absurd hb h

theorem LocSpec.bounds {path : Option String} {input : List Char} {loc : Location}
    (h : LocSpec path input loc) (hb : input.length < 2147483648) :
    0 ≤ loc.getBol ∧ loc.getBol ≤ loc.getCursor ∧ loc.getCursor ≤ input.length ∧
      0 ≤ loc.getCol := by
  have h0 := h.cursor_nonneg
  have h1 := h.bol_eq
  have h2 := h.cursor_le
  have h3 := strlen_le_length input
  have h4 := colAt_le input loc.m_cursor.toNat
  refine ⟨?_, ?_, ?_, ?_⟩
  · show 0 ≤ loc.m_bol
    omega
  · show loc.m_bol ≤ loc.m_cursor
    omega
  · show loc.m_cursor ≤ input.length
    omega
  · show (0 : Int) ≤ to_int (loc.m_cursor - loc.m_bol)
    rw [to_int_of_range _ (by omega) (by omega)]
    omega

/-- C22: in every state the lexer passes through on a source shorter than `2^31`
characters, the line start is not negative and at most the cursor, and the cursor is at
most the length of the source; a state change alters the row or the line start only
when it consumes a newline, and then the row grows by one and the line start moves
forward to the new cursor; every location `parse` attaches to a token or reports with
an error has a line start that is not negative and at or before its offset, its offset
within the source and a column that is not negative. -/
theorem lex_location_invariant (path : Option String) (input : List Char)
    (hlen : input.length < 2 ^ 31) :
    (∀ l, Lexer.Reachable (Lexer.new path input) l →
      0 ≤ l.m_bol ∧ l.m_bol ≤ l.m_cursor ∧ l.m_cursor ≤ input.length ∧
      0 ≤ l.getLocation.getCol ∧
      ∀ l1, Lexer.Step l l1 → (l1.m_row ≠ l.m_row ∨ l1.m_bol ≠ l.m_bol) →
        charAt input l.m_cursor = NEWLINE ∧ l1.m_cursor = l.m_cursor + 1 ∧
          l1.m_row = l.m_row + 1 ∧ l1.m_bol = l1.m_cursor ∧ l.m_bol < l1.m_bol) ∧
    (∀ tokens, lex path input = some (.success tokens) → ∀ t ∈ tokens,
      0 ≤ t.m_location.getBol ∧ t.m_location.getBol ≤ t.m_location.getCursor ∧
        t.m_location.getCursor ≤ input.length ∧ 0 ≤ t.m_location.getCol) ∧
    (∀ tokens message loc, lex path input = some (.failure tokens message loc) →
      (0 ≤ loc.getBol ∧ loc.getBol ≤ loc.getCursor ∧ loc.getCursor ≤ input.length ∧
        0 ≤ loc.getCol) ∧
      ∀ t ∈ tokens, 0 ≤ t.m_location.getBol ∧
        t.m_location.getBol ≤ t.m_location.getCursor ∧
        t.m_location.getCursor ≤ input.length ∧ 0 ≤ t.m_location.getCol) := by
  have hb : input.length < 2147483648 := hlen
  refine ⟨?_, ?_, ?_⟩
  · intro l hr
    obtain ⟨hl, hin⟩ := LexInv.of_reachable (LexInv.new path input hb) hr
    have hin2 : l.m_input = input := hin
    have h1 := hl.bol_eq
    have h2 := hl.cursor_le
    have h3 := strlen_le_length l.m_input
    have h4 := colAt_le l.m_input l.m_cursor
    rw [hin2] at h2 h3
    refine ⟨by omega, by omega, by omega, by rw [hl.getCol]; omega, ?_⟩
    intro l1 hs hch
    have := Lexer.Step.row_bol hl hs hch
    rwa [hin2] at this
  · intro tokens h t ht
    obtain ⟨stop, hs⟩ := lex_token_spec hb h ht
    exact hs.loc.bounds hb
  · intro tokens message loc h
    obtain ⟨hloc, ⟨hi, -, hts⟩, -⟩ := lex_failure_spec hb h
    refine ⟨hloc.bounds hb, ?_⟩
    intro t ht
    obtain ⟨stop, hs⟩ := hts.mem ht
    exact hs.loc.bounds hb

theorem lex_location_invariant_witness :
    (Lexer.new none "a\nb".toList).consume.2.consume.2.m_bol = 2 ∧
    (0 ≤ (Lexer.new none "a\nb".toList).consume.2.consume.2.m_bol ∧
      (Lexer.new none "a\nb".toList).consume.2.consume.2.m_bol ≤
        (Lexer.new none "a\nb".toList).consume.2.consume.2.m_cursor ∧
      (Lexer.new none "a\nb".toList).consume.2.consume.2.m_cursor ≤ "a\nb".toList.length ∧
      0 ≤ (Lexer.new none "a\nb".toList).consume.2.consume.2.getLocation.getCol ∧
      ∀ l1, Lexer.Step (Lexer.new none "a\nb".toList).consume.2.consume.2 l1 →
        (l1.m_row ≠ (Lexer.new none "a\nb".toList).consume.2.consume.2.m_row ∨
          l1.m_bol ≠ (Lexer.new none "a\nb".toList).consume.2.consume.2.m_bol) →
        charAt "a\nb".toList (Lexer.new none "a\nb".toList).consume.2.consume.2.m_cursor
            = NEWLINE ∧
          l1.m_cursor = (Lexer.new none "a\nb".toList).consume.2.consume.2.m_cursor + 1 ∧
          l1.m_row = (Lexer.new none "a\nb".toList).consume.2.consume.2.m_row + 1 ∧
          l1.m_bol = l1.m_cursor ∧
          (Lexer.new none "a\nb".toList).consume.2.consume.2.m_bol < l1.m_bol) :=
  ⟨by decide,
    (lex_location_invariant none "a\nb".toList (by decide)).1 _
      (Lexer.Reachable.step (Lexer.Reachable.step Lexer.Reachable.start (Lexer.Step.consume _))
        (Lexer.Step.consume _))⟩

/-- C23: `Lexer::parse` returns on every source shorter than `2^31` characters.  In every
state the lexer passes through, a pass through the loop body ends: it returns, or it
hands over to the next pass with the cursor moved forward by at least one character and
still within the source. -/
theorem lex_terminates (path : Option String) (input : List Char)
    (hlen : input.length < 2 ^ 31) :
    (∃ out, lex path input = some out) ∧
    ∀ l tokens, Lexer.Reachable (Lexer.new path input) l →
      ∃ step, l.parse_body tokens = some step ∧
        ∀ l1 tokens1, step = LoopStep.next l1 tokens1 →
          l.m_cursor < l1.m_cursor ∧ l1.m_cursor ≤ input.length ∧
            Lexer.Reachable (Lexer.new path input) l1 := by
  refine ⟨?_, ?_⟩
  · obtain ⟨out, h, -⟩ := lex_spec path input hlen
    exact ⟨out, h⟩
  · intro l tokens hr
    obtain ⟨hl, hin⟩ := LexInv.of_reachable (LexInv.new path input hlen) hr
    have hin2 : l.m_input = input := hin
    obtain ⟨step, hstep, hspec⟩ := l.parse_body_spec tokens hl
    refine ⟨step, hstep, ?_⟩
    intro l1 tokens1 he
    subst he
    obtain ⟨hlat, hl1, hlt, -⟩ := hspec
    have h1 := hl1.cursor_le
    have h2 := strlen_le_length l1.m_input
    rw [hlat.input_eq, hin2] at h1 h2
    exact ⟨hlt, by omega, hr.compose (Lexer.parse_body_reachable _ _ _ _ hstep)⟩

theorem lex_terminates_witness :
    (∃ out, lex none "a;".toList = some out) ∧
    ∃ step, (Lexer.new none "a;".toList).consume.2.parse_body [] = some step ∧
      ∀ l1 tokens1, step = LoopStep.next l1 tokens1 →
        (Lexer.new none "a;".toList).consume.2.m_cursor < l1.m_cursor ∧
          l1.m_cursor ≤ "a;".toList.length ∧
          Lexer.Reachable (Lexer.new none "a;".toList) l1 :=
  ⟨(lex_terminates none "a;".toList (by decide)).1,
    (lex_terminates none "a;".toList (by decide)).2 _ []
      (Lexer.Reachable.step Lexer.Reachable.start (Lexer.Step.consume _))⟩


/-! ## Whitespace at the end of the source -/

theorem isspace_cases {c : Char} (h : isspace c = true) :
    c = Char.ofNat 32 ∨ c = Char.ofNat 9 ∨ c = Char.ofNat 10 ∨ c = Char.ofNat 11 ∨
      c = Char.ofNat 12 ∨ c = Char.ofNat 13 := by
  have hc : Char.ofNat c.toNat = c := Char.ofNat_toNat c
  simp only [isspace, Bool.or_eq_true, Bool.and_eq_true, beq_iff_eq, decide_eq_true_eq] at h
  have hn : c.toNat = 32 ∨ c.toNat = 9 ∨ c.toNat = 10 ∨ c.toNat = 11 ∨ c.toNat = 12 ∨
      c.toNat = 13 := by omega
  rcases hn with hn | hn | hn | hn | hn | hn <;> rw [hn] at hc <;> simp [← hc]

theorem isspace_facts {c : Char} (h : isspace c = true) :
    isQuote c = false ∧ isIdentPart c = false ∧ isdigit c = false ∧
      charTokenType c = TokenType.Identifier := by
  rcases isspace_cases h with h | h | h | h | h | h <;> subst h <;> decide

theorem TokenSpec.last_not_space {path : Option String} {input : List Char} {t : Token}
    {stop : Nat} (h : TokenSpec path input t stop) :
    isspace (charAt input (stop - 1)) = false := by
  have hlt := h.start_lt
  cases hsp : isspace (charAt input (stop - 1)) with
  | false => rfl
  | true =>
    exfalso
    obtain ⟨f1, f2, f3, f4⟩ := isspace_facts hsp
    rcases h.kind with ⟨hq, -, -, hlast⟩ | ⟨-, -, -, hall, -⟩ | ⟨-, -, -, -, hall, -⟩ |
      ⟨-, -, -, hstop, hty, hv⟩
    · rw [← hlast, f1] at hq
      exact Bool.noConfusion hq
    · have := hall (stop - 1) (by omega) (by omega)
      rw [f2] at this
      exact Bool.noConfusion this
    · have := hall (stop - 1) (by omega) (by omega)
      rw [f3] at this
      exact Bool.noConfusion this
    · have he : stop - 1 = t.m_location.m_cursor.toNat := by omega
      rw [he] at f4
      rw [hty, f4] at hv
      exact absurd hv (by decide)

/-- The main loop never returns `true` from a state inside a slash-free source whose last
character is whitespace. -/
theorem Lexer.parse_loop_trailing_space :
    ∀ (fuel : Nat) (l : Lexer) (tokens : List Token), LexInv l →
      l.m_cursor < strlen l.m_input → (∀ i, charAt l.m_input i ≠ '/') →
      isspace (charAt l.m_input (strlen l.m_input - 1)) = true →
      ∀ toks, Lexer.parse_loop fuel l tokens ≠ some (.success toks) := by
  intro fuel
  induction fuel with
  | zero =>
    intro l tokens _ hlt _ _ toks
    have hne : ¬ (l.is_eof = true) := by
      rw [Bool.not_eq_true]; exact (l.not_eof_iff).2 hlt
    rw [Lexer.parse_loop, if_neg hne]
    exact fun h => Option.noConfusion h
  | succ fuel ih =>
    intro l tokens hl hlt hslash hlast toks
    obtain ⟨step, hstep, hspec⟩ := l.parse_body_spec tokens hl
    rw [Lexer.parse_loop_step _ _ _ hlt, hstep]
    cases step with
    | stop tokens1 message loc =>
      intro h
      cases h
    | next l1 tokens1 =>
      obtain ⟨hlat, hl1, hadv, htok⟩ := hspec
      have hle1 := hl1.cursor_le
      rw [hlat.input_eq] at hle1
      have hlt1 : l1.m_cursor < strlen l1.m_input := by
        rw [hlat.input_eq]
        rcases htok with ⟨-, i, -, -, hi, -⟩ | ⟨t, -, -, hts, -⟩
        · exact absurd hi (hslash i)
        · have hns := hts.last_not_space
          rcases Nat.lt_or_ge l1.m_cursor (strlen l.m_input) with h | h
          · exact h
          · have he : l1.m_cursor = strlen l.m_input := by omega
            rw [he, hlast] at hns
            exact Bool.noConfusion hns
      exact ih l1 tokens1 hl1 hlt1 (by rw [hlat.input_eq]; exact hslash)
        (by rw [hlat.input_eq]; exact hlast) toks

/-- C26: a non-empty source shorter than `2^31` characters without a slash whose last
character is whitespace does not lex: `Lexer::parse` returns `false`.  (The source is
the content of a C string, so it holds no NUL.) -/
theorem lex_trailing_whitespace_fails (path : Option String) (input : List Char) (w : Char)
    (hlen : input.length < 2 ^ 31) (hnul : NUL ∉ input) (hslash : '/' ∉ input)
    (hlast : input.getLast? = some w)
    (hw : isspace w = true) :
    ∃ tokens message loc, lex path input = some (.failure tokens message loc) := by
  have hstr : strlen input = input.length := strlen_eq_length_of_not_mem input hnul
  have hpos : 0 < input.length := by
    cases input with
    | nil => simp at hlast
    | cons c cs => simp
  have hat : charAt input (strlen input - 1) = w := by
    rw [hstr]
    rw [List.getLast?_eq_getElem?] at hlast
    exact charAt_of_getElem? hlast
  have hns : ∀ i, charAt input i ≠ '/' := by
    intro i hi
    rcases Nat.lt_or_ge i input.length with h | h
    · exact hslash (hi ▸ charAt_mem input i h)
    · rw [charAt_of_length_le input i h] at hi
      exact absurd hi (by decide)
  obtain ⟨out, hout, -⟩ := lex_spec path input hlen
  cases out with
  | failure tokens message loc => exact ⟨tokens, message, loc, hout⟩
  | success toks =>
    exfalso
    exact Lexer.parse_loop_trailing_space _ (Lexer.new path input) []
      (LexInv.new path input hlen)
      (by show 0 < strlen input; omega) hns (by
        show isspace (charAt input (strlen input - 1)) = true
        rw [hat]; exact hw) toks hout

theorem lex_trailing_whitespace_fails_witness :
    lex none "x;\n".toList = some (.failure
      [⟨.Identifier, some ['x'], ⟨none, 0, 0, 0⟩⟩, ⟨.Semicolon, some [';'], ⟨none, 1, 0, 0⟩⟩]
      .unexpected_char ⟨none, 3, 1, 3⟩) ∧
    ∃ tokens message loc, lex none "x;\n".toList = some (.failure tokens message loc) :=
  ⟨by decide,
    lex_trailing_whitespace_fails none "x;\n".toList '\n' (by decide) (by decide) (by decide)
      (by decide) (by decide)⟩


/-! ## What the parser does on every token sequence -/

theorem Ran.bind_eq_returned {α β : Type} {r : Ran α} {f : α → Parser → Ran β} {v : β}
    {p1 : Parser} (h : r.bind f = .returned v p1) :
    ∃ a p0, r = .returned a p0 ∧ f a p0 = .returned v p1 := by
  cases r with
  | returned a p0 => exact ⟨a, p0, rfl, h⟩
  | threw a => exact Ran.noConfusion h

theorem Parser.current_of_not_eof (p : Parser) (h : p.is_eof = false) :
    ∃ t, p.m_tokens[p.m_cursor]? = some t ∧ p.current = .returned t p := by
  have hlt : p.m_cursor < p.m_tokens.length := by
    simpa [Parser.is_eof] using h
  refine ⟨p.m_tokens[p.m_cursor], List.getElem?_eq_getElem hlt, ?_⟩
  unfold Parser.current
  rw [List.getElem?_eq_getElem hlt]

theorem Parser.lt_of_getElem? {p : Parser} {t : Token} (h : p.m_tokens[p.m_cursor]? = some t) :
    p.m_cursor < p.m_tokens.length := by
  by_contra hcon
  rw [List.getElem?_eq_none (by omega)] at h
  exact Option.noConfusion h

theorem Parser.current_eq {p : Parser} {t : Token} (h : p.m_tokens[p.m_cursor]? = some t) :
    p.current = .returned t p := by
  unfold Parser.current
  rw [h]

theorem Parser.is_eof_of_getElem? {p : Parser} {t : Token}
    (h : p.m_tokens[p.m_cursor]? = some t) : p.is_eof = false := by
  have := Parser.lt_of_getElem? h
  simp [Parser.is_eof, this]

/-- A call `consume(type)` returns: `false` with the parser unchanged, or `true` with the
cursor moved over the current token, which has the type asked for. -/
theorem Parser.consume_none (p : Parser) (type : TokenType) :
    p.consume type none = .returned false p ∨
      (∃ t, p.m_tokens[p.m_cursor]? = some t ∧ t.m_type = type ∧
        p.consume type none = .returned true { p with m_cursor := p.m_cursor + 1 }) := by
  unfold Parser.consume
  cases heof : p.is_eof with
  | true => exact Or.inl (by simp)
  | false =>
    obtain ⟨t, ht, hcur⟩ := p.current_of_not_eof heof
    rw [hcur]
    by_cases hty : t.m_type = type
    · exact Or.inr ⟨t, ht, hty, by simp [Ran.bind, hty]⟩
    · exact Or.inl (by simp [Ran.bind, hty])

theorem Ran.bind_none_ne {α : Type} (r : Ran Unit) (v : α) (p1 : Parser) :
    r.bind (fun _ p0 => Ran.returned (none : Option α) p0) ≠ .returned (some v) p1 := by
  cases r with
  | returned a p0 =>
    intro h
    simp only [Ran.bind] at h
    cases h
  | threw a => exact fun h => Ran.noConfusion h


theorem Ran.bind_returned {α β : Type} (a : α) (p : Parser) (f : α → Parser → Ran β) :
    (Ran.returned a p).bind f = f a p := rfl

theorem Parser.stub_expression_ne (p : Parser) (message : ParserMessage) (e : ExpressionNode)
    (p1 : Parser) :
    ((p.report message).bind fun _ p0 => Ran.returned (none : Option ExpressionNode) p0) ≠
      .returned (some e) p1 :=
  Ran.bind_none_ne _ _ _

theorem Parser.stub_statement_ne (p : Parser) (message : ParserMessage) (s : StatementNode)
    (p1 : Parser) :
    ((p.report message).bind fun _ p0 => Ran.returned (none : Option StatementNode) p0) ≠
      .returned (some s) p1 :=
  Ran.bind_none_ne _ _ _

/-- What `parse_expression` guarantees when it returns an expression: the expression is
built from the token under the cursor, that token alone is consumed, and another token
follows it. -/
theorem Parser.parse_expression_returned (p : Parser) (e : ExpressionNode) (p1 : Parser)
    (h : p.parse_expression = .returned (some e) p1) :
    ∃ t, p.m_tokens[p.m_cursor]? = some t ∧ p1 = { p with m_cursor := p.m_cursor + 1 } ∧
      p.m_cursor + 1 < p.m_tokens.length ∧
      ((t.m_type = TokenType.Identifier ∧ e = Identifier.new t.m_slice t.m_location) ∨
        ((t.m_type = TokenType.Number ∨ t.m_type = TokenType.String ∨
            t.m_type = TokenType.Keyword) ∧
          e = Literal.new t.m_slice t.m_location)) := by
  unfold Parser.parse_expression at h
  cases heof : p.is_eof with
  | true =>
    rw [heof] at h
    simp only [if_true] at h
    cases h
  | false =>
    obtain ⟨t, ht, hcur⟩ := p.current_of_not_eof heof
    rw [heof, hcur, Ran.bind_returned] at h
    simp only [Bool.false_eq_true, if_false] at h
    by_cases hbin : Parser.isBinaryType t.m_type = true
    · rw [if_pos hbin] at h
      exact absurd h (Parser.stub_expression_ne _ _ _ _)
    rw [if_neg hbin] at h
    by_cases hprim : (t.m_type == TokenType.Identifier || t.m_type == TokenType.Number ||
        t.m_type == TokenType.String ||
        (t.m_type == TokenType.Keyword && Parser.isLiteralKeyword t.m_slice)) = true
    · rw [if_pos hprim] at h
      have hcons : p.consume t.m_type none =
          .returned true { p with m_cursor := p.m_cursor + 1 } := by
        rcases p.consume_none t.m_type with hc | ⟨t2, ht2, -, hc⟩
        · exfalso
          unfold Parser.consume at hc
          rw [heof, hcur] at hc
          simp [Ran.bind] at hc
        · exact hc
      rw [hcons, Ran.bind_returned] at h
      cases heof2 : ({ p with m_cursor := p.m_cursor + 1 } : Parser).is_eof with
      | true =>
        rw [heof2] at h
        simp only [if_true] at h
        exact absurd h (Parser.stub_expression_ne _ _ _ _)
      | false =>
        obtain ⟨u, hu, hcur2⟩ := Parser.current_of_not_eof _ heof2
        have hlt2 : p.m_cursor + 1 < p.m_tokens.length := Parser.lt_of_getElem? hu
        rw [heof2, hcur2, Ran.bind_returned] at h
        simp only [Bool.false_eq_true, if_false] at h
        by_cases c1 : (u.m_type == TokenType.Period) = true
        · rw [if_pos c1] at h
          exact absurd h (Parser.stub_expression_ne _ _ _ _)
        rw [if_neg c1] at h
        by_cases c2 : (u.m_type == TokenType.Equal) = true
        · rw [if_pos c2] at h
          exact absurd h (Parser.stub_expression_ne _ _ _ _)
        rw [if_neg c2] at h
        by_cases c3 : (u.m_type == TokenType.OpenParen) = true
        · rw [if_pos c3] at h
          exact absurd h (Parser.stub_expression_ne _ _ _ _)
        rw [if_neg c3] at h
        by_cases c4 : (u.m_type == TokenType.Colon) = true
        · rw [if_pos c4] at h
          exact absurd h (Parser.stub_expression_ne _ _ _ _)
        rw [if_neg c4] at h
        by_cases c5 : Parser.isBinaryType u.m_type = true
        · rw [if_pos c5] at h
          exact absurd h (Parser.stub_expression_ne _ _ _ _)
        rw [if_neg c5] at h
        cases h
        refine ⟨t, ht, rfl, hlt2, ?_⟩
        by_cases hid : t.m_type = TokenType.Identifier
        · exact Or.inl ⟨hid, by simp [hid]⟩
        · refine Or.inr ⟨?_, by simp [hid]⟩
          simp only [Bool.or_eq_true, Bool.and_eq_true, beq_iff_eq] at hprim
          rcases hprim with ((hp | hp) | hp) | hp
          · exact absurd hp hid
          · exact Or.inl hp
          · exact Or.inr (Or.inl hp)
          · exact Or.inr (Or.inr hp.1)
    rw [if_neg hprim] at h
    by_cases harr : (t.m_type == TokenType.OpenSquareBracket) = true
    · rw [if_pos harr] at h
      exact absurd h (Parser.stub_expression_ne _ _ _ _)
    · rw [if_neg harr] at h
      exact absurd h (Parser.stub_expression_ne _ _ _ _)


theorem Parser.keyword_end_none_ne (p : Parser) (slice : Option (List Char))
    (location : Location) (s : StatementNode) (p1 : Parser) :
    p.parse_statement_keyword_end none slice location ≠ .returned (some s) p1 := by
  unfold Parser.parse_statement_keyword_end
  intro h
  obtain ⟨a, p0, -, hf⟩ := Ran.bind_eq_returned h
  cases hf

theorem Parser.keyword_end_bind_ne (r : Ran (Option StatementNode))
    (hr : ∀ a p0, r = .returned a p0 → a = none) (slice : Option (List Char))
    (location : Location) (s : StatementNode) (p1 : Parser) :
    (r.bind fun ret p0 => p0.parse_statement_keyword_end ret slice location) ≠
      .returned (some s) p1 := by
  intro h
  obtain ⟨a, p0, h1, hf⟩ := Ran.bind_eq_returned h
  rw [hr a p0 h1] at hf
  exact Parser.keyword_end_none_ne _ _ _ _ _ hf

theorem Parser.stub_statement_none (p : Parser) (message : ParserMessage)
    (a : Option StatementNode) (p0 : Parser)
    (h : ((p.report message).bind fun _ p2 => Ran.returned (none : Option StatementNode) p2) =
      .returned a p0) : a = none := by
  obtain ⟨u, p3, -, hf⟩ := Ran.bind_eq_returned h
  cases hf
  rfl

/-- What `parse_statement` guarantees when it returns a statement. -/
theorem Parser.parse_statement_returned (p : Parser) (s : StatementNode) (p1 : Parser)
    (h : p.parse_statement = .returned (some s) p1) : StatementSpec p s p1 := by
  unfold Parser.parse_statement at h
  cases heof : p.is_eof with
  | true =>
    rw [heof] at h
    simp only [if_true] at h
    cases h
  | false =>
    obtain ⟨t, ht, hcur⟩ := p.current_of_not_eof heof
    have hlt : p.m_cursor < p.m_tokens.length := Parser.lt_of_getElem? ht
    rw [heof, hcur, Ran.bind_returned] at h
    simp only [Bool.false_eq_true, if_false] at h
    by_cases hk : (t.m_type == TokenType.Keyword) = true
    · rw [if_pos hk] at h
      have hk' : t.m_type = TokenType.Keyword := by simpa using hk
      cases hsl : t.m_slice with
      | none =>
        rw [hsl] at h
        cases h
      | some sl =>
        rw [hsl] at h
        simp only [] at h
        by_cases k1 : (strcmp_eq sl "async".toList || strcmp_eq sl "function".toList) = true
        · rw [if_pos k1] at h
          exact absurd h (Parser.keyword_end_bind_ne _
            (fun a p0 h0 => Parser.stub_statement_none _ _ _ _ h0) _ _ _ _)
        rw [if_neg k1] at h
        by_cases k2 : strcmp_eq sl "return".toList = true
        · rw [if_pos k2] at h
          exact absurd h (Parser.keyword_end_bind_ne _
            (fun a p0 h0 => Parser.stub_statement_none _ _ _ _ h0) _ _ _ _)
        rw [if_neg k2] at h
        by_cases k3 : (strcmp_eq sl "const".toList || strcmp_eq sl "let".toList ||
            strcmp_eq sl "var".toList) = true
        · rw [if_pos k3] at h
          exact absurd h (Parser.keyword_end_none_ne _ _ _ _ _)
        rw [if_neg k3] at h
        by_cases k4 : (strcmp_eq sl "true".toList || strcmp_eq sl "false".toList ||
            strcmp_eq sl "null".toList) = true
        · rw [if_pos k4] at h
          obtain ⟨a, p0, -, hf⟩ := Ran.bind_eq_returned h
          exact absurd hf (Parser.keyword_end_none_ne _ _ _ _ _)
        rw [if_neg k4] at h
        by_cases k5 : strcmp_eq sl "if".toList = true
        · rw [if_pos k5] at h
          exact absurd h (Parser.keyword_end_bind_ne _
            (fun a p0 h0 => by
              unfold Parser.parse_if_statement at h0
              cases h0
              rfl) _ _ _ _)
        rw [if_neg k5] at h
        by_cases k6 : strcmp_eq sl "while".toList = true
        · rw [if_pos k6] at h
          exact absurd h (Parser.keyword_end_bind_ne _
            (fun a p0 h0 => by
              unfold Parser.parse_while_statement at h0
              cases h0
              rfl) _ _ _ _)
        rw [if_neg k6] at h
        by_cases k7 : strcmp_eq sl "debugger".toList = true
        · rw [if_pos k7] at h
          have hcons : p.consume TokenType.Keyword none =
              .returned true { p with m_cursor := p.m_cursor + 1 } := by
            rcases p.consume_none TokenType.Keyword with hc | ⟨t2, ht2, -, hc⟩
            · exfalso
              unfold Parser.consume at hc
              rw [heof, hcur] at hc
              simp [Ran.bind, hk'] at hc
            · exact hc
          rw [hcons, Ran.bind_returned] at h
          unfold Parser.parse_statement_keyword_end at h
          rcases Parser.consume_none { p with m_cursor := p.m_cursor + 1 } TokenType.Semicolon
            with hc | ⟨u, hu, -, hc⟩
          · rw [hc, Ran.bind_returned] at h
            cases h
            exact ⟨t, ht, rfl, hlt, Or.inr (Or.inl ⟨hk', rfl, Or.inl rfl⟩)⟩
          · rw [hc, Ran.bind_returned] at h
            cases h
            have hlt2 : p.m_cursor + 1 < p.m_tokens.length := Parser.lt_of_getElem? hu
            exact ⟨t, ht, rfl, hlt2, Or.inr (Or.inl ⟨hk', rfl, Or.inr rfl⟩)⟩
        rw [if_neg k7] at h
        by_cases k8 : (strcmp_eq sl "do".toList || strcmp_eq sl "for".toList) = true
        · rw [if_pos k8] at h
          cases h
        · rw [if_neg k8] at h
          exact absurd h (Parser.keyword_end_none_ne _ _ _ _ _)
    rw [if_neg hk] at h
    have hk' : t.m_type ≠ TokenType.Keyword := by simpa using hk
    by_cases hb : (t.m_type == TokenType.OpenBracket) = true
    · rw [if_pos hb] at h
      exact absurd h (Parser.stub_statement_ne _ _ _ _)
    rw [if_neg hb] at h
    by_cases hsemi : (t.m_type == TokenType.Semicolon) = true
    · rw [if_pos hsemi] at h
      have hsemi' : t.m_type = TokenType.Semicolon := by simpa using hsemi
      have hcons : p.consume TokenType.Semicolon none =
          .returned true { p with m_cursor := p.m_cursor + 1 } := by
        rcases p.consume_none TokenType.Semicolon with hc | ⟨t2, ht2, -, hc⟩
        · exfalso
          unfold Parser.consume at hc
          rw [heof, hcur] at hc
          simp [Ran.bind, hsemi'] at hc
        · exact hc
      rw [hcons, Ran.bind_returned] at h
      cases h
      exact ⟨t, ht, rfl, hlt, Or.inl ⟨hsemi', rfl, rfl⟩⟩
    rw [if_neg hsemi] at h
    have hsemi' : t.m_type ≠ TokenType.Semicolon := by simpa using hsemi
    split at h
    · have hcons : p.consume TokenType.Semicolon none = .returned false p := by
        rcases p.consume_none TokenType.Semicolon with hc | ⟨t2, ht2, hty, -⟩
        · exact hc
        · rw [ht] at ht2
          cases ht2
          exact absurd hty hsemi'
      rw [hcons, Ran.bind_returned] at h
      unfold Parser.parse_expression_statement at h
      obtain ⟨a, p0, hexp, hf⟩ := Ran.bind_eq_returned h
      cases a with
      | none => cases hf
      | some e =>
        cases hf
        obtain ⟨t2, ht2, hp0, hlt2, hkind⟩ := p.parse_expression_returned e _ hexp
        rw [ht] at ht2
        cases ht2
        subst hp0
        refine ⟨t, ht, rfl, Nat.le_of_lt hlt2, Or.inr (Or.inr ?_)⟩
        rcases hkind with ⟨hty, he⟩ | ⟨hty, he⟩
        · subst he
          exact Or.inl ⟨hty, rfl, rfl⟩
        · subst he
          refine Or.inr ⟨?_, rfl, rfl⟩
          rcases hty with hty | hty | hty
          · exact Or.inl hty
          · exact Or.inr hty
          · exact absurd hty hk'
    · cases h


theorem StatementSpec.cursor {p : Parser} {s : StatementNode} {p1 : Parser}
    (h : StatementSpec p s p1) :
    p1.m_tokens = p.m_tokens ∧ p.m_cursor + 1 ≤ p1.m_cursor ∧ p1.m_cursor ≤ p.m_cursor + 2 ∧
      p1.m_cursor ≤ p.m_tokens.length := by
  obtain ⟨t, -, h1, h2, hk⟩ := h
  refine ⟨h1, ?_, ?_, h2⟩
  · rcases hk with ⟨-, -, hc⟩ | ⟨-, -, hc | hc⟩ | ⟨-, -, hc⟩ | ⟨-, -, hc⟩ <;> omega
  · rcases hk with ⟨-, -, hc⟩ | ⟨-, -, hc | hc⟩ | ⟨-, -, hc⟩ | ⟨-, -, hc⟩ <;> omega

theorem StatementSpec.slice {p : Parser} {s : StatementNode} {p1 : Parser}
    (h : StatementSpec p s p1) : SliceSpec s.base := by
  obtain ⟨t, -, -, -, hk⟩ := h
  rcases hk with ⟨-, hs, -⟩ | ⟨-, hs, -⟩ | ⟨-, hs, -⟩ | ⟨-, hs, -⟩
  · subst hs; exact ⟨rfl, Or.inl rfl⟩
  · subst hs; exact ⟨rfl, Or.inr (Or.inl rfl)⟩
  · subst hs; exact ⟨rfl, Or.inr (Or.inr rfl)⟩
  · subst hs; exact ⟨rfl, Or.inr (Or.inr rfl)⟩

/-- The loop of `Parser::parse` ends on every token sequence, and a Program it returns
holds at most one statement per token, each the base subobject of an EmptyStatement, a
DebuggerStatement or an ExpressionStatement. -/
theorem Parser.parse_loop_statements :
    ∀ (fuel : Nat) (p : Parser) (statements : List Statement),
      p.m_tokens.length - p.m_cursor ≤ fuel → p.m_cursor ≤ p.m_tokens.length →
      statements.length ≤ p.m_cursor → (∀ st ∈ statements, SliceSpec st) →
      ∃ r, Parser.parse_loop fuel p statements = some r ∧
        ∀ program p1, r = .returned (some program) p1 →
          program.m_statements.length ≤ p.m_tokens.length ∧
            ∀ st ∈ program.m_statements, SliceSpec st := by
  intro fuel
  induction fuel with
  | zero =>
    intro p statements hf hc hn hs
    have heof : p.is_eof = true := by
      simp only [Parser.is_eof, decide_eq_true_eq]
      omega
    refine ⟨.returned (some { m_statements := statements }) p,
        by simp [Parser.parse_loop, heof], ?_⟩
    intro program p1 he
    cases he
    exact ⟨by show statements.length ≤ _; omega, hs⟩
  | succ fuel ih =>
    intro p statements hf hc hn hs
    cases heof : p.is_eof with
    | true =>
      refine ⟨.returned (some { m_statements := statements }) p,
        by simp [Parser.parse_loop, heof], ?_⟩
      intro program p1 he
      cases he
      exact ⟨by show statements.length ≤ _; omega, hs⟩
    | false =>
      rw [Parser.parse_loop, heof]
      simp only [Bool.false_eq_true, if_false]
      cases hps : p.parse_statement with
      | threw a =>
        refine ⟨_, rfl, ?_⟩
        intro program p1 he
        cases he
      | returned value p0 =>
        cases value with
        | none =>
          refine ⟨_, rfl, ?_⟩
          intro program p1 he
          cases he
        | some s =>
          have hspec := p.parse_statement_returned s p0 hps
          obtain ⟨c1, c2, c3, c4⟩ := hspec.cursor
          obtain ⟨r, hr, hprog⟩ := ih p0 (statements ++ [s.base])
            (by rw [c1]; omega) (by rw [c1]; exact c4)
            (by rw [List.length_append, List.length_singleton]; omega)
            (by
              intro st hst
              rcases List.mem_append.1 hst with h1 | h1
              · exact hs st h1
              · rw [List.mem_singleton.1 h1]; exact hspec.slice)
          refine ⟨r, hr, ?_⟩
          intro program p1 he
          have := hprog program p1 he
          rwa [c1] at this

theorem Parser.parse_new_spec (tokens : List Token) :
    ∃ r, (Parser.new tokens).parse = some r ∧
      ∀ program p1, r = .returned (some program) p1 →
        program.m_statements.length ≤ tokens.length ∧
          ∀ st ∈ program.m_statements, SliceSpec st :=
  Parser.parse_loop_statements _ (Parser.new tokens) [] (Nat.le_refl _) (Nat.zero_le _)
    (Nat.le_refl 0) (fun _ h => absurd h (List.not_mem_nil _))

/-! ## The last claims about the parser -/

/-- C24: a call of `parse_statement` that returns a statement leaves the token vector as
it is and moves the cursor forward by one or two tokens, never past the end;
`Parser::parse` ends on every token sequence; and a Program it returns has at most as
many statements as there are tokens. -/
theorem parse_progress :
    (∀ (p : Parser) (s : StatementNode) (p1 : Parser),
      p.parse_statement = .returned (some s) p1 →
        p1.m_tokens = p.m_tokens ∧ p.m_cursor + 1 ≤ p1.m_cursor ∧
          p1.m_cursor ≤ p.m_cursor + 2 ∧ p1.m_cursor ≤ p.m_tokens.length) ∧
    (∀ tokens : List Token, ∃ r, (Parser.new tokens).parse = some r) ∧
    (∀ (tokens : List Token) (program : Program) (p1 : Parser),
      (Parser.new tokens).parse = some (.returned (some program) p1) →
        program.statements.length ≤ tokens.length) := by
  refine ⟨?_, ?_, ?_⟩
  · intro p s p1 h
    exact (p.parse_statement_returned s p1 h).cursor
  · intro tokens
    obtain ⟨r, hr, -⟩ := Parser.parse_new_spec tokens
    exact ⟨r, hr⟩
  · intro tokens program p1 h
    obtain ⟨r, hr, hprog⟩ := Parser.parse_new_spec tokens
    rw [h] at hr
    cases hr
    exact (hprog program p1 rfl).1

theorem parse_progress_witness :
    ((Parser.mk [⟨.Keyword, some "debugger".toList, ⟨none, 0, 0, 0⟩⟩,
          ⟨.Semicolon, some [';'], ⟨none, 8, 0, 0⟩⟩] 2 []).m_tokens =
        (Parser.new [⟨.Keyword, some "debugger".toList, ⟨none, 0, 0, 0⟩⟩,
          ⟨.Semicolon, some [';'], ⟨none, 8, 0, 0⟩⟩]).m_tokens ∧
      (Parser.new [⟨.Keyword, some "debugger".toList, ⟨none, 0, 0, 0⟩⟩,
          ⟨.Semicolon, some [';'], ⟨none, 8, 0, 0⟩⟩]).m_cursor + 1 ≤ (2 : Nat) ∧
      (2 : Nat) ≤ (Parser.new [⟨.Keyword, some "debugger".toList, ⟨none, 0, 0, 0⟩⟩,
          ⟨.Semicolon, some [';'], ⟨none, 8, 0, 0⟩⟩]).m_cursor + 2 ∧
      (2 : Nat) ≤ (Parser.new [⟨.Keyword, some "debugger".toList, ⟨none, 0, 0, 0⟩⟩,
          ⟨.Semicolon, some [';'], ⟨none, 8, 0, 0⟩⟩]).m_tokens.length) ∧
    (Program.mk [⟨"DebuggerStatement", Location.default⟩]).statements.length ≤
      [Token.mk .Keyword (some "debugger".toList) ⟨none, 0, 0, 0⟩,
        Token.mk .Semicolon (some [';']) ⟨none, 8, 0, 0⟩].length :=
  ⟨parse_progress.1
      (Parser.new [⟨.Keyword, some "debugger".toList, ⟨none, 0, 0, 0⟩⟩,
        ⟨.Semicolon, some [';'], ⟨none, 8, 0, 0⟩⟩])
      (DebuggerStatement.new ⟨none, 0, 0, 0⟩)
      (Parser.mk [⟨.Keyword, some "debugger".toList, ⟨none, 0, 0, 0⟩⟩,
        ⟨.Semicolon, some [';'], ⟨none, 8, 0, 0⟩⟩] 2 []) (by decide),
    parse_progress.2.2
      [⟨.Keyword, some "debugger".toList, ⟨none, 0, 0, 0⟩⟩,
        ⟨.Semicolon, some [';'], ⟨none, 8, 0, 0⟩⟩]
      (Program.mk [⟨"DebuggerStatement", Location.default⟩])
      (Parser.mk [⟨.Keyword, some "debugger".toList, ⟨none, 0, 0, 0⟩⟩,
        ⟨.Semicolon, some [';'], ⟨none, 8, 0, 0⟩⟩] 2 []) (by decide)⟩

/-- C27: what the parser accepts.  A statement `parse_statement` returns is an
EmptyStatement, a DebuggerStatement, or an ExpressionStatement whose expression is an
Identifier built from the Identifier token under the cursor or a Literal built from the
Number or String token under the cursor; and every statement of a Program that
`Parser::parse` returns is (the base subobject of) an EmptyStatement, a
DebuggerStatement or an ExpressionStatement.  No other statement or expression is ever
built. -/
theorem parse_accepts :
    (∀ (p : Parser) (s : StatementNode) (p1 : Parser),
      p.parse_statement = .returned (some s) p1 →
        ∃ t, p.m_tokens[p.m_cursor]? = some t ∧
          ((t.m_type = TokenType.Semicolon ∧ s = EmptyStatement.new t.m_location) ∨
            (t.m_type = TokenType.Keyword ∧ s = DebuggerStatement.new t.m_location) ∨
            (t.m_type = TokenType.Identifier ∧
              s = ExpressionStatement.new (Identifier.new t.m_slice t.m_location)
                Location.default) ∨
            ((t.m_type = TokenType.Number ∨ t.m_type = TokenType.String) ∧
              s = ExpressionStatement.new (Literal.new t.m_slice t.m_location)
                Location.default))) ∧
    (∀ (tokens : List Token) (program : Program) (p1 : Parser),
      (Parser.new tokens).parse = some (.returned (some program) p1) →
        ∀ st ∈ program.statements,
          st.getClassName = "EmptyStatement" ∨ st.getClassName = "DebuggerStatement" ∨
            st.getClassName = "ExpressionStatement") := by
  refine ⟨?_, ?_⟩
  · intro p s p1 h
    obtain ⟨t, ht, -, -, hk⟩ := p.parse_statement_returned s p1 h
    refine ⟨t, ht, ?_⟩
    rcases hk with ⟨h1, h2, -⟩ | ⟨h1, h2, -⟩ | ⟨h1, h2, -⟩ | ⟨h1, h2, -⟩
    · exact Or.inl ⟨h1, h2⟩
    · exact Or.inr (Or.inl ⟨h1, h2⟩)
    · exact Or.inr (Or.inr (Or.inl ⟨h1, h2⟩))
    · exact Or.inr (Or.inr (Or.inr ⟨h1, h2⟩))
  · intro tokens program p1 h st hst
    obtain ⟨r, hr, hprog⟩ := Parser.parse_new_spec tokens
    rw [h] at hr
    cases hr
    exact ((hprog program p1 rfl).2 st hst).2


theorem parse_accepts_witness :
    (∃ t, (Parser.new [⟨.Number, some ['1'], ⟨none, 0, 0, 0⟩⟩,
          ⟨.Semicolon, some [';'], ⟨none, 1, 0, 0⟩⟩]).m_tokens[
          (Parser.new [⟨.Number, some ['1'], ⟨none, 0, 0, 0⟩⟩,
            ⟨.Semicolon, some [';'], ⟨none, 1, 0, 0⟩⟩]).m_cursor]? = some t ∧
      ((t.m_type = TokenType.Semicolon ∧
          ExpressionStatement.new (Literal.new (some ['1']) ⟨none, 0, 0, 0⟩) Location.default =
            EmptyStatement.new t.m_location) ∨
        (t.m_type = TokenType.Keyword ∧
          ExpressionStatement.new (Literal.new (some ['1']) ⟨none, 0, 0, 0⟩) Location.default =
            DebuggerStatement.new t.m_location) ∨
        (t.m_type = TokenType.Identifier ∧
          ExpressionStatement.new (Literal.new (some ['1']) ⟨none, 0, 0, 0⟩) Location.default =
            ExpressionStatement.new (Identifier.new t.m_slice t.m_location) Location.default) ∨
        ((t.m_type = TokenType.Number ∨ t.m_type = TokenType.String) ∧
          ExpressionStatement.new (Literal.new (some ['1']) ⟨none, 0, 0, 0⟩) Location.default =
            ExpressionStatement.new (Literal.new t.m_slice t.m_location) Location.default))) ∧
    ∀ st ∈ (Program.mk [⟨"ExpressionStatement", Location.default⟩,
        ⟨"EmptyStatement", Location.default⟩]).statements,
      st.getClassName = "EmptyStatement" ∨ st.getClassName = "DebuggerStatement" ∨
        st.getClassName = "ExpressionStatement" :=
  ⟨parse_accepts.1
      (Parser.new [⟨.Number, some ['1'], ⟨none, 0, 0, 0⟩⟩,
        ⟨.Semicolon, some [';'], ⟨none, 1, 0, 0⟩⟩])
      (ExpressionStatement.new (Literal.new (some ['1']) ⟨none, 0, 0, 0⟩) Location.default)
      (Parser.mk [⟨.Number, some ['1'], ⟨none, 0, 0, 0⟩⟩,
        ⟨.Semicolon, some [';'], ⟨none, 1, 0, 0⟩⟩] 1 []) (by decide),
    parse_accepts.2
      [⟨.Number, some ['1'], ⟨none, 0, 0, 0⟩⟩, ⟨.Semicolon, some [';'], ⟨none, 1, 0, 0⟩⟩]
      (Program.mk [⟨"ExpressionStatement", Location.default⟩,
        ⟨"EmptyStatement", Location.default⟩])
      (Parser.mk [⟨.Number, some ['1'], ⟨none, 0, 0, 0⟩⟩,
        ⟨.Semicolon, some [';'], ⟨none, 1, 0, 0⟩⟩] 2 []) (by decide)⟩


end JsParser
